import Mathlib

/-!
# Version discovery of the artifactory resource (`check/main.go`, `out/main.go`)

A shallow embedding of the `check` executable's version-discovery code
(`SanitizeVersion`, `SemverFromPath`, `RetrieveRange`,
`ResultsToSemverFilesFiltered`, `SemverFilesToVersions`, `RetrieveVersions`)
together with the library routines it calls (`strings`, `path/filepath`,
`strconv`, `regexp`, `sort`, `github.com/blang/semver`), and of
`defaultingParams` of the `out` executable.

Modelling conventions.

* A Go `string` is modelled by the list of its code points (`Str`); the model
  therefore covers the strings that are valid UTF-8.  Where Go counts bytes
  (`len`), the model counts UTF-8 bytes (`byteLen`).
* `uint64` and `int` values are natural numbers / integers with the 64-bit
  bounds checked where the Go code can overflow.
* A Go `error` is a format text with its arguments (`GoError`); a Go pair
  `(value, error)` is a Lean pair whose second component is `none` for `nil`.
* A run-time panic (calling a `nil` function value) is the result `none` of an
  `Option`-valued function.
* Log output (`msg.Logln`) is not modelled.
-/

/-- A Go string, as the list of its code points. -/
abbrev Str := List Char

/-- A Go `error` value: the format text of its message and the arguments that
are spliced into it. -/
structure GoError where
  format : String
  args : List Str
deriving DecidableEq, Repr

deriving instance DecidableEq for Except

/-- The call `errors.New(msg)`. -/
def errors.New (msg : String) : GoError := ⟨msg, []⟩

/-- The error `errors.New(msg + err.Error())`. -/
def GoError.wrap (msg : String) (err : GoError) : GoError := ⟨msg ++ err.format, err.args⟩

/-- The number of bytes of the UTF-8 encoding of a string (Go's `len`). -/
def byteLen (s : Str) : Nat := (s.map Char.utf8Size).sum

/-! ## `strings` -/

/-- The call `strings.Split(s, sep)` for a separator of one ASCII character. -/
def strings.Split : Str → Char → List Str
  | [], _ => [[]]
  | c :: cs, sep =>
    if c = sep then [] :: strings.Split cs sep
    else
      match strings.Split cs sep with
      | [] => [[c]]
      | h :: t => (c :: h) :: t

/-- Cut a string at the first occurrence of `sep`: the text before and the text after. -/
def strings.Cut : Str → Char → Option (Str × Str)
  | [], _ => none
  | c :: cs, sep =>
    if c = sep then some ([], cs)
    else
      match strings.Cut cs sep with
      | none => none
      | some (a, b) => some (c :: a, b)

/-- The call `strings.SplitN(s, sep, n)` for `n ≥ 0` and a separator of one ASCII character. -/
def strings.SplitN (s : Str) (sep : Char) : Nat → List Str
  | 0 => []
  | 1 => [s]
  | n + 2 =>
    match strings.Cut s sep with
    | none => [s]
    | some (a, b) => a :: strings.SplitN b sep (n + 1)

/-- The call `strings.Join(parts, sep)` for a separator of one character. -/
def strings.Join : List Str → Char → Str
  | [], _ => []
  | [p], _ => p
  | p :: q :: ps, sep => p ++ sep :: strings.Join (q :: ps) sep

/-- The call `strings.HasSuffix(s, suffix)`. -/
def strings.HasSuffix (s suffix : Str) : Bool := suffix.reverse.isPrefixOf s.reverse

/-- The call `strings.TrimSuffix(s, suffix)`. -/
def strings.TrimSuffix (s suffix : Str) : Str :=
  if strings.HasSuffix s suffix then s.take (s.length - suffix.length) else s

/-- The call `strings.IndexRune(s, r)` (a code-point index), `none` for `-1`. -/
def strings.IndexRune : Str → Char → Option Nat
  | [], _ => none
  | c :: cs, r => if c = r then some 0 else (strings.IndexRune cs r).map (· + 1)

/-- The call `strings.IndexFunc(s, f)` (a code-point index), `none` for `-1`. -/
def strings.IndexFunc : Str → (Char → Bool) → Option Nat
  | [], _ => none
  | c :: cs, f => if f c then some 0 else (strings.IndexFunc cs f).map (· + 1)

/-- The call `strings.Contains(s, "x")` for a substring of one character. -/
def strings.ContainsChar (s : Str) (c : Char) : Bool := s.contains c

/-- The call `strings.Replace(s, old, new, 1)`: the first occurrence of the non-empty
`old` is replaced. -/
def strings.ReplaceFirst (old new : Str) : Str → Str
  | [] => []
  | c :: cs =>
    if old.isPrefixOf (c :: cs) then new ++ (c :: cs).drop old.length
    else c :: strings.ReplaceFirst old new cs

/-- The call `strings.Replace(s, " ", "", -1)`. -/
def strings.RemoveSpaces (s : Str) : Str := s.filter (· ≠ ' ')

/-- The predicate `unicode.IsSpace`. -/
def unicode.IsSpace (c : Char) : Bool :=
  let n := c.toNat
  n = 0x09 || n = 0x0A || n = 0x0B || n = 0x0C || n = 0x0D || n = 0x20 || n = 0x85 || n = 0xA0
    || n = 0x1680 || (0x2000 ≤ n && n ≤ 0x200A) || n = 0x2028 || n = 0x2029 || n = 0x202F
    || n = 0x205F || n = 0x3000

/-- The call `strings.TrimSpace(s)`. -/
def strings.TrimSpace (s : Str) : Str :=
  ((s.dropWhile unicode.IsSpace).reverse.dropWhile unicode.IsSpace).reverse

/-- The first code points of the decimal-digit blocks of Unicode (category Nd); each block
holds ten digits, except the mathematical digits at U+1D7CE which are fifty. -/
def unicode.digitBlocks : List Nat :=
  [0x0030, 0x0660, 0x06F0, 0x07C0, 0x0966, 0x09E6, 0x0A66, 0x0AE6, 0x0B66, 0x0BE6, 0x0C66,
   0x0CE6, 0x0D66, 0x0DE6, 0x0E50, 0x0ED0, 0x0F20, 0x1040, 0x1090, 0x17E0, 0x1810, 0x1946,
   0x19D0, 0x1A80, 0x1A90, 0x1B50, 0x1BB0, 0x1C40, 0x1C50, 0xA620, 0xA8D0, 0xA900, 0xA9D0,
   0xA9F0, 0xAA50, 0xABF0, 0xFF10, 0x104A0, 0x10D30, 0x11066, 0x110F0, 0x11136, 0x111D0,
   0x112F0, 0x11450, 0x114D0, 0x11650, 0x116C0, 0x11730, 0x118E0, 0x11950, 0x11C50, 0x11D50,
   0x11DA0, 0x11F50, 0x16A60, 0x16AC0, 0x16B50, 0x1E140, 0x1E2F0, 0x1E4F0, 0x1E950, 0x1FBF0]

/-- The predicate `unicode.IsDigit` (Unicode category Nd). -/
def unicode.IsDigit (c : Char) : Bool :=
  let n := c.toNat
  unicode.digitBlocks.any (fun b => b ≤ n && n < b + 10) || (0x1D7CE ≤ n && n ≤ 0x1D7FF)

/-! ## `path/filepath` -/

/-- The loop of `filepath.Ext`, run over the reversed path: `acc` is the text already
passed. -/
def filepath.Ext.loop : Str → Str → Str
  | [], _ => []
  | c :: cs, acc =>
    if c = '/' then []
    else if c = '.' then '.' :: acc
    else filepath.Ext.loop cs (c :: acc)

/-- The call `filepath.Ext(path)`: the suffix beginning at the final dot of the final
element of `path`, empty if there is none. -/
def filepath.Ext (path : Str) : Str := filepath.Ext.loop path.reverse []

/-! ## `strconv` -/

/-- The ASCII decimal digits. -/
def isAsciiDigit (c : Char) : Bool := 48 ≤ c.toNat && c.toNat ≤ 57

/-- The value of a string of ASCII decimal digits. -/
def decimalValue (s : Str) : Nat := s.foldl (fun acc c => acc * 10 + (c.toNat - 48)) 0

/-- The call `strconv.ParseUint(s, 10, 64)`. -/
def strconv.ParseUint (s : Str) : Except GoError Nat :=
  if s = [] then .error ⟨"strconv.ParseUint: parsing %q: invalid syntax", [s]⟩
  else if !s.all isAsciiDigit then .error ⟨"strconv.ParseUint: parsing %q: invalid syntax", [s]⟩
  else if 2 ^ 64 ≤ decimalValue s then
    .error ⟨"strconv.ParseUint: parsing %q: value out of range", [s]⟩
  else .ok (decimalValue s)

/-- The decimal digits of `n`, most significant first, put before `acc`; `fuel` bounds the
number of digits. -/
def strconv.formatLoop : Nat → Nat → Str → Str
  | 0, _, acc => acc
  | fuel + 1, n, acc =>
    if n / 10 = 0 then Char.ofNat (48 + n % 10) :: acc
    else strconv.formatLoop fuel (n / 10) (Char.ofNat (48 + n % 10) :: acc)

/-- The call `strconv.FormatUint(n, 10)` (also `strconv.AppendUint`). -/
def strconv.FormatUint (n : Nat) : Str := strconv.formatLoop (n + 1) n []

/-- The call `strconv.Atoi(s)` on a platform with 64-bit `int`; `none` stands for an error. -/
def strconv.Atoi (s : Str) : Option Int :=
  let body : Str := match s with
    | '+' :: t => t
    | '-' :: t => t
    | _ => s
  let neg : Bool := match s with
    | '-' :: _ => true
    | _ => false
  if body = [] then none
  else if !body.all isAsciiDigit then none
  else
    let v : Int := if neg then -(decimalValue body : Int) else (decimalValue body : Int)
    if v < -(2 : Int) ^ 63 || (2 : Int) ^ 63 ≤ v then none else some v

/-- The call `strconv.Itoa(i)`. -/
def strconv.Itoa (i : Int) : Str :=
  if i < 0 then '-' :: strconv.FormatUint i.natAbs else strconv.FormatUint i.natAbs

/-- The sum `i + 1` of a 64-bit `int`, which wraps around at `2^63`. -/
def int64Succ (i : Int) : Int := if i + 1 = (2 : Int) ^ 63 then -(2 : Int) ^ 63 else i + 1

/-! ## `regexp`

The pattern of `SEMVER_REGEX` uses literals, character classes, concatenation, ordered
alternation, the greedy operators `?`, `*`, `+`, and capture groups.  The matcher below
enumerates, for one start position, the ways the pattern can match in the order in which a
backtracking matcher tries them; the first of them is the match Go's leftmost-first
semantics selects. -/

/-- The abstract syntax of the regular expressions used by the program. -/
inductive Regex where
  | cls (p : Char → Bool)
  | seq (a b : Regex)
  | alt (a b : Regex)
  | opt (a : Regex)
  | star (a : Regex)
  | plus (a : Regex)
  | cap (i : Nat) (a : Regex)

/-- A state of the matcher: the text not yet consumed and the capture groups closed so
far (the latest first). -/
structure MState where
  rest : Str
  caps : List (Nat × Str)
deriving DecidableEq, Repr

/-- The greedy iteration of one matching step; `fuel` bounds the number of iterations and
is the length of the text that is left, since every iteration of the patterns at hand
consumes a character. -/
def Regex.starLoop (step : MState → List MState) : Nat → MState → List MState
  | 0, st => [st]
  | fuel + 1, st => (step st).flatMap (Regex.starLoop step fuel) ++ [st]

/-- All the ways the pattern matches a prefix of the text of a state, in the order of
preference of a backtracking matcher. -/
def Regex.run : Regex → MState → List MState
  | .cls p, st =>
    match st.rest with
    | [] => []
    | c :: t => if p c then [{ st with rest := t }] else []
  | .seq a b, st => (a.run st).flatMap (fun t => b.run t)
  | .alt a b, st => a.run st ++ b.run st
  | .opt a, st => a.run st ++ [st]
  | .star a, st => Regex.starLoop (fun t => a.run t) st.rest.length st
  | .plus a, st => (a.run st).flatMap (fun t => Regex.starLoop (fun u => a.run u) t.rest.length t)
  | .cap i a, st =>
    (a.run st).map (fun t =>
      { t with caps := (i, st.rest.take (st.rest.length - t.rest.length)) :: t.caps })

/-- The text of capture group `i` in a final state; the empty string when the group did
not take part in the match. -/
def MState.group (st : MState) (i : Nat) : Str := (st.caps.lookup i).getD []

/-- The submatches `[whole, group 1, ..., group n]` of the first match that starts at the
beginning of `s`. -/
def Regex.matchAt (re : Regex) (n : Nat) (s : Str) : Option (List Str) :=
  ((re.run ⟨s, []⟩).head?).map (fun st =>
    s.take (s.length - st.rest.length) :: (List.range n).map (fun i => st.group (i + 1)))

/-- The first element of `FindAllStringSubmatch(s, -1)`: the submatches of the leftmost
match, `none` when the result is empty. -/
def Regex.FindStringSubmatch (re : Regex) (n : Nat) : Str → Option (List Str)
  | [] => re.matchAt n []
  | c :: t =>
    match re.matchAt n (c :: t) with
    | some m => some m
    | none => Regex.FindStringSubmatch re n t

/-- The literal `v` under the flag `(?i)`. -/
def reV : Regex := .cls (fun c => c = 'v' || c = 'V')

/-- A literal character that has no case variants. -/
def reLit (x : Char) : Regex := .cls (fun c => c = x)

/-- The class `\d` (ASCII digits). -/
def reDigit : Regex := .cls isAsciiDigit

/-- The class `[\da-z\-]` under the flag `(?i)`: digits, the letters of both cases, the
two code points U+017F and U+212A whose simple case folding is a letter, and the hyphen. -/
def isIdentChar (c : Char) : Bool :=
  isAsciiDigit c || (97 ≤ c.toNat && c.toNat ≤ 122) || (65 ≤ c.toNat && c.toNat ≤ 90)
    || c.toNat = 0x17F || c.toNat = 0x212A || c = '-'

/-- The numeric component `(?:0|[1-9]\d*)`. -/
def reNum : Regex :=
  .alt (reLit '0') (.seq (.cls (fun c => 49 ≤ c.toNat && c.toNat ≤ 57)) (.star reDigit))

/-- The identifier list `[\da-z\-]+(?:\.[\da-z\-]+)*`. -/
def reIdents : Regex :=
  .seq (.plus (.cls isIdentChar)) (.star (.seq (reLit '.') (.plus (.cls isIdentChar))))

/-- The content of the second capture group of `SEMVER_REGEX`:
`(?:0|[1-9]\d*)\.?(?:0|[1-9]\d*)?\.?(?:0|[1-9]\d*)(?:-IDENTS)?(?:\+IDENTS)?`. -/
def reVersion : Regex :=
  .seq reNum (.seq (.opt (reLit '.')) (.seq (.opt reNum) (.seq (.opt (reLit '.'))
    (.seq reNum (.seq (.opt (.seq (reLit '-') reIdents)) (.opt (.seq (reLit '+') reIdents)))))))

/-- The compiled pattern `"(?i)" + SEMVER_REGEX`, that is `(v|-|_)?v?(VERSION)`. -/
def SEMVER_REGEX : Regex :=
  .seq (.opt (.cap 1 (.alt reV (.alt (reLit '-') (reLit '_'))))) (.seq (.opt reV) (.cap 2 reVersion))

/-! ## `github.com/blang/semver`: versions -/

namespace semver

/-- The constant `numbers`. -/
def numbers : Str := "0123456789".toList

/-- The constant `alphanum` (`alphas + numbers`). -/
def alphanum : Str :=
  "abcdefghijklmnopqrstuvwxyzABCDEFGHIJKLMNOPQRSTUVWXYZ-0123456789".toList

/-- A pre-release identifier (`PRVersion`). -/
structure PRVersion where
  VersionStr : Str
  VersionNum : Nat
  IsNum : Bool
deriving DecidableEq, Repr

/-- A semantic version (`Version`). -/
structure Version where
  Major : Nat
  Minor : Nat
  Patch : Nat
  Pre : List PRVersion
  Build : List Str
deriving DecidableEq, Repr

/-- The function `containsOnly`. -/
def containsOnly (s set : Str) : Bool := s.all (fun r => set.contains r)

/-- The function `hasLeadingZeroes`. -/
def hasLeadingZeroes (s : Str) : Bool :=
  match s with
  | c :: _ :: _ => c = '0'
  | _ => false

/-- The function `NewPRVersion`. -/
def NewPRVersion (s : Str) : Except GoError PRVersion :=
  if s.length = 0 then .error ⟨"Prerelease is empty", []⟩
  else if containsOnly s numbers then
    if hasLeadingZeroes s then
      .error ⟨"Numeric PreRelease version must not contain leading zeroes %q", [s]⟩
    else
      match strconv.ParseUint s with
      | .error err => .error err
      | .ok num => .ok { VersionStr := [], VersionNum := num, IsNum := true }
  else if containsOnly s alphanum then
    .ok { VersionStr := s, VersionNum := 0, IsNum := false }
  else .error ⟨"Invalid character(s) found in prerelease %q", [s]⟩

/-- The loop of `Parse` over the pre-release identifiers. -/
def parsePrerelease : List Str → Except GoError (List PRVersion)
  | [] => .ok []
  | prstr :: rest =>
    match NewPRVersion prstr with
    | .error err => .error err
    | .ok parsedPR =>
      match parsePrerelease rest with
      | .error err => .error err
      | .ok prs => .ok (parsedPR :: prs)

/-- The loop of `Parse` over the build meta data. -/
def parseBuild : List Str → Except GoError (List Str)
  | [] => .ok []
  | str :: rest =>
    if str.length = 0 then .error ⟨"Build meta data is empty", []⟩
    else if !containsOnly str alphanum then
      .error ⟨"Invalid character(s) found in build meta data %q", [str]⟩
    else
      match parseBuild rest with
      | .error err => .error err
      | .ok bs => .ok (str :: bs)

/-- One of the numbers major, minor, patch of `Parse`; `what` and `lower` name it in the
messages. -/
def parseNumber (what lower : String) (s : Str) : Except GoError Nat :=
  if !containsOnly s numbers then
    .error ⟨"Invalid character(s) found in " ++ lower ++ " number %q", [s]⟩
  else if hasLeadingZeroes s then
    .error ⟨what ++ " number must not contain leading zeroes %q", [s]⟩
  else strconv.ParseUint s

/-- The part of the patch text from which the build meta data is cut off: the list of
build identifiers and what is left. -/
def cutBuild (patchStr : Str) : List Str × Str :=
  match strings.IndexRune patchStr '+' with
  | some buildIndex => (strings.Split (patchStr.drop (buildIndex + 1)) '.', patchStr.take buildIndex)
  | none => ([], patchStr)

/-- The part of the patch text from which the pre-release is cut off. -/
def cutPrerelease (patchStr : Str) : List Str × Str :=
  match strings.IndexRune patchStr '-' with
  | some preIndex => (strings.Split (patchStr.drop (preIndex + 1)) '.', patchStr.take preIndex)
  | none => ([], patchStr)

/-- The function `Parse` (`Make` is the same function). -/
def Parse (s : Str) : Except GoError Version :=
  if s.length = 0 then .error ⟨"Version string empty", []⟩
  else
    match strings.SplitN s '.' 3 with
    | [p0, p1, p2] =>
      match parseNumber "Major" "major" p0 with
      | .error err => .error err
      | .ok major =>
        match parseNumber "Minor" "minor" p1 with
        | .error err => .error err
        | .ok minor =>
          match parseNumber "Patch" "patch" (cutPrerelease (cutBuild p2).2).2 with
          | .error err => .error err
          | .ok patch =>
            match parsePrerelease (cutPrerelease (cutBuild p2).2).1 with
            | .error err => .error err
            | .ok pre =>
              match parseBuild (cutBuild p2).1 with
              | .error err => .error err
              | .ok build =>
                .ok { Major := major, Minor := minor, Patch := patch, Pre := pre, Build := build }
    | _ => .error ⟨"No Major.Minor.Patch elements found", []⟩

/-- The function `Make`. -/
def Make (s : Str) : Except GoError Version := Parse s

/-- The method `PRVersion.String`. -/
def PRVersion.String (v : PRVersion) : Str :=
  if v.IsNum then strconv.FormatUint v.VersionNum else v.VersionStr

/-- The method `Version.String`. -/
def Version.String (v : Version) : Str :=
  strconv.FormatUint v.Major ++ '.' :: strconv.FormatUint v.Minor ++ '.' ::
    strconv.FormatUint v.Patch
    ++ (if 0 < v.Pre.length then '-' :: strings.Join (v.Pre.map PRVersion.String) '.' else [])
    ++ (if 0 < v.Build.length then '+' :: strings.Join v.Build '.' else [])

/-- The comparison of two `uint64`: `-1`, `0` or `1`. -/
def compareNat (a b : Nat) : Int := if a = b then 0 else if a > b then 1 else -1

/-- The comparison `<` of two Go strings (lexicographic on the bytes, which for valid
UTF-8 is lexicographic on the code points). -/
def strLess : Str → Str → Bool
  | _, [] => false
  | [], _ :: _ => true
  | a :: as, b :: bs => a.toNat < b.toNat || (a = b && strLess as bs)

/-- The method `PRVersion.Compare`. -/
def PRVersion.Compare (v o : PRVersion) : Int :=
  if v.IsNum && !o.IsNum then -1
  else if !v.IsNum && o.IsNum then 1
  else if v.IsNum && o.IsNum then compareNat v.VersionNum o.VersionNum
  else if v.VersionStr = o.VersionStr then 0
  else if strLess o.VersionStr v.VersionStr then 1
  else -1

/-- The loop of `Version.Compare` over the pre-release identifiers, with the comparison of
the lengths that follows it. -/
def comparePre : List PRVersion → List PRVersion → Int
  | [], [] => 0
  | [], _ :: _ => -1
  | _ :: _, [] => 1
  | a :: as, b :: bs =>
    if a.Compare b = 0 then comparePre as bs
    else if a.Compare b = 1 then 1
    else -1

/-- The method `Version.Compare`. -/
def Version.Compare (v o : Version) : Int :=
  if v.Major ≠ o.Major then (if v.Major > o.Major then 1 else -1)
  else if v.Minor ≠ o.Minor then (if v.Minor > o.Minor then 1 else -1)
  else if v.Patch ≠ o.Patch then (if v.Patch > o.Patch then 1 else -1)
  else if v.Pre.length = 0 && o.Pre.length = 0 then 0
  else if v.Pre.length = 0 && o.Pre.length > 0 then 1
  else if v.Pre.length > 0 && o.Pre.length = 0 then -1
  else comparePre v.Pre o.Pre

/-- The method `Version.LT`. -/
def Version.LT (v o : Version) : Bool := v.Compare o = -1

/-- The method `Version.GT`. -/
def Version.GT (v o : Version) : Bool := v.Compare o = 1

end semver

/-! ## `github.com/blang/semver`: ranges -/

namespace semver

/-- A non-nil function value of type `Range`; the result `none` is a run-time panic. -/
abbrev RangeFunc := Version → Option Bool

/-- A value of the function type `Range`; `none` is the `nil` function. -/
abbrev Range := Option RangeFunc

/-- The call `rf(v)` of a `Range`: calling the `nil` function panics. -/
def Range.call (rf : Range) (v : Version) : Option Bool :=
  match rf with
  | none => none
  | some f => f v

/-- The method `Range.AND`: the function `rf(v) && f(v)`. -/
def Range.AND (rf f : Range) : Range :=
  some (fun v =>
    match rf.call v with
    | none => none
    | some true => f.call v
    | some false => some false)

/-- The method `Range.OR`: the function `rf(v) || f(v)`. -/
def Range.OR (rf f : Range) : Range :=
  some (fun v =>
    match rf.call v with
    | none => none
    | some true => some true
    | some false => f.call v)

/-- The range of an assignment `rf, _ := ParseRange(s)`, which drops the error: the
parsed range, or the `nil` range when the parse failed. -/
def Range.dropError (r : Except GoError Range) : Range :=
  match r with
  | .ok f => f
  | .error _ => none

/-- The wildcard types `noneWildcard`, `majorWildcard`, `minorWildcard`, `patchWildcard`. -/
inductive wildcardType where
  | noneWildcard
  | majorWildcard
  | minorWildcard
  | patchWildcard
deriving DecidableEq, Repr

/-- The function `wildcardTypefromInt`. -/
def wildcardTypefromInt (i : Nat) : wildcardType :=
  match i with
  | 1 => .majorWildcard
  | 2 => .minorWildcard
  | 3 => .patchWildcard
  | _ => .noneWildcard

/-- The comparators `compEQ`, `compNE`, `compGT`, `compGE`, `compLT`, `compLE`. -/
inductive comparator where
  | compEQ
  | compNE
  | compGT
  | compGE
  | compLT
  | compLE
deriving DecidableEq, Repr

/-- The application `c(v1, v2)` of a comparator. -/
def comparator.apply (c : comparator) (v1 v2 : Version) : Bool :=
  match c with
  | .compEQ => v1.Compare v2 = 0
  | .compNE => v1.Compare v2 ≠ 0
  | .compGT => v1.Compare v2 = 1
  | .compGE => v1.Compare v2 ≥ 0
  | .compLT => v1.Compare v2 = -1
  | .compLE => v1.Compare v2 ≤ 0

/-- The function `parseComparator`; `none` is the `nil` comparator. -/
def parseComparator (s : Str) : Option comparator :=
  if s = "==".toList then some .compEQ
  else if s = [] then some .compEQ
  else if s = "=".toList then some .compEQ
  else if s = ">".toList then some .compGT
  else if s = ">=".toList then some .compGE
  else if s = "<".toList then some .compLT
  else if s = "<=".toList then some .compLE
  else if s = "!".toList then some .compNE
  else if s = "!=".toList then some .compNE
  else none

/-- The struct `versionRange`. -/
structure versionRange where
  v : Version
  c : comparator
deriving DecidableEq, Repr

/-- The method `versionRange.rangeFunc`. -/
def versionRange.rangeFunc (vr : versionRange) : Range :=
  some (fun v => some (vr.c.apply v vr.v))

/-- The function `buildVersionRange`. -/
def buildVersionRange (opStr vStr : Str) : Except GoError versionRange :=
  match parseComparator opStr with
  | none => .error ⟨"Could not parse comparator %q in %q", [opStr, opStr ++ vStr]⟩
  | some c =>
    match Parse vStr with
    | .error err =>
      .error ⟨"Could not parse version %q in %q: " ++ err.format, vStr :: (opStr ++ vStr) :: err.args⟩
    | .ok v => .ok { v := v, c := c }

/-- A part of the text that the loop of `splitAndTrim` has passed is kept when it is at
least two bytes long (`last < i-1`). -/
def keepPart (cur : Str) : List Str := if 2 ≤ byteLen cur then [cur] else []

/-- The loop of `splitAndTrim`: `cur` is the text `s[last:i]` and `lastChar` the last
character that is not a space. -/
def splitAndTrim.loop : Str → Str → Char → List Str
  | [], cur, _ => keepPart cur
  | c :: cs, cur, lastChar =>
    if c = ' ' && !(lastChar = '>' || lastChar = '<' || lastChar = '=') then
      keepPart cur ++ splitAndTrim.loop cs [] lastChar
    else splitAndTrim.loop cs (cur ++ [c]) (if c ≠ ' ' then c else lastChar)

/-- The function `splitAndTrim`. -/
def splitAndTrim (s : Str) : List Str :=
  (splitAndTrim.loop s [] (Char.ofNat 0)).map strings.RemoveSpaces

/-- The loop of `splitORParts`: `i` is the index of the next part and `cur` the parts
`parts[last:i]`. -/
def splitORParts.loop : List Str → Nat → List Str → Except GoError (List (List Str))
  | [], _, cur =>
    if cur = [] then .error ⟨"Last element in range is \x27||\x27", []⟩ else .ok [cur]
  | p :: ps, i, cur =>
    if p = "||".toList then
      if i = 0 then .error ⟨"First element in range is \x27||\x27", []⟩
      else
        match splitORParts.loop ps (i + 1) [] with
        | .error err => .error err
        | .ok rest => .ok (cur :: rest)
    else splitORParts.loop ps (i + 1) (cur ++ [p])

/-- The function `splitORParts`. -/
def splitORParts (parts : List Str) : Except GoError (List (List Str)) :=
  splitORParts.loop parts 0 []

/-- The function `splitComparatorVersion`. -/
def splitComparatorVersion (s : Str) : Except GoError (Str × Str) :=
  match strings.IndexFunc s unicode.IsDigit with
  | none => .error ⟨"Could not get version from string: %q", [s]⟩
  | some i => .ok (strings.TrimSpace (s.take i), s.drop i)

/-- The function `getWildcardType`. -/
def getWildcardType (vStr : Str) : wildcardType :=
  let parts := strings.Split vStr '.'
  if parts.getLast? = some "x".toList then wildcardTypefromInt parts.length else .noneWildcard

/-- The function `createVersionFromWildcard`. -/
def createVersionFromWildcard (vStr : Str) : Str :=
  let vStr2 := strings.ReplaceFirst ".x".toList ".0".toList
    (strings.ReplaceFirst ".x.x".toList ".x".toList vStr)
  if (strings.Split vStr2 '.').length = 2 then vStr2 ++ ".0".toList else vStr2

/-- The function `incrementMajorVersion`; the result of a failed call is the empty string
(the caller drops the error). -/
def incrementMajorVersion (vStr : Str) : Str :=
  match strings.Split vStr '.' with
  | p0 :: ps =>
    match strconv.Atoi p0 with
    | none => []
    | some i => strings.Join (strconv.Itoa (int64Succ i) :: ps) '.'
  | [] => []

/-- The function `incrementMinorVersion`; the result of a failed call is the empty string
(the caller drops the error), `none` is the panic of an index out of range. -/
def incrementMinorVersion (vStr : Str) : Option Str :=
  match strings.Split vStr '.' with
  | p0 :: p1 :: ps =>
    match strconv.Atoi p1 with
    | none => some []
    | some i => some (strings.Join (p0 :: strconv.Itoa (int64Succ i) :: ps) '.')
  | _ => none

/-- The body of the inner loop of `expandWildcardVersion` for a part `ap` that contains
an `x`: the parts appended to `newParts`; `none` is a panic. -/
def expandWildcardPart (ap : Str) : Option (Except GoError (List Str)) :=
  match splitComparatorVersion ap with
  | .error err => some (.error err)
  | .ok (opStr, vStr) =>
    let versionWildcardType := getWildcardType vStr
    let flatVersion := createVersionFromWildcard vStr
    let extra : List Str :=
      if opStr = [] || opStr = "=".toList || opStr = "==".toList then [">=".toList ++ flatVersion]
      else if opStr = "!=".toList || opStr = "!".toList then ["<".toList ++ flatVersion]
      else []
    let resultOperator : Str :=
      if opStr = ">".toList || opStr = ">=".toList || opStr = "!=".toList || opStr = "!".toList
      then ">=".toList
      else if opStr = "<".toList || opStr = "<=".toList || opStr = [] || opStr = "=".toList
        || opStr = "==".toList then "<".toList
      else []
    let shouldIncrementVersion : Bool :=
      opStr = ">".toList || opStr = "<=".toList || opStr = [] || opStr = "=".toList
        || opStr = "==".toList || opStr = "!=".toList || opStr = "!".toList
    let resultVersion : Option Str :=
      if shouldIncrementVersion then
        match versionWildcardType with
        | .patchWildcard => incrementMinorVersion flatVersion
        | .minorWildcard => some (incrementMajorVersion flatVersion)
        | _ => some []
      else some flatVersion
    match resultVersion with
    | none => none
    | some rv => some (.ok (extra ++ [resultOperator ++ rv]))

/-- The inner loop of `expandWildcardVersion` over the parts of one OR-group. -/
def expandWildcardGroup : List Str → Option (Except GoError (List Str))
  | [] => some (.ok [])
  | ap :: rest =>
    match (if strings.ContainsChar ap 'x' then expandWildcardPart ap else some (.ok [ap])) with
    | none => none
    | some (.error err) => some (.error err)
    | some (.ok new) =>
      match expandWildcardGroup rest with
      | none => none
      | some (.error err) => some (.error err)
      | some (.ok more) => some (.ok (new ++ more))

/-- The function `expandWildcardVersion`; `none` is a panic. -/
def expandWildcardVersion : List (List Str) → Option (Except GoError (List (List Str)))
  | [] => some (.ok [])
  | p :: rest =>
    match expandWildcardGroup p with
    | none => none
    | some (.error err) => some (.error err)
    | some (.ok newParts) =>
      match expandWildcardVersion rest with
      | none => none
      | some (.error err) => some (.error err)
      | some (.ok more) => some (.ok (newParts :: more))

/-- The inner loop of `ParseRange`: the conjunction `andFn` of the comparators of one
OR-group. -/
def parseAndGroup : List Str → Range → Except GoError Range
  | [], andFn => .ok andFn
  | ap :: rest, andFn =>
    match splitComparatorVersion ap with
    | .error err => .error err
    | .ok (opStr, vStr) =>
      match buildVersionRange opStr vStr with
      | .error err => .error ⟨"Could not parse Range %q: " ++ err.format, ap :: err.args⟩
      | .ok vr =>
        parseAndGroup rest
          (match andFn with
           | none => vr.rangeFunc
           | some f => Range.AND (some f) vr.rangeFunc)

/-- The outer loop of `ParseRange`: the disjunction `orFn` of the OR-groups. -/
def parseOrGroups : List (List Str) → Range → Except GoError Range
  | [], orFn => .ok orFn
  | p :: rest, orFn =>
    match parseAndGroup p none with
    | .error err => .error err
    | .ok andFn =>
      parseOrGroups rest
        (match orFn with
         | none => andFn
         | some f => Range.OR (some f) andFn)

/-- The function `ParseRange`; `none` is a panic. -/
def ParseRange (s : Str) : Option (Except GoError Range) :=
  match splitORParts (splitAndTrim s) with
  | .error err => some (.error err)
  | .ok orParts =>
    match expandWildcardVersion orParts with
    | none => none
    | some (.error err) => some (.error err)
    | some (.ok expandedParts) => some (parseOrGroups expandedParts none)

end semver

/-! ## `sort` -/

/-- The insertion of `x` into the sorted elements before it, held in reverse: `x` moves
to the left as long as `less x y` holds for its left neighbour `y`
(`for j := i; j > a && less(j, j-1); j--`). -/
def sort.insert {α : Type} (less : α → α → Bool) (x : α) : List α → List α
  | [] => [x]
  | y :: ys => if less x y then y :: sort.insert less x ys else x :: y :: ys

/-- The call `sort.Slice(xs, less)`, as the insertion sort that the library runs on short
slices.  The library does not promise the order of elements that compare equal; the
properties proved of the callers do not depend on it. -/
def sort.Slice {α : Type} (xs : List α) (less : α → α → Bool) : List α :=
  (xs.foldl (fun done x => sort.insert less x done) []).reverse

/-! ## `check/main.go` -/

/-- The type `SemverFile`. -/
structure SemverFile where
  Path : Str
  Version : semver.Version
deriving DecidableEq, Repr

/-- The zero value `SemverFile{}`. -/
def SemverFile.zero : SemverFile := ⟨[], ⟨0, 0, 0, [], []⟩⟩

/-- The type `commands.SearchResult`, of which the program reads the field `Path`. -/
structure SearchResult where
  Path : Str
deriving DecidableEq, Repr

/-- The fields of `model.Source` that version discovery reads. -/
structure Source where
  Version : Str
deriving DecidableEq, Repr

/-- The type `Check`: `source` is the configuration and `cmdVersion` the version token
that `c.cmd.Version()` returns (the previously emitted version, empty when there is
none). -/
structure Check where
  cmdVersion : Str
  source : Source
deriving DecidableEq, Repr

namespace Check

/-- The method `Check.SanitizeVersion`. -/
def SanitizeVersion (_c : Check) (version : Str) : Str :=
  let splitVersion := strings.Split version '.'
  if splitVersion.length = 1 then version ++ ".0.0".toList
  else if splitVersion.length = 2 then version ++ ".0".toList
  else version

/-- The method `Check.SemverFromPath`. -/
def SemverFromPath (c : Check) (path : Str) : SemverFile × Option GoError :=
  if path = [] then (SemverFile.zero, none)
  else
    let pathSplitted := strings.Split path '/'
    let file := pathSplitted.getLast?.getD []
    let ext := filepath.Ext file
    let file := if ext ≠ [] then strings.TrimSuffix file ext else file
    match SEMVER_REGEX.FindStringSubmatch 2 file with
    | none => (SemverFile.zero, some (errors.New "Cannot find any semver in file."))
    | some allMatch0 =>
      if allMatch0.length < 3 then
        (SemverFile.zero, some (errors.New "Cannot find any semver in file."))
      else
        let versionFound := c.SanitizeVersion (allMatch0.getD 2 [])
        match semver.Make versionFound with
        | .error err => (SemverFile.zero, some err)
        | .ok semverFound => ({ Path := path, Version := semverFound }, none)

/-- The method `Check.RetrieveSemverFilePrevious`. -/
def RetrieveSemverFilePrevious (c : Check) : SemverFile := (c.SemverFromPath c.cmdVersion).1

/-- The method `Check.RetrieveRange`, which has a pointer receiver: the result is the
returned pair and the receiver after the call.  `none` is a panic. -/
def RetrieveRange (c : Check) : Option ((semver.Range × Option GoError) × Check) :=
  match semver.ParseRange (c.SanitizeVersion c.source.Version) with
  | none => none
  | some (.error err) =>
    some ((none, some (GoError.wrap "Error when trying to create semver range: " err)), c)
  | some (.ok rangeSem) =>
    let semverPrevious := c.RetrieveSemverFilePrevious
    if semverPrevious.Path ≠ [] then
      match semver.ParseRange (">".toList ++ semverPrevious.Version.String) with
      | none => none
      | some r =>
        let prevRangeSem : semver.Range := semver.Range.dropError r
        some ((semver.Range.AND rangeSem prevRangeSem, none),
          { c with source := { c.source with
              Version := c.source.Version ++ " && >".toList ++ semverPrevious.Version.String } })
    else some ((rangeSem, none), c)

/-- The method `Check.SemverFilesToVersions`. -/
def SemverFilesToVersions (_c : Check) (semverFiles : List SemverFile) : List Str :=
  (sort.Slice semverFiles (fun a b => a.Version.LT b.Version)).map (fun fileSemver => fileSemver.Path)

/-- The method `Check.ResultsToSemverFilesFiltered`; `none` is a panic raised by the call
of the range. -/
def ResultsToSemverFilesFiltered (c : Check) :
    List SearchResult → semver.Range → Option (List SemverFile)
  | [], _ => some []
  | file :: results, rangeSem =>
    match c.SemverFromPath file.Path with
    | (_, some _) => c.ResultsToSemverFilesFiltered results rangeSem
    | (semverFile, none) =>
      match rangeSem.call semverFile.Version with
      | none => none
      | some false => c.ResultsToSemverFilesFiltered results rangeSem
      | some true =>
        match c.ResultsToSemverFilesFiltered results rangeSem with
        | none => none
        | some semverFiles => some (semverFile :: semverFiles)

/-- The method `Check.RetrieveVersions`: the returned pair `(versions, err)`; `none` is a
panic. -/
def RetrieveVersions (c : Check) (results : List SearchResult) :
    Option (List Str × Option GoError) :=
  if results.length = 0 then some ([], none)
  else if c.source.Version = [] then some (results.map (fun file => file.Path), none)
  else
    let semverPrevious := c.RetrieveSemverFilePrevious
    let versions : List Str := if semverPrevious.Path ≠ [] then [semverPrevious.Path] else []
    match c.RetrieveRange with
    | none => none
    | some ((_, some err), _) => some (versions, some err)
    | some ((rangeSem, none), c1) =>
      match c1.ResultsToSemverFilesFiltered results rangeSem with
      | none => none
      | some semverFiles => some (versions ++ c1.SemverFilesToVersions semverFiles, none)

end Check

/-! ## `out/main.go` -/

/-- The fields of `model.Params` that `out/main.go` reads. -/
structure Params where
  Target : Str
  Source : Str
  Threads : Int
  ExplodeArchive : Bool
deriving DecidableEq, Repr

/-- The type `Out`, with the fields that `defaultingParams` can reach. -/
structure Out where
  source : Source
  params : Params
deriving DecidableEq, Repr

/-- The method `Out.defaultingParams` (pointer receiver): the receiver after the call. -/
def Out.defaultingParams (c : Out) : Out :=
  if c.params.Threads ≤ 0 then { c with params := { c.params with Threads := 3 } } else c


/-! ## Notions used in the statements and proofs -/

/-- A text has no ASCII digit at its head. -/
def noDigitHead (s : Str) : Prop := ∀ c t, s = c :: t → isAsciiDigit c = false

/-- The most preferred way in which the pattern `r` matches at the state `st` ends in
the state `x`. -/
def Regex.first (r : Regex) (st x : MState) : Prop := ∃ tl, r.run st = x :: tl

/-- A pre-release identifier as `NewPRVersion` builds it: a number below `2^64`, or a
non-empty text over `alphanum` that is not a number. -/
def semver.PRVersion.WF (pr : semver.PRVersion) : Prop :=
  (pr.IsNum = true ∧ pr.VersionStr = [] ∧ pr.VersionNum < 2 ^ 64) ∨
  (pr.IsNum = false ∧ pr.VersionNum = 0 ∧ pr.VersionStr ≠ [] ∧
    semver.containsOnly pr.VersionStr semver.alphanum = true ∧
    semver.containsOnly pr.VersionStr semver.numbers = false)

/-- A version as `Parse` builds it: numbers below `2^64`, pre-release identifiers as
`NewPRVersion` builds them, non-empty build identifiers over `alphanum`. -/
def semver.Version.WF (v : semver.Version) : Prop :=
  v.Major < 2 ^ 64 ∧ v.Minor < 2 ^ 64 ∧ v.Patch < 2 ^ 64 ∧ (∀ pr ∈ v.Pre, pr.WF) ∧
  ∀ b ∈ v.Build, b ≠ [] ∧ semver.containsOnly b semver.alphanum = true

/-- The text that `Version.String` puts after the patch number for the pre-release. -/
def semver.preText (v : semver.Version) : Str :=
  if 0 < v.Pre.length then '-' :: strings.Join (v.Pre.map semver.PRVersion.String) '.' else []

/-- The text that `Version.String` puts at the end for the build meta data. -/
def semver.buildText (v : semver.Version) : Str :=
  if 0 < v.Build.length then '+' :: strings.Join v.Build '.' else []

/-- A three-way comparison: its values are `-1`, `0`, `1`, swapping the arguments negates
it, `≤` is transitive, and arguments that compare equal compare alike to everything. -/
structure IsCmp {α : Type} (c : α → α → Int) : Prop where
  range : ∀ a b, c a b = -1 ∨ c a b = 0 ∨ c a b = 1
  anti : ∀ a b, c b a = -c a b
  trans : ∀ a b d, c a b ≤ 0 → c b d ≤ 0 → c a d ≤ 0
  cong : ∀ a b d, c a b = 0 → c a d = c b d

/-- The first comparison that does not tell equal decides. -/
def thenCmp (x y : Int) : Int := if x ≠ 0 then x else y

/-- The lexicographic comparison of two lists, a proper beginning being smaller. -/
def lexCmp {α : Type} (c : α → α → Int) : List α → List α → Int
  | [], [] => 0
  | [], _ :: _ => -1
  | _ :: _, [] => 1
  | a :: as, b :: bs => thenCmp (c a b) (lexCmp c as bs)

/-- The comparison of two Go strings as `PRVersion.Compare` makes it. -/
def semver.strCmp (a b : Str) : Int := if a = b then 0 else if semver.strLess b a then 1 else -1

/-- The comparison of the pre-release lists in `Version.Compare`: an empty list is
greater than a non-empty one. -/
def semver.preCmp (a b : List semver.PRVersion) : Int :=
  if a.length = 0 && b.length = 0 then 0
  else if a.length = 0 && b.length > 0 then 1
  else if a.length > 0 && b.length = 0 then -1
  else semver.comparePre a b

/-- The candidates that versioned discovery keeps, given the parsed configured range `r`:
`SemverFromPath` returns no error, the version satisfies `r`, and it is greater than the
previous version when there is a previous path. -/
def Check.keeps (c : Check) (r : semver.Range) (file : SearchResult) : Bool :=
  (c.SemverFromPath file.Path).2.isNone &&
    (r.call (c.SemverFromPath file.Path).1.Version == some true) &&
    (c.RetrieveSemverFilePrevious.Path = [] ||
      (c.SemverFromPath file.Path).1.Version.GT c.RetrieveSemverFilePrevious.Version)

/-- A range that does not look at the build meta data of the version it is called with. -/
def semver.Range.BuildBlind (rf : semver.Range) : Prop :=
  ∀ (v : semver.Version) (b : List Str), rf.call { v with Build := b } = rf.call v

/-! ## Method calls and their receivers -/

/-- The two ways in which Go passes the receiver of a method: by value
(`func (c Check) M`), the method works on a copy of the caller's variable; by pointer
(`func (c *Check) M`), it works on the caller's variable itself. -/
inductive Receiver where
  | value
  | pointer
deriving DecidableEq, Repr

/-- The caller's variable after a method call, from its value before the call and the
value of the receiver variable of the method at its return. -/
def Receiver.after (k : Receiver) (before atReturn : Check) : Check :=
  match k with
  | .value => before
  | .pointer => atReturn

/-- The declaration `func (c *Check) RetrieveRange()`. -/
def Check.RetrieveRange.receiver : Receiver := .pointer

/-- The declaration `func (c Check) RetrieveVersions(...)`. -/
def Check.RetrieveVersions.receiver : Receiver := .value

/-- The body of `RetrieveVersions` run on its receiver variable `c`: the returned pair
and the value of the receiver variable at the return; `none` is a panic.  The call
`c.RetrieveRange()` of the body has the receiver `&c`. -/
def Check.RetrieveVersions.body (c : Check) (results : List SearchResult) :
    Option ((List Str × Option GoError) × Check) :=
  if results.length = 0 then some (([], none), c)
  else if c.source.Version = [] then some ((results.map (fun file => file.Path), none), c)
  else
    let semverPrevious := c.RetrieveSemverFilePrevious
    let versions : List Str := if semverPrevious.Path ≠ [] then [semverPrevious.Path] else []
    match c.RetrieveRange with
    | none => none
    | some ((rangeSem, err), atReturn) =>
      let c := Check.RetrieveRange.receiver.after c atReturn
      match err with
      | some err => some ((versions, some err), c)
      | none =>
        match c.ResultsToSemverFilesFiltered results rangeSem with
        | none => none
        | some semverFiles => some ((versions ++ c.SemverFilesToVersions semverFiles, none), c)

/-- A call `c.RetrieveVersions(results)` seen from the caller: the returned pair and the
value of the caller's variable `c` after the call; `none` is a panic. -/
def Check.callRetrieveVersions (c : Check) (results : List SearchResult) :
    Option ((List Str × Option GoError) × Check) :=
  (Check.RetrieveVersions.body c results).map
    (fun r => (r.1, Check.RetrieveVersions.receiver.after c r.2))

/-! ## Properties of the string routines -/

theorem strings.Split_ne_nil (s : Str) (sep : Char) : strings.Split s sep ≠ [] := by
  induction s with
  | nil => simp [strings.Split]
  | cons c cs ih =>
    unfold strings.Split
    split_ifs
    · simp
    · split <;> simp

theorem strings.Split_length (s : Str) (sep : Char) :
    (strings.Split s sep).length = s.count sep + 1 := by
  induction s with
  | nil => simp [strings.Split]
  | cons c cs ih =>
    unfold strings.Split
    by_cases h : c = sep
    · subst h
      simp [ih]
    · have hne : (c == sep) = false := by simpa using h
      rw [if_neg h, List.count_cons, hne]
      split
      · next heq => exact absurd heq (strings.Split_ne_nil cs sep)
      · next hd tl heq =>
        rw [heq] at ih
        simpa using ih

/-! ## Properties of the matcher -/

theorem Regex.starLoop_suffix (step : MState → List MState)
    (hstep : ∀ st t, t ∈ step st → t.rest <:+ st.rest) :
    ∀ fuel st t, t ∈ Regex.starLoop step fuel st → t.rest <:+ st.rest := by
  intro fuel
  induction fuel with
  | zero =>
    intro st t h
    simp [Regex.starLoop] at h
    subst h
    exact List.suffix_refl _
  | succ n ih =>
    intro st t h
    simp only [Regex.starLoop, List.mem_append, List.mem_flatMap, List.mem_singleton] at h
    rcases h with ⟨u, hu, ht⟩ | h
    · exact (ih u t ht).trans (hstep st u hu)
    · subst h
      exact List.suffix_refl _

theorem Regex.run_suffix (r : Regex) : ∀ st t, t ∈ r.run st → t.rest <:+ st.rest := by
  induction r with
  | cls p =>
    intro st t h
    unfold Regex.run at h
    split at h
    · simp at h
    · next c tl heq =>
      split_ifs at h
      · simp at h
        subst h
        rw [heq]
        exact List.suffix_cons c tl
      · simp at h
  | seq a b iha ihb =>
    intro st t h
    simp only [Regex.run, List.mem_flatMap] at h
    obtain ⟨u, hu, ht⟩ := h
    exact (ihb u t ht).trans (iha st u hu)
  | alt a b iha ihb =>
    intro st t h
    simp only [Regex.run, List.mem_append] at h
    rcases h with h | h
    · exact iha st t h
    · exact ihb st t h
  | opt a iha =>
    intro st t h
    simp only [Regex.run, List.mem_append, List.mem_singleton] at h
    rcases h with h | h
    · exact iha st t h
    · subst h
      exact List.suffix_refl _
  | star a iha =>
    intro st t h
    simp only [Regex.run] at h
    exact Regex.starLoop_suffix _ iha _ st t h
  | plus a iha =>
    intro st t h
    simp only [Regex.run, List.mem_flatMap] at h
    obtain ⟨u, hu, ht⟩ := h
    exact (Regex.starLoop_suffix _ iha _ u t ht).trans (iha st u hu)
  | cap i a iha =>
    intro st t h
    simp only [Regex.run, List.mem_map] at h
    obtain ⟨u, hu, rfl⟩ := h
    exact iha st u hu

theorem reNum_run_nil (st : MState) (h : noDigitHead st.rest) : reNum.run st = [] := by
  unfold noDigitHead at h
  simp only [reNum, reLit, Regex.run]
  cases hr : st.rest with
  | nil => simp
  | cons c t =>
    have hc := h c t hr
    have h0 : c ≠ '0' := by
      intro h0
      subst h0
      simp [isAsciiDigit] at hc
    have h19 : (decide (49 ≤ c.toNat) && decide (c.toNat ≤ 57)) = false := by
      simp only [isAsciiDigit, Bool.and_eq_false_iff, decide_eq_false_iff_not] at hc ⊢
      rcases hc with hc | hc
      · left; omega
      · right; exact hc
    simp [h0, h19]

theorem reVersion_run_nil (st : MState) (h : noDigitHead st.rest) : reVersion.run st = [] := by
  unfold reVersion
  rw [Regex.run, reNum_run_nil st h]
  rfl

theorem noDigitHead_of_suffix {s t : Str} (hs : ∀ c ∈ s, isAsciiDigit c = false)
    (h : t <:+ s) : noDigitHead t := by
  intro c tl heq
  apply hs
  apply h.subset
  simp [heq]

theorem SEMVER_REGEX_run_nil (st : MState) (hs : ∀ c ∈ st.rest, isAsciiDigit c = false) :
    SEMVER_REGEX.run st = [] := by
  rw [List.eq_nil_iff_forall_not_mem]
  intro x hx
  unfold SEMVER_REGEX at hx
  simp only [Regex.run.eq_2, List.mem_flatMap] at hx
  obtain ⟨t1, h1, t2, h2, h3⟩ := hx
  have hsuf : t2.rest <:+ st.rest := (Regex.run_suffix _ _ _ h2).trans (Regex.run_suffix _ _ _ h1)
  rw [Regex.run, reVersion_run_nil t2 (noDigitHead_of_suffix hs hsuf)] at h3
  simp at h3

theorem FindStringSubmatch_none (s : Str) (hs : ∀ c ∈ s, isAsciiDigit c = false) :
    SEMVER_REGEX.FindStringSubmatch 2 s = none := by
  induction s with
  | nil =>
    simp [Regex.FindStringSubmatch, Regex.matchAt, SEMVER_REGEX_run_nil ⟨[], []⟩ hs]
  | cons c t ih =>
    have ht : ∀ d ∈ t, isAsciiDigit d = false := fun d hd => hs d (List.mem_cons_of_mem _ hd)
    simp [Regex.FindStringSubmatch, Regex.matchAt, SEMVER_REGEX_run_nil ⟨c :: t, []⟩ hs, ih ht]

theorem strings.Split_subset (s : Str) (sep : Char) :
    ∀ p ∈ strings.Split s sep, ∀ c ∈ p, c ∈ s := by
  induction s with
  | nil => simp [strings.Split]
  | cons a as ih =>
    intro p hp c hc
    unfold strings.Split at hp
    split_ifs at hp with h
    · simp only [List.mem_cons] at hp
      rcases hp with rfl | hp
      · simp at hc
      · exact List.mem_cons_of_mem _ (ih p hp c hc)
    · split at hp
      · next heq => exact absurd heq (strings.Split_ne_nil as sep)
      · next hd tl heq =>
        simp only [List.mem_cons] at hp
        rcases hp with rfl | hp
        · simp only [List.mem_cons] at hc
          rcases hc with rfl | hc
          · simp
          · exact List.mem_cons_of_mem _ (ih hd (by simp [heq]) c hc)
        · exact List.mem_cons_of_mem _ (ih p (by simp [heq, hp]) c hc)

theorem strings.TrimSuffix_subset (s suffix : Str) : ∀ c ∈ strings.TrimSuffix s suffix, c ∈ s := by
  intro c hc
  unfold strings.TrimSuffix at hc
  split_ifs at hc
  · exact List.mem_of_mem_take hc
  · exact hc

/-- The text in which `SemverFromPath` searches the version: the last element of the
path without its extension. -/
theorem Check.searched_subset (path : Str) :
    ∀ c ∈ (if filepath.Ext ((strings.Split path '/').getLast?.getD []) ≠ []
        then strings.TrimSuffix ((strings.Split path '/').getLast?.getD [])
          (filepath.Ext ((strings.Split path '/').getLast?.getD []))
        else (strings.Split path '/').getLast?.getD []), c ∈ path := by
  intro c hc
  have hlast : ∀ d ∈ (strings.Split path '/').getLast?.getD [], d ∈ path := by
    intro d hd
    cases hl : (strings.Split path '/').getLast? with
    | none => simp [hl] at hd
    | some p =>
      simp only [hl, Option.getD_some] at hd
      exact strings.Split_subset path '/' p (List.mem_of_getLast?_eq_some hl) d hd
  split_ifs at hc
  · exact hlast c (strings.TrimSuffix_subset _ _ c hc)
  · exact hlast c hc


/-! ## Properties of `SemverFromPath` -/

theorem Check.SemverFromPath_of_path_ne (c : Check) (path : Str)
    (h : (c.SemverFromPath path).1.Path ≠ []) :
    (c.SemverFromPath path).2 = none ∧ path ≠ [] ∧ (c.SemverFromPath path).1.Path = path := by
  unfold Check.SemverFromPath at h ⊢
  by_cases hp : path = []
  · simp [hp, SemverFile.zero] at h
  · simp only [if_neg hp] at h ⊢
    split at h
    · simp [SemverFile.zero] at h
    · split_ifs at h ⊢ with hl
      · simp [SemverFile.zero] at h
      · split at h
        · simp [SemverFile.zero] at h
        · next v hv =>
          simp [hv, hp]

/-! ## Properties of the decimal conversions -/

theorem digit_toNat (d : Nat) (h : d < 10) : (Char.ofNat (48 + d)).toNat = 48 + d := by
  interval_cases d <;> rfl

theorem digit_isAsciiDigit (d : Nat) (h : d < 10) : isAsciiDigit (Char.ofNat (48 + d)) = true := by
  simp [isAsciiDigit, digit_toNat d h]
  omega

theorem strconv.formatLoop_fuel : ∀ (f1 f2 n : Nat) (acc : Str), n < f1 → n < f2 →
    strconv.formatLoop f1 n acc = strconv.formatLoop f2 n acc := by
  intro f1
  induction f1 with
  | zero => intro f2 n acc h; omega
  | succ f1 ih =>
    intro f2 n acc h1 h2
    cases f2 with
    | zero => omega
    | succ f2 =>
      unfold strconv.formatLoop
      by_cases h : n / 10 = 0
      · simp [h]
      · simp only [if_neg h]
        have : n / 10 < n := Nat.div_lt_self (by omega) (by omega)
        exact ih f2 (n / 10) _ (by omega) (by omega)

theorem strconv.formatLoop_acc : ∀ (f n : Nat) (acc : Str),
    strconv.formatLoop f n acc = strconv.formatLoop f n [] ++ acc := by
  intro f
  induction f with
  | zero => intro n acc; simp [strconv.formatLoop]
  | succ f ih =>
    intro n acc
    unfold strconv.formatLoop
    by_cases h : n / 10 = 0
    · simp [h]
    · simp only [if_neg h]
      rw [ih (n / 10) (_ :: acc), ih (n / 10) [_]]
      simp

theorem strconv.FormatUint_small (n : Nat) (h : n < 10) :
    strconv.FormatUint n = [Char.ofNat (48 + n)] := by
  have h0 : n / 10 = 0 := by omega
  have hm : n % 10 = n := by omega
  simp [strconv.FormatUint, strconv.formatLoop, h0, hm]

theorem strconv.FormatUint_step (n : Nat) (h : 10 ≤ n) :
    strconv.FormatUint n = strconv.FormatUint (n / 10) ++ [Char.ofNat (48 + n % 10)] := by
  have h0 : n / 10 ≠ 0 := by omega
  unfold strconv.FormatUint
  rw [strconv.formatLoop, if_neg h0, strconv.formatLoop_acc,
    strconv.formatLoop_fuel n (n / 10 + 1) (n / 10) [] (by omega) (by omega)]

theorem strconv.FormatUint_all_digits (n : Nat) : ∀ c ∈ strconv.FormatUint n, isAsciiDigit c = true := by
  induction n using Nat.strong_induction_on with
  | _ n ih =>
    by_cases h : n < 10
    · rw [strconv.FormatUint_small n h]
      intro c hc
      simp only [List.mem_singleton] at hc
      subst hc
      exact digit_isAsciiDigit n h
    · rw [strconv.FormatUint_step n (by omega)]
      intro c hc
      simp only [List.mem_append, List.mem_singleton] at hc
      rcases hc with hc | hc
      · exact ih (n / 10) (by omega) c hc
      · subst hc
        exact digit_isAsciiDigit _ (Nat.mod_lt _ (by omega))

theorem strconv.FormatUint_ne_nil (n : Nat) : strconv.FormatUint n ≠ [] := by
  by_cases h : n < 10
  · rw [strconv.FormatUint_small n h]; simp
  · rw [strconv.FormatUint_step n (by omega)]; simp

theorem decimalValue_append (a : Str) (c : Char) :
    decimalValue (a ++ [c]) = decimalValue a * 10 + (c.toNat - 48) := by
  simp [decimalValue, List.foldl_append]

theorem strconv.decimalValue_FormatUint (n : Nat) : decimalValue (strconv.FormatUint n) = n := by
  induction n using Nat.strong_induction_on with
  | _ n ih =>
    by_cases h : n < 10
    · rw [strconv.FormatUint_small n h]
      simp [decimalValue, digit_toNat n h]
    · rw [strconv.FormatUint_step n (by omega), decimalValue_append, ih (n / 10) (by omega),
        digit_toNat _ (Nat.mod_lt _ (by omega))]
      omega

/-- The first character of the decimal text of a positive number is one of `1` to `9`. -/
theorem strconv.FormatUint_head (n : Nat) (hn : 0 < n) :
    ∃ d ds, strconv.FormatUint n = d :: ds ∧ 49 ≤ d.toNat ∧ d.toNat ≤ 57 := by
  induction n using Nat.strong_induction_on with
  | _ n ih =>
    by_cases h : n < 10
    · rw [strconv.FormatUint_small n h]
      exact ⟨_, [], rfl, by rw [digit_toNat n h]; omega, by rw [digit_toNat n h]; omega⟩
    · rw [strconv.FormatUint_step n (by omega)]
      obtain ⟨d, ds, hd, h1, h2⟩ := ih (n / 10) (by omega) (by omega)
      exact ⟨d, ds ++ [_], by rw [hd]; rfl, h1, h2⟩

theorem strconv.FormatUint_zero : strconv.FormatUint 0 = ['0'] := by decide

theorem semver.hasLeadingZeroes_FormatUint (n : Nat) :
    semver.hasLeadingZeroes (strconv.FormatUint n) = false := by
  by_cases hn : n = 0
  · subst hn; decide
  · obtain ⟨d, ds, hd, h1, h2⟩ := strconv.FormatUint_head n (by omega)
    rw [hd]
    unfold semver.hasLeadingZeroes
    cases ds with
    | nil => rfl
    | cons e es =>
      simp only [decide_eq_false_iff_not]
      intro h0
      subst h0
      simp at h1

theorem strconv.ParseUint_FormatUint (n : Nat) (h : n < 2 ^ 64) :
    strconv.ParseUint (strconv.FormatUint n) = .ok n := by
  unfold strconv.ParseUint
  have hall : (strconv.FormatUint n).all isAsciiDigit = true := by
    rw [List.all_eq_true]
    exact strconv.FormatUint_all_digits n
  rw [if_neg (strconv.FormatUint_ne_nil n)]
  simp only [hall, strconv.decimalValue_FormatUint]
  simp
  omega

/-! ## The most preferred match of the version pattern -/

theorem Regex.run_seq (a b : Regex) (st : MState) :
    (Regex.seq a b).run st = (a.run st).flatMap (fun t => b.run t) := by
  rw [Regex.run]

theorem Regex.run_alt (a b : Regex) (st : MState) :
    (Regex.alt a b).run st = a.run st ++ b.run st := by
  rw [Regex.run]

theorem Regex.run_opt (a : Regex) (st : MState) : (Regex.opt a).run st = a.run st ++ [st] := by
  rw [Regex.run]

theorem Regex.run_cap (i : Nat) (a : Regex) (st : MState) :
    (Regex.cap i a).run st = (a.run st).map (fun t =>
      { t with caps := (i, st.rest.take (st.rest.length - t.rest.length)) :: t.caps }) := by
  rw [Regex.run]

theorem Regex.first_seq {a b : Regex} {st x y : MState} (ha : a.first st x) (hb : b.first x y) :
    (Regex.seq a b).first st y := by
  obtain ⟨ta, ha⟩ := ha
  obtain ⟨tb, hb⟩ := hb
  exact ⟨tb ++ ta.flatMap (fun t => b.run t), by simp [Regex.run, ha, hb]⟩

theorem Regex.first_opt {a : Regex} {st x : MState} (ha : a.first st x) :
    (Regex.opt a).first st x := by
  obtain ⟨ta, ha⟩ := ha
  exact ⟨ta ++ [st], by simp [Regex.run, ha]⟩

theorem Regex.first_opt_skip {a : Regex} {st : MState} (ha : a.run st = []) :
    (Regex.opt a).first st st := ⟨[], by simp [Regex.run, ha]⟩

theorem Regex.first_alt_left {a b : Regex} {st x : MState} (ha : a.first st x) :
    (Regex.alt a b).first st x := by
  obtain ⟨ta, ha⟩ := ha
  exact ⟨ta ++ b.run st, by simp [Regex.run, ha]⟩

theorem Regex.first_alt_right {a b : Regex} {st x : MState} (ha : a.run st = [])
    (hb : b.first st x) : (Regex.alt a b).first st x := by
  obtain ⟨tb, hb⟩ := hb
  exact ⟨tb, by simp [Regex.run, ha, hb]⟩

theorem Regex.first_cap {a : Regex} {st x : MState} (i : Nat) (ha : a.first st x) :
    (Regex.cap i a).first st
      { x with caps := (i, st.rest.take (st.rest.length - x.rest.length)) :: x.caps } := by
  obtain ⟨ta, ha⟩ := ha
  exact ⟨_, by simp [Regex.run, ha]; rfl⟩

theorem Regex.first_cls {p : Char → Bool} {c : Char} (t : Str) (caps : List (Nat × Str))
    (h : p c = true) : (Regex.cls p).first ⟨c :: t, caps⟩ ⟨t, caps⟩ :=
  ⟨[], by simp [Regex.run, h]⟩

theorem Regex.run_cls_nil {p : Char → Bool} {st : MState}
    (h : ∀ c t, st.rest = c :: t → p c = false) : (Regex.cls p).run st = [] := by
  unfold Regex.run
  split
  · rfl
  · next c t heq => simp [h c t heq]

theorem Regex.run_seq_nil {a b : Regex} {st : MState} (h : a.run st = []) :
    (Regex.seq a b).run st = [] := by
  simp [Regex.run, h]

theorem reDigit_star_first : ∀ (ds rest : Str) (caps : List (Nat × Str)) (fuel : Nat),
    ds.length ≤ fuel → (∀ c ∈ ds, isAsciiDigit c = true) → noDigitHead rest →
    ∃ tl, Regex.starLoop (fun t => reDigit.run t) fuel ⟨ds ++ rest, caps⟩ = ⟨rest, caps⟩ :: tl := by
  intro ds
  induction ds with
  | nil =>
    intro rest caps fuel _ _ hrest
    cases fuel with
    | zero => exact ⟨[], rfl⟩
    | succ f =>
      have : reDigit.run ⟨rest, caps⟩ = [] := Regex.run_cls_nil (fun c t h => hrest c t h)
      exact ⟨[], by simp [Regex.starLoop, this]⟩
  | cons d ds ih =>
    intro rest caps fuel hf hds hrest
    cases fuel with
    | zero => simp at hf
    | succ f =>
      have hd : isAsciiDigit d = true := hds d (by simp)
      obtain ⟨tl, htl⟩ := ih rest caps f (by simpa using hf)
        (fun c hc => hds c (List.mem_cons_of_mem _ hc)) hrest
      have hstep : reDigit.run ⟨d :: ds ++ rest, caps⟩ = [⟨ds ++ rest, caps⟩] := by
        simp [reDigit, Regex.run, hd]
      refine ⟨tl ++ [⟨d :: ds ++ rest, caps⟩], ?_⟩
      show Regex.starLoop _ (f + 1) ⟨d :: ds ++ rest, caps⟩ = _
      rw [Regex.starLoop]
      simp only [hstep, List.flatMap_cons, List.flatMap_nil, List.append_nil, htl]
      rfl

theorem reNum_first (n : Nat) (rest : Str) (caps : List (Nat × Str)) (hrest : noDigitHead rest) :
    reNum.first ⟨strconv.FormatUint n ++ rest, caps⟩ ⟨rest, caps⟩ := by
  by_cases hn : n = 0
  · subst hn
    rw [strconv.FormatUint_zero]
    exact Regex.first_alt_left (Regex.first_cls rest caps (by decide))
  · obtain ⟨d, ds, hd, h1, h2⟩ := strconv.FormatUint_head n (by omega)
    have hall := strconv.FormatUint_all_digits n
    rw [hd] at hall ⊢
    apply Regex.first_alt_right
    · apply Regex.run_cls_nil
      intro c t heq
      simp only [List.cons_append, List.cons.injEq] at heq
      obtain ⟨rfl, -⟩ := heq
      simp only [decide_eq_false_iff_not]
      intro h0
      subst h0
      simp at h1
    · apply Regex.first_seq (x := ⟨ds ++ rest, caps⟩)
      · exact Regex.first_cls _ caps (by simp [h1, h2])
      · obtain ⟨tl, htl⟩ := reDigit_star_first ds rest caps (ds ++ rest).length (by simp)
          (fun c hc => hall c (List.mem_cons_of_mem _ hc)) hrest
        exact ⟨tl, by simpa [Regex.run] using htl⟩

theorem noDigitHead_cons (c : Char) (t : Str) (h : isAsciiDigit c = false) :
    noDigitHead (c :: t) := by
  intro d u heq
  simp only [List.cons.injEq] at heq
  rw [← heq.1]
  exact h

theorem reLit_seq_run_nil (x : Char) (r : Regex) (st : MState)
    (h : ∀ c t, st.rest = c :: t → c ≠ x) : (Regex.seq (reLit x) r).run st = [] := by
  apply Regex.run_seq_nil
  apply Regex.run_cls_nil
  intro c t heq
  simpa using h c t heq

/-- The version pattern consumes a full version `X.Y.Z` when the text goes on with
something that is neither a digit nor the start of a pre-release or of build meta data. -/
theorem reVersion_first (x y z : Nat) (rest : Str) (caps : List (Nat × Str))
    (hrest : ∀ c t, rest = c :: t → isAsciiDigit c = false ∧ c ≠ '-' ∧ c ≠ '+') :
    reVersion.first
      ⟨strconv.FormatUint x ++ '.' :: (strconv.FormatUint y ++ '.' :: (strconv.FormatUint z ++ rest)),
        caps⟩ ⟨rest, caps⟩ := by
  have hdot : ∀ t, noDigitHead ('.' :: t) := fun t => noDigitHead_cons _ t (by decide)
  unfold reVersion
  refine Regex.first_seq (reNum_first x _ caps (hdot _)) ?_
  refine Regex.first_seq (Regex.first_opt (Regex.first_cls _ caps (by simp))) ?_
  refine Regex.first_seq (Regex.first_opt (reNum_first y _ caps (hdot _))) ?_
  refine Regex.first_seq (Regex.first_opt (Regex.first_cls _ caps (by simp))) ?_
  refine Regex.first_seq (reNum_first z _ caps (fun c t h => (hrest c t h).1)) ?_
  refine Regex.first_seq (Regex.first_opt_skip ?_) (Regex.first_opt_skip ?_)
  · exact reLit_seq_run_nil _ _ _ (fun c t h => (hrest c t h).2.1)
  · exact reLit_seq_run_nil _ _ _ (fun c t h => (hrest c t h).2.2)

/-- No match of `SEMVER_REGEX` starts at a character that is neither a digit nor one of
the markers `v`, `V`, `-`, `_`. -/
theorem SEMVER_REGEX_run_skip (c : Char) (t : Str) (caps : List (Nat × Str))
    (hd : isAsciiDigit c = false) (hv : c ≠ 'v') (hV : c ≠ 'V') (hm : c ≠ '-') (hu : c ≠ '_') :
    SEMVER_REGEX.run ⟨c :: t, caps⟩ = [] := by
  have hnum : reVersion.run ⟨c :: t, caps⟩ = [] :=
    reVersion_run_nil _ (noDigitHead_cons c t hd)
  have hv1 : reV.run ⟨c :: t, caps⟩ = [] :=
    Regex.run_cls_nil (fun d u heq => by
      simp only [List.cons.injEq] at heq
      rw [← heq.1]
      simp [hv, hV])
  have hm1 : (reLit '-').run ⟨c :: t, caps⟩ = [] :=
    Regex.run_cls_nil (fun d u heq => by
      simp only [List.cons.injEq] at heq
      rw [← heq.1]
      simp [hm])
  have hu1 : (reLit '_').run ⟨c :: t, caps⟩ = [] :=
    Regex.run_cls_nil (fun d u heq => by
      simp only [List.cons.injEq] at heq
      rw [← heq.1]
      simp [hu])
  unfold SEMVER_REGEX
  simp only [Regex.run_seq, Regex.run_opt, Regex.run_cap, Regex.run_alt, hv1, hm1, hu1, hnum,
    List.map_nil, List.nil_append, List.flatMap_cons, List.flatMap_nil, List.append_nil]

theorem FindStringSubmatch_skip (c : Char) (t : Str)
    (hd : isAsciiDigit c = false) (hv : c ≠ 'v') (hV : c ≠ 'V') (hm : c ≠ '-') (hu : c ≠ '_') :
    SEMVER_REGEX.FindStringSubmatch 2 (c :: t) = SEMVER_REGEX.FindStringSubmatch 2 t := by
  rw [Regex.FindStringSubmatch]
  simp [Regex.matchAt, SEMVER_REGEX_run_skip c t [] hd hv hV hm hu]

/-! ## Properties of splitting and joining -/

theorem strings.Cut_append (a b : Str) (sep : Char) (h : sep ∉ a) :
    strings.Cut (a ++ sep :: b) sep = some (a, b) := by
  induction a with
  | nil => simp [strings.Cut]
  | cons c cs ih =>
    have hc : c ≠ sep := fun hc => h (by simp [hc])
    have hcs : sep ∉ cs := fun hcs => h (List.mem_cons_of_mem _ hcs)
    simp [strings.Cut, hc, ih hcs]

theorem strings.SplitN_three (a b c : Str) (sep : Char) (ha : sep ∉ a) (hb : sep ∉ b) :
    strings.SplitN (a ++ sep :: (b ++ sep :: c)) sep 3 = [a, b, c] := by
  simp [strings.SplitN, strings.Cut_append _ _ _ ha, strings.Cut_append _ _ _ hb]

theorem strings.IndexRune_append (a b : Str) (r : Char) (h : r ∉ a) :
    strings.IndexRune (a ++ r :: b) r = some a.length := by
  induction a with
  | nil => simp [strings.IndexRune]
  | cons c cs ih =>
    have hc : c ≠ r := fun hc => h (by simp [hc])
    have hcs : r ∉ cs := fun hcs => h (List.mem_cons_of_mem _ hcs)
    simp [strings.IndexRune, hc, ih hcs]

theorem strings.IndexRune_none (s : Str) (r : Char) (h : r ∉ s) : strings.IndexRune s r = none := by
  induction s with
  | nil => simp [strings.IndexRune]
  | cons c cs ih =>
    have hc : c ≠ r := fun hc => h (by simp [hc])
    have hcs : r ∉ cs := fun hcs => h (List.mem_cons_of_mem _ hcs)
    simp [strings.IndexRune, hc, ih hcs]

theorem strings.Split_of_not_mem (s : Str) (sep : Char) (h : sep ∉ s) :
    strings.Split s sep = [s] := by
  induction s with
  | nil => simp [strings.Split]
  | cons c cs ih =>
    have hc : c ≠ sep := fun hc => h (by simp [hc])
    have hcs : sep ∉ cs := fun hcs => h (List.mem_cons_of_mem _ hcs)
    simp [strings.Split, hc, ih hcs]

theorem strings.Split_append (a b : Str) (sep : Char) (h : sep ∉ a) :
    strings.Split (a ++ sep :: b) sep = a :: strings.Split b sep := by
  induction a with
  | nil => simp [strings.Split]
  | cons c cs ih =>
    have hc : c ≠ sep := fun hc => h (by simp [hc])
    have hcs : sep ∉ cs := fun hcs => h (List.mem_cons_of_mem _ hcs)
    simp [strings.Split, hc, ih hcs]

theorem strings.Split_Join (l : List Str) (sep : Char) (hl : l ≠ [])
    (h : ∀ p ∈ l, sep ∉ p) : strings.Split (strings.Join l sep) sep = l := by
  induction l with
  | nil => exact absurd rfl hl
  | cons p ps ih =>
    cases ps with
    | nil => simpa [strings.Join] using strings.Split_of_not_mem p sep (h p (by simp))
    | cons q qs =>
      rw [strings.Join, strings.Split_append _ _ _ (h p (by simp)),
        ih (by simp) (fun x hx => h x (List.mem_cons_of_mem _ hx))]

theorem strings.mem_Join (l : List Str) (sep c : Char) (h : c ∈ strings.Join l sep) :
    c = sep ∨ ∃ p ∈ l, c ∈ p := by
  induction l with
  | nil => simp [strings.Join] at h
  | cons p ps ih =>
    cases ps with
    | nil =>
      simp only [strings.Join] at h
      exact Or.inr ⟨p, by simp, h⟩
    | cons q qs =>
      simp only [strings.Join, List.mem_append, List.mem_cons] at h
      rcases h with h | h | h
      · exact Or.inr ⟨p, by simp, h⟩
      · exact Or.inl h
      · rcases ih h with h | ⟨x, hx, hc⟩
        · exact Or.inl h
        · exact Or.inr ⟨x, List.mem_cons_of_mem _ hx, hc⟩

theorem semver.numbers_contains (c : Char) : semver.numbers.contains c = isAsciiDigit c := by
  have hnum : semver.numbers = ['0', '1', '2', '3', '4', '5', '6', '7', '8', '9'] := by decide
  by_cases h : isAsciiDigit c = true
  · rw [h]
    have hc := Char.ofNat_toNat c
    simp only [isAsciiDigit, Bool.and_eq_true, decide_eq_true_eq] at h
    obtain ⟨h1, h2⟩ := h
    generalize c.toNat = n at hc h1 h2
    subst hc
    interval_cases n <;> decide
  · have h2 : isAsciiDigit c = false := by simpa using h
    rw [h2, hnum]
    cases hcon : ['0', '1', '2', '3', '4', '5', '6', '7', '8', '9'].contains c with
    | false => rfl
    | true =>
      exfalso
      have hmem : c ∈ ['0', '1', '2', '3', '4', '5', '6', '7', '8', '9'] := List.elem_iff.mp hcon
      simp only [List.mem_cons, List.mem_singleton, List.not_mem_nil, or_false] at hmem
      rcases hmem with rfl | rfl | rfl | rfl | rfl | rfl | rfl | rfl | rfl | rfl <;>
        exact absurd h2 (by decide)

theorem semver.containsOnly_numbers (s : Str) :
    semver.containsOnly s semver.numbers = s.all isAsciiDigit := by
  unfold semver.containsOnly
  congr 1
  funext r
  exact semver.numbers_contains r

/-- A character of the set `alphanum` is none of the separators of a version text. -/
theorem semver.alphanum_not_sep (c : Char) (h : semver.alphanum.contains c = true) :
    c ≠ '.' ∧ c ≠ '+' ∧ c ≠ ' ' ∧ c ≠ '|' := by
  refine ⟨?_, ?_, ?_, ?_⟩ <;>
  · intro hc
    subst hc
    revert h
    decide

theorem isAsciiDigit_not_sep (c : Char) (h : isAsciiDigit c = true) :
    c ≠ '.' ∧ c ≠ '+' ∧ c ≠ '-' ∧ c ≠ ' ' ∧ c ≠ 'x' ∧ c ≠ '|' ∧ c ≠ '/' := by
  refine ⟨?_, ?_, ?_, ?_, ?_, ?_, ?_⟩ <;>
  · intro hc
    subst hc
    revert h
    decide

theorem semver.containsOnly_mem {s set : Str} (h : semver.containsOnly s set = true) (c : Char)
    (hc : c ∈ s) : set.contains c = true := by
  unfold semver.containsOnly at h
  rw [List.all_eq_true] at h
  exact h c hc

/-! ## Versions returned by `Parse` -/

namespace semver

theorem ParseUint_lt {s : Str} {n : Nat} (h : strconv.ParseUint s = .ok n) : n < 2 ^ 64 := by
  unfold strconv.ParseUint at h
  split_ifs at h with h1 h2 h3
  simp only [Except.ok.injEq] at h
  omega

theorem parseNumber_lt {what lower : String} {s : Str} {n : Nat}
    (h : parseNumber what lower s = .ok n) :
    n < 2 ^ 64 := by
  unfold parseNumber at h
  split_ifs at h
  exact ParseUint_lt h

theorem NewPRVersion_WF {s : Str} {pr : PRVersion} (h : NewPRVersion s = .ok pr) : pr.WF := by
  unfold NewPRVersion at h
  split_ifs at h with h0 h1 h2 h3
  · split at h
    · simp at h
    · next num hnum =>
      simp only [Except.ok.injEq] at h
      subst h
      exact Or.inl ⟨rfl, rfl, ParseUint_lt hnum⟩
  · simp only [Except.ok.injEq] at h
    subst h
    refine Or.inr ⟨rfl, rfl, ?_, h3, by simpa using h1⟩
    intro hs
    exact h0 (by simpa using congrArg List.length hs)

theorem parsePrerelease_WF : ∀ (l : List Str) (prs : List PRVersion),
    parsePrerelease l = .ok prs → ∀ pr ∈ prs, pr.WF := by
  intro l
  induction l with
  | nil =>
    intro prs h
    simp only [parsePrerelease, Except.ok.injEq] at h
    subst h
    simp
  | cons s rest ih =>
    intro prs h
    unfold parsePrerelease at h
    split at h
    · simp at h
    · next p hp =>
      split at h
      · simp at h
      · next ps hps =>
        simp only [Except.ok.injEq] at h
        subst h
        intro pr hpr
        simp only [List.mem_cons] at hpr
        rcases hpr with rfl | hpr
        · exact NewPRVersion_WF hp
        · exact ih ps hps pr hpr

theorem parseBuild_WF : ∀ (l bs : List Str),
    parseBuild l = .ok bs → ∀ b ∈ bs, b ≠ [] ∧ containsOnly b alphanum = true := by
  intro l
  induction l with
  | nil =>
    intro bs h
    simp only [parseBuild, Except.ok.injEq] at h
    subst h
    simp
  | cons s rest ih =>
    intro bs h
    unfold parseBuild at h
    split_ifs at h with h0 h1
    split at h
    · simp at h
    · next more hmore =>
      simp only [Except.ok.injEq] at h
      subst h
      intro b hb
      simp only [List.mem_cons] at hb
      rcases hb with rfl | hb
      · refine ⟨?_, by simpa using h1⟩
        intro hs
        simp [hs] at h0
      · exact ih more hmore b hb

/-- A version that `Parse` returns is well formed. -/
theorem Parse_WF {s : Str} {v : Version} (h : Parse s = .ok v) : v.WF := by
  unfold Parse at h
  split_ifs at h
  split at h
  · next p0 p1 p2 hsplit =>
    split at h
    · simp at h
    · next major hmajor =>
      split at h
      · simp at h
      · next minor hminor =>
        split at h
        · simp at h
        · next patch hpatch =>
          split at h
          · simp at h
          · next pre hpre =>
            split at h
            · simp at h
            · next build hbuild =>
              simp only [Except.ok.injEq] at h
              subst h
              exact ⟨parseNumber_lt hmajor, parseNumber_lt hminor, parseNumber_lt hpatch,
                parsePrerelease_WF _ _ hpre, parseBuild_WF _ _ hbuild⟩
  · simp at h

end semver

/-! ## The text of a version parses to the version -/

theorem drop_succ_append {α : Type} (a b : List α) (c : α) :
    (a ++ c :: b).drop (a.length + 1) = b := by
  induction a with
  | nil => rfl
  | cons x xs ih => simp [ih]

theorem take_length_append {α : Type} (a b : List α) : (a ++ b).take a.length = a := by
  induction a with
  | nil => simp
  | cons x xs ih => simp [ih]

namespace semver

theorem containsOnly_numbers_FormatUint (n : Nat) :
    containsOnly (strconv.FormatUint n) numbers = true := by
  rw [containsOnly_numbers, List.all_eq_true]
  exact strconv.FormatUint_all_digits n

theorem parseNumber_FormatUint (what lower : String) (n : Nat) (h : n < 2 ^ 64) :
    parseNumber what lower (strconv.FormatUint n) = .ok n := by
  unfold parseNumber
  simp [containsOnly_numbers_FormatUint, hasLeadingZeroes_FormatUint,
    strconv.ParseUint_FormatUint n h]

theorem NewPRVersion_String (pr : PRVersion) (h : pr.WF) : NewPRVersion pr.String = .ok pr := by
  obtain ⟨n, s, b⟩ := pr
  rcases h with ⟨h1, h2, h3⟩ | ⟨h1, h2, h3, h4, h5⟩
  · simp only at h1 h2 h3
    subst h1 h2
    unfold NewPRVersion
    have hlen : (PRVersion.String ⟨[], s, true⟩).length ≠ 0 := by
      simp [PRVersion.String, strconv.FormatUint_ne_nil]
    rw [if_neg hlen]
    simp [PRVersion.String, containsOnly_numbers_FormatUint, hasLeadingZeroes_FormatUint,
      strconv.ParseUint_FormatUint s h3]
  · simp only at h1 h2 h3 h4 h5
    subst h1 h2
    unfold NewPRVersion
    have hlen : (PRVersion.String ⟨n, 0, false⟩).length ≠ 0 := by
      simpa [PRVersion.String] using h3
    rw [if_neg hlen]
    simp [PRVersion.String, h4, h5]

theorem parsePrerelease_String : ∀ (prs : List PRVersion), (∀ pr ∈ prs, pr.WF) →
    parsePrerelease (prs.map PRVersion.String) = .ok prs := by
  intro prs
  induction prs with
  | nil => intro _; rfl
  | cons p ps ih =>
    intro h
    simp only [List.map_cons, parsePrerelease, NewPRVersion_String p (h p (by simp)),
      ih (fun pr hpr => h pr (List.mem_cons_of_mem _ hpr))]

theorem parseBuild_self : ∀ (bs : List Str),
    (∀ b ∈ bs, b ≠ [] ∧ containsOnly b alphanum = true) → parseBuild bs = .ok bs := by
  intro bs
  induction bs with
  | nil => intro _; rfl
  | cons b bs ih =>
    intro h
    have hb := h b (by simp)
    have hlen : b.length ≠ 0 := by simpa using hb.1
    unfold parseBuild
    rw [if_neg hlen]
    simp [hb.2, ih (fun x hx => h x (List.mem_cons_of_mem _ hx))]

/-- The characters of the text of a well-formed pre-release identifier. -/
theorem PRVersion.String_chars (pr : PRVersion) (h : pr.WF) (c : Char) (hc : c ∈ pr.String) :
    c ≠ '.' ∧ c ≠ '+' ∧ c ≠ ' ' ∧ c ≠ '|' := by
  rcases h with ⟨h1, h2, h3⟩ | ⟨h1, h2, h3, h4, h5⟩
  · simp only [PRVersion.String, h1, if_true] at hc
    have := isAsciiDigit_not_sep c (strconv.FormatUint_all_digits _ c hc)
    exact ⟨this.1, this.2.1, this.2.2.2.1, this.2.2.2.2.2.1⟩
  · simp only [PRVersion.String, h1] at hc
    exact alphanum_not_sep c (containsOnly_mem h4 c (by simpa using hc))

theorem Version.String_eq (v : Version) :
    v.String = strconv.FormatUint v.Major ++ '.' :: (strconv.FormatUint v.Minor ++ '.' ::
      (strconv.FormatUint v.Patch ++ preText v ++ buildText v)) := by
  simp [Version.String, preText, buildText]

theorem preText_chars (v : Version) (h : v.WF) (c : Char) (hc : c ∈ preText v) :
    c ≠ '+' ∧ c ≠ ' ' ∧ c ≠ '|' := by
  unfold preText at hc
  split_ifs at hc
  · simp only [List.mem_cons] at hc
    rcases hc with rfl | hc
    · decide
    · rcases strings.mem_Join _ _ _ hc with rfl | ⟨p, hp, hcp⟩
      · decide
      · simp only [List.mem_map] at hp
        obtain ⟨pr, hpr, rfl⟩ := hp
        have := PRVersion.String_chars pr (h.2.2.2.1 pr hpr) c hcp
        exact ⟨this.2.1, this.2.2⟩
  · simp at hc

theorem cutBuild_String (v : Version) (h : v.WF) :
    cutBuild (strconv.FormatUint v.Patch ++ preText v ++ buildText v)
      = (v.Build, strconv.FormatUint v.Patch ++ preText v) := by
  have hplus : '+' ∉ strconv.FormatUint v.Patch ++ preText v := by
    intro hmem
    simp only [List.mem_append] at hmem
    rcases hmem with hmem | hmem
    · exact (isAsciiDigit_not_sep _ (strconv.FormatUint_all_digits _ _ hmem)).2.1 rfl
    · exact (preText_chars v h _ hmem).1 rfl
  unfold cutBuild buildText
  by_cases hb : 0 < v.Build.length
  · have hne : v.Build ≠ [] := by
      intro h0
      simp [h0] at hb
    rw [if_pos hb, strings.IndexRune_append _ _ _ hplus]
    have hdrop := drop_succ_append (strconv.FormatUint v.Patch ++ preText v)
      (strings.Join v.Build '.') '+'
    have htake := take_length_append (strconv.FormatUint v.Patch ++ preText v)
      ('+' :: strings.Join v.Build '.')
    simp only [hdrop, htake]
    rw [strings.Split_Join _ _ hne]
    intro p hp hdot
    exact (alphanum_not_sep _ (containsOnly_mem (h.2.2.2.2 p hp).2 _ hdot)).1 rfl
  · have hnil : v.Build = [] := by
      cases hv : v.Build with
      | nil => rfl
      | cons a as => simp [hv] at hb
    rw [if_neg hb, List.append_nil, strings.IndexRune_none _ _ hplus, hnil]

theorem cutPrerelease_String (v : Version) (h : v.WF) :
    cutPrerelease (strconv.FormatUint v.Patch ++ preText v)
      = (v.Pre.map PRVersion.String, strconv.FormatUint v.Patch) := by
  have hminus : '-' ∉ strconv.FormatUint v.Patch := by
    intro hmem
    exact (isAsciiDigit_not_sep _ (strconv.FormatUint_all_digits _ _ hmem)).2.2.1 rfl
  unfold cutPrerelease preText
  by_cases hb : 0 < v.Pre.length
  · have hne : v.Pre.map PRVersion.String ≠ [] := by
      intro h0
      simp only [List.map_eq_nil_iff] at h0
      simp [h0] at hb
    rw [if_pos hb, strings.IndexRune_append _ _ _ hminus]
    have hdrop := drop_succ_append (strconv.FormatUint v.Patch)
      (strings.Join (v.Pre.map PRVersion.String) '.') '-'
    have htake := take_length_append (strconv.FormatUint v.Patch)
      ('-' :: strings.Join (v.Pre.map PRVersion.String) '.')
    simp only [hdrop, htake]
    rw [strings.Split_Join _ _ hne]
    intro p hp hdot
    simp only [List.mem_map] at hp
    obtain ⟨pr, hpr, rfl⟩ := hp
    exact (PRVersion.String_chars pr (h.2.2.2.1 pr hpr) _ hdot).1 rfl
  · have hnil : v.Pre = [] := by
      cases hv : v.Pre with
      | nil => rfl
      | cons a as => simp [hv] at hb
    rw [if_neg hb, List.append_nil, strings.IndexRune_none _ _ hminus, hnil]
    rfl

theorem dot_not_mem_FormatUint (n : Nat) : '.' ∉ strconv.FormatUint n := by
  intro hmem
  exact (isAsciiDigit_not_sep _ (strconv.FormatUint_all_digits _ _ hmem)).1 rfl

/-- The text of a well-formed version parses to the version itself. -/
theorem Parse_String (v : Version) (h : v.WF) : Parse v.String = .ok v := by
  have hlen : v.String.length ≠ 0 := by
    rw [Version.String_eq]
    have := strconv.FormatUint_ne_nil v.Major
    simp
  unfold Parse
  rw [if_neg hlen, Version.String_eq,
    strings.SplitN_three _ _ _ _ (dot_not_mem_FormatUint _) (dot_not_mem_FormatUint _)]
  simp only [parseNumber_FormatUint _ _ _ h.1, parseNumber_FormatUint _ _ _ h.2.1,
    cutBuild_String v h, cutPrerelease_String v h, parseNumber_FormatUint _ _ _ h.2.2.1,
    parsePrerelease_String _ h.2.2.2.1, parseBuild_self _ h.2.2.2.2]

end semver

/-! ## `SemverFromPath` on a marked full version -/

theorem filepath.Ext_gz (p : Str) : filepath.Ext (p ++ ".gz".toList) = ".gz".toList := by
  have : (".gz".toList : Str) = ['.', 'g', 'z'] := by decide
  simp [this, filepath.Ext, filepath.Ext.loop]

theorem strings.TrimSuffix_append (a b : Str) : strings.TrimSuffix (a ++ b) b = a := by
  unfold strings.TrimSuffix strings.HasSuffix
  have h : b.reverse.isPrefixOf (a ++ b).reverse = true := by
    rw [List.reverse_append, List.isPrefixOf_iff_prefix]
    exact List.prefix_append _ _
  rw [if_pos h]
  simp

/-- The submatches of the leftmost match, when a match starts at the first character. -/
theorem FindStringSubmatch_of_first (c : Char) (t : Str) (st : MState)
    (h : SEMVER_REGEX.first ⟨c :: t, []⟩ st) :
    SEMVER_REGEX.FindStringSubmatch 2 (c :: t)
      = some [(c :: t).take ((c :: t).length - st.rest.length), st.group 1, st.group 2] := by
  obtain ⟨tl, htl⟩ := h
  rw [Regex.FindStringSubmatch]
  simp [Regex.matchAt, htl, List.range_succ]

/-- The most preferred match of `SEMVER_REGEX` at the markers `-v` followed by a full
version: the second group is the version. -/
theorem SEMVER_REGEX_first_marked (x y z : Nat) (rest : Str)
    (hrest : ∀ c t, rest = c :: t → isAsciiDigit c = false ∧ c ≠ '-' ∧ c ≠ '+') :
    ∃ st, SEMVER_REGEX.first
        ⟨'-' :: 'v' :: (strconv.FormatUint x ++ '.' :: (strconv.FormatUint y ++ '.' ::
          (strconv.FormatUint z ++ rest))), []⟩ st ∧
      st.group 2 = strconv.FormatUint x ++ '.' :: (strconv.FormatUint y ++ '.' ::
          strconv.FormatUint z) := by
  have hminus : reV.run ⟨'-' :: 'v' :: (strconv.FormatUint x ++ '.' :: (strconv.FormatUint y ++ '.' ::
          (strconv.FormatUint z ++ rest))), []⟩ = [] :=
    Regex.run_cls_nil (fun d u heq => by
      simp only [List.cons.injEq] at heq
      rw [← heq.1]
      decide)
  refine ⟨_, Regex.first_seq
    (Regex.first_opt (Regex.first_cap 1 (Regex.first_alt_right hminus
      (Regex.first_alt_left (Regex.first_cls _ _ (by simp [reLit]))))))
    (Regex.first_seq (Regex.first_opt (Regex.first_cls _ _ (by decide)))
      (Regex.first_cap 2 (reVersion_first x y z rest _ hrest))), ?_⟩
  simp only [MState.group, List.lookup]
  have hlen : (strconv.FormatUint x ++ '.' :: (strconv.FormatUint y ++ '.' ::
          (strconv.FormatUint z ++ rest))).length - rest.length
      = (strconv.FormatUint x ++ '.' :: (strconv.FormatUint y ++ '.' ::
          strconv.FormatUint z)).length := by
    simp only [List.length_append, List.length_cons]
    omega
  have happ : strconv.FormatUint x ++ '.' :: (strconv.FormatUint y ++ '.' ::
          (strconv.FormatUint z ++ rest))
      = (strconv.FormatUint x ++ '.' :: (strconv.FormatUint y ++ '.' ::
          strconv.FormatUint z)) ++ rest := by
    simp
  simp only [beq_self_eq_true, Option.getD_some, hlen]
  rw [happ, take_length_append]

theorem Check.SanitizeVersion_three (c : Check) (x y z : Nat) :
    c.SanitizeVersion (strconv.FormatUint x ++ '.' :: (strconv.FormatUint y ++ '.' ::
          strconv.FormatUint z))
      = strconv.FormatUint x ++ '.' :: (strconv.FormatUint y ++ '.' :: strconv.FormatUint z) := by
  unfold Check.SanitizeVersion
  rw [strings.Split_append _ _ _ (semver.dot_not_mem_FormatUint x),
    strings.Split_append _ _ _ (semver.dot_not_mem_FormatUint y),
    strings.Split_of_not_mem _ _ (semver.dot_not_mem_FormatUint z)]
  simp

theorem semver.Make_three (x y z : Nat) (hx : x < 2 ^ 64) (hy : y < 2 ^ 64) (hz : z < 2 ^ 64) :
    semver.Make (strconv.FormatUint x ++ '.' :: (strconv.FormatUint y ++ '.' ::
          strconv.FormatUint z)) = .ok ⟨x, y, z, [], []⟩ := by
  have h := semver.Parse_String ⟨x, y, z, [], []⟩ ⟨hx, hy, hz, by simp, by simp⟩
  rw [semver.Version.String_eq] at h
  simpa [semver.Make, semver.preText, semver.buildText] using h


/-! ## The range `>V` of a version text -/

namespace semver

theorem buildText_chars (v : Version) (h : v.WF) (c : Char) (hc : c ∈ buildText v) :
    c ≠ ' ' ∧ c ≠ '|' := by
  unfold buildText at hc
  split_ifs at hc
  · simp only [List.mem_cons] at hc
    rcases hc with rfl | hc
    · decide
    · rcases strings.mem_Join _ _ _ hc with rfl | ⟨p, hp, hcp⟩
      · decide
      · have := alphanum_not_sep c (containsOnly_mem (h.2.2.2.2 p hp).2 c hcp)
        exact ⟨this.2.2.1, this.2.2.2⟩
  · simp at hc

/-- The text of a well-formed version holds no space. -/
theorem Version.String_no_space (v : Version) (h : v.WF) : ' ' ∉ v.String := by
  have hd : ∀ n, ' ' ∉ strconv.FormatUint n := fun n hmem =>
    (isAsciiDigit_not_sep _ (strconv.FormatUint_all_digits _ _ hmem)).2.2.2.1 rfl
  rw [Version.String_eq]
  simp only [List.mem_append, List.mem_cons, not_or]
  refine ⟨hd _, by decide, hd _, by decide, ⟨hd _, ?_⟩, ?_⟩
  · exact fun hmem => (preText_chars v h _ hmem).2.1 rfl
  · exact fun hmem => (buildText_chars v h _ hmem).1 rfl

/-- The text of a version starts with an ASCII digit. -/
theorem Version.String_head (v : Version) :
    ∃ d t, v.String = d :: t ∧ isAsciiDigit d = true := by
  rw [Version.String_eq]
  cases hm : strconv.FormatUint v.Major with
  | nil => exact absurd hm (strconv.FormatUint_ne_nil _)
  | cons d t =>
    refine ⟨d, _, rfl, ?_⟩
    exact strconv.FormatUint_all_digits v.Major d (by simp [hm])

theorem splitAndTrim.loop_no_space : ∀ (s cur : Str) (lastChar : Char), ' ' ∉ s →
    splitAndTrim.loop s cur lastChar = keepPart (cur ++ s) := by
  intro s
  induction s with
  | nil => intro cur lastChar _; simp [splitAndTrim.loop]
  | cons c cs ih =>
    intro cur lastChar h
    have hc : c ≠ ' ' := fun hc => h (by simp [hc])
    have hcs : ' ' ∉ cs := fun hcs => h (List.mem_cons_of_mem _ hcs)
    unfold splitAndTrim.loop
    simp only [hc, decide_False, Bool.false_and, Bool.false_eq_true, if_false]
    rw [ih _ _ hcs]
    simp

theorem byteLen_two_le (a b : Char) (t : Str) : 2 ≤ byteLen (a :: b :: t) := by
  have ha := Char.utf8Size_pos a
  have hb := Char.utf8Size_pos b
  simp only [byteLen, List.map_cons, List.sum_cons]
  omega

theorem splitAndTrim_no_space (a b : Char) (t : Str) (h : ' ' ∉ a :: b :: t) :
    splitAndTrim (a :: b :: t) = [a :: b :: t] := by
  unfold splitAndTrim
  rw [splitAndTrim.loop_no_space _ _ _ h]
  have hf : strings.RemoveSpaces (a :: b :: t) = a :: b :: t := by
    unfold strings.RemoveSpaces
    rw [List.filter_eq_self]
    intro c hc
    have : c ≠ ' ' := fun hcs => h (hcs ▸ hc)
    simpa using this
  simp [keepPart, byteLen_two_le, hf]

theorem isDigit_of_ascii (c : Char) (h : isAsciiDigit c = true) : unicode.IsDigit c = true := by
  simp only [isAsciiDigit, Bool.and_eq_true, decide_eq_true_eq] at h
  simp only [unicode.IsDigit, unicode.digitBlocks, List.any_cons, Bool.or_eq_true,
    Bool.and_eq_true, decide_eq_true_eq]
  left
  left
  omega

/-- The comparator `>` is split from the text of a version that follows it. -/
theorem splitComparatorVersion_gt (v : Version) :
    splitComparatorVersion ('>' :: v.String) = .ok (['>'], v.String) := by
  obtain ⟨d, t, hd, hdig⟩ := Version.String_head v
  rw [hd]
  have h1 : unicode.IsDigit '>' = false := by decide
  have h2 := isDigit_of_ascii d hdig
  have h3 : strings.TrimSpace ['>'] = ['>'] := by decide
  simp [splitComparatorVersion, strings.IndexFunc, h1, h2, h3]

theorem parseAndGroup_gt (v : Version) (h : v.WF) :
    parseAndGroup ['>' :: v.String] none = .ok (versionRange.rangeFunc ⟨v, .compGT⟩) := by
  have hc : parseComparator ['>'] = some .compGT := by decide
  simp [parseAndGroup, splitComparatorVersion_gt, buildVersionRange, hc, Parse_String v h]

/-- The range `>V` for the text `V` of a well-formed version without the letter `x`
parses to the comparison `> V`. -/
theorem ParseRange_gt (v : Version) (h : v.WF) (hx : 'x' ∉ v.String) :
    ParseRange ('>' :: v.String) = some (.ok (versionRange.rangeFunc ⟨v, .compGT⟩)) := by
  obtain ⟨d, t, hd, hdig⟩ := Version.String_head v
  have hsp : ' ' ∉ '>' :: v.String := by
    simp only [List.mem_cons, not_or]
    exact ⟨by decide, Version.String_no_space v h⟩
  have hsplit : splitAndTrim ('>' :: v.String) = ['>' :: v.String] := by
    rw [hd] at hsp ⊢
    exact splitAndTrim_no_space _ _ _ hsp
  have hor : ('>' :: v.String) ≠ "||".toList := by
    intro heq
    have : ("||".toList : Str) = ['|', '|'] := by decide
    rw [this] at heq
    simp only [List.cons.injEq] at heq
    exact absurd heq.1 (by decide)
  have hcx : strings.ContainsChar ('>' :: v.String) 'x' = false := by
    unfold strings.ContainsChar
    rw [Bool.eq_false_iff]
    intro hcon
    have hmem : 'x' ∈ '>' :: v.String := List.elem_iff.mp hcon
    simp only [List.mem_cons] at hmem
    rcases hmem with hmem | hmem
    · exact absurd hmem (by decide)
    · exact hx hmem
  unfold ParseRange
  rw [hsplit]
  simp [splitORParts, splitORParts.loop, hor, expandWildcardVersion, expandWildcardGroup, hcx,
    parseOrGroups, parseAndGroup_gt v h]

end semver


namespace semver

theorem strings_Split_singleton (s r : Str) (sep : Char) (h : strings.Split s sep = [r]) :
    r = s := by
  have hlen := strings.Split_length s sep
  rw [h] at hlen
  have hcount : s.count sep = 0 := by simpa using hlen.symm
  have hmem : sep ∉ s := List.count_eq_zero.mp hcount
  rw [strings.Split_of_not_mem s sep hmem] at h
  simpa using h.symm

/-- The text of a version never is a wildcard version: split at the dots it has at least
three parts, and when it has exactly three the last one starts with a digit. -/
theorem getWildcardType_String (v : Version) : getWildcardType v.String = .noneWildcard := by
  unfold getWildcardType
  rw [Version.String_eq, strings.Split_append _ _ _ (dot_not_mem_FormatUint _),
    strings.Split_append _ _ _ (dot_not_mem_FormatUint _)]
  generalize hR : strings.Split (strconv.FormatUint v.Patch ++ preText v ++ buildText v) '.' = R
  cases R with
  | nil => exact absurd hR (strings.Split_ne_nil _ _)
  | cons r rs =>
    cases rs with
    | nil =>
      have hr := strings_Split_singleton _ _ _ hR
      have hx : ("x".toList : Str) = ['x'] := by decide
      have hne : r ≠ ['x'] := by
        intro hrx
        rw [hrx] at hr
        cases hp : strconv.FormatUint v.Patch with
        | nil => exact absurd hp (strconv.FormatUint_ne_nil _)
        | cons d t =>
          have hdig := strconv.FormatUint_all_digits v.Patch d (by simp [hp])
          rw [hp] at hr
          simp only [List.cons_append, List.cons.injEq] at hr
          rw [← hr.1] at hdig
          exact absurd hdig (by decide)
      simp [hx, hne]
    | cons r2 rs2 =>
      simp only [List.length_cons]
      split_ifs
      · rfl
      · rfl

theorem expandWildcardPart_gt (v : Version) :
    expandWildcardPart ('>' :: v.String) = some (.ok [">=".toList]) := by
  unfold expandWildcardPart
  simp only [splitComparatorVersion_gt, getWildcardType_String]
  rfl

/-- The range `>V` for the text `V` of a version that holds the letter `x` does not
parse: the wildcard expansion leaves the bare comparator `>=`. -/
theorem ParseRange_gt_x (v : Version) (h : v.WF) (hx : 'x' ∈ v.String) :
    ParseRange ('>' :: v.String)
      = some (.error ⟨"Could not get version from string: %q", [">=".toList]⟩) := by
  obtain ⟨d, t, hd, hdig⟩ := Version.String_head v
  have hsp : ' ' ∉ '>' :: v.String := by
    simp only [List.mem_cons, not_or]
    exact ⟨by decide, Version.String_no_space v h⟩
  have hsplit : splitAndTrim ('>' :: v.String) = ['>' :: v.String] := by
    rw [hd] at hsp ⊢
    exact splitAndTrim_no_space _ _ _ hsp
  have hor : ('>' :: v.String) ≠ "||".toList := by
    intro heq
    have : ("||".toList : Str) = ['|', '|'] := by decide
    rw [this] at heq
    simp only [List.cons.injEq] at heq
    exact absurd heq.1 (by decide)
  have hcx : strings.ContainsChar ('>' :: v.String) 'x' = true := by
    unfold strings.ContainsChar
    exact List.elem_iff.mpr (List.mem_cons_of_mem _ hx)
  have hlast : parseAndGroup [">=".toList] none
      = .error ⟨"Could not get version from string: %q", [">=".toList]⟩ := by rfl
  have hge : (">=".toList : Str) = ['>', '='] := by decide
  rw [hge] at hlast
  unfold ParseRange
  rw [hsplit, hge]
  simp [splitORParts, splitORParts.loop, hor, expandWildcardVersion, expandWildcardGroup, hcx,
    expandWildcardPart_gt, parseOrGroups, hlast]

/-- What the call of the parsed range `>V` tells, for the text `V` of a well-formed
version: it succeeds only as the comparison with the version. -/
theorem ParseRange_gt_call (v w : Version) (h : v.WF) (f : Range)
    (hf : ParseRange ('>' :: v.String) = some (.ok f)) :
    'x' ∉ v.String ∧ f.call w = some (decide (w.Compare v = 1)) := by
  by_cases hx : 'x' ∈ v.String
  · rw [ParseRange_gt_x v h hx] at hf
    simp at hf
  · rw [ParseRange_gt v h hx] at hf
    simp only [Option.some.injEq, Except.ok.injEq] at hf
    subst hf
    exact ⟨hx, rfl⟩

end semver

/-! ## The order of versions -/

theorem IsCmp.strict {α : Type} {c : α → α → Int} (h : IsCmp c) (a b d : α)
    (h1 : c a b < 0) (h2 : c b d ≤ 0) : c a d < 0 := by
  have ht := h.trans a b d (by omega) h2
  rcases h.range a d with h3 | h3 | h3
  · omega
  · have := h.cong a d b h3
    have := h.anti b d
    omega
  · omega

theorem IsCmp.strict_right {α : Type} {c : α → α → Int} (h : IsCmp c) (a b d : α)
    (h1 : c a b ≤ 0) (h2 : c b d < 0) : c a d < 0 := by
  have ht := h.trans a b d h1 (by omega)
  rcases h.range a d with h3 | h3 | h3
  · omega
  · have := h.cong a d b h3
    have := h.anti b d
    have := h.anti a b
    have := h.anti d b
    omega
  · omega

theorem IsCmp.then {α : Type} {c1 c2 : α → α → Int} (h1 : IsCmp c1) (h2 : IsCmp c2) :
    IsCmp (fun a b => thenCmp (c1 a b) (c2 a b)) where
  range a b := by
    simp only [thenCmp]
    split_ifs with h
    · rcases h1.range a b with h3 | h3 | h3 <;> omega
    · exact h2.range a b
  anti a b := by
    simp only [thenCmp]
    have := h1.anti a b
    have := h2.anti a b
    split_ifs <;> omega
  trans a b d hab hbd := by
    simp only [thenCmp] at hab hbd ⊢
    have r1 := h1.range a b
    have r2 := h1.range b d
    have r3 := h1.range a d
    split_ifs at hab with hx
    · have hlt : c1 a b < 0 := by omega
      split_ifs at hbd with hy
      · have := h1.strict a b d hlt (by omega)
        split_ifs <;> omega
      · have := h1.strict a b d hlt (by omega)
        split_ifs <;> omega
    · have hx0 : c1 a b = 0 := by omega
      have hc := h1.cong a b d hx0
      split_ifs at hbd with hy
      · split_ifs <;> omega
      · have := h2.trans a b d hab hbd
        split_ifs <;> omega
  cong a b d hab := by
    simp only [thenCmp] at hab ⊢
    split_ifs at hab with hx
    · omega
    · have hx0 : c1 a b = 0 := by omega
      rw [h1.cong a b d hx0, h2.cong a b d hab]

theorem IsCmp.comap {α β : Type} {c : β → β → Int} (h : IsCmp c) (f : α → β) :
    IsCmp (fun a b => c (f a) (f b)) where
  range _ _ := h.range _ _
  anti _ _ := h.anti _ _
  trans _ _ _ := h.trans _ _ _
  cong _ _ _ := h.cong _ _ _

theorem semver.compareNat_isCmp : IsCmp semver.compareNat where
  range a b := by
    unfold semver.compareNat
    split_ifs <;> simp
  anti a b := by
    unfold semver.compareNat
    split_ifs <;> omega
  trans a b d := by
    unfold semver.compareNat
    intro h1 h2
    split_ifs at h1 h2 ⊢ <;> omega
  cong a b d := by
    unfold semver.compareNat
    intro h1
    split_ifs at h1 ⊢ <;> omega

theorem semver.compareNat_eq_zero (a b : Nat) : semver.compareNat a b = 0 ↔ a = b := by
  unfold semver.compareNat
  by_cases h : a = b
  · simp [h]
  · rw [if_neg h]
    by_cases h2 : a > b
    · simp [h2, h]
    · simp [h2, h]

theorem lexCmp_isCmp {α : Type} {c : α → α → Int} (h : IsCmp c) : IsCmp (lexCmp c) where
  range := by
    intro a
    induction a with
    | nil => intro b; cases b <;> simp [lexCmp]
    | cons x xs ih =>
      intro b
      cases b with
      | nil => simp [lexCmp]
      | cons y ys =>
        simp only [lexCmp, thenCmp]
        split_ifs
        · exact h.range x y
        · exact ih ys
  anti := by
    intro a
    induction a with
    | nil => intro b; cases b <;> simp [lexCmp]
    | cons x xs ih =>
      intro b
      cases b with
      | nil => simp [lexCmp]
      | cons y ys =>
        simp only [lexCmp, thenCmp]
        have := h.anti x y
        have := ih ys
        split_ifs <;> omega
  trans := by
    intro a
    induction a with
    | nil =>
      intro b d _ _
      cases d <;> simp [lexCmp]
    | cons x xs ih =>
      intro b d hab hbd
      cases b with
      | nil => simp [lexCmp] at hab
      | cons y ys =>
        cases d with
        | nil => simp [lexCmp] at hbd
        | cons z zs =>
          simp only [lexCmp, thenCmp] at hab hbd ⊢
          have r1 := h.range x y
          have r2 := h.range y z
          have r3 := h.range x z
          split_ifs at hab with hx
          · have hlt : c x y < 0 := by omega
            split_ifs at hbd with hy
            · have := h.strict x y z hlt (by omega)
              split_ifs <;> omega
            · have := h.strict x y z hlt (by omega)
              split_ifs <;> omega
          · have hx0 : c x y = 0 := by omega
            have hc := h.cong x y z hx0
            split_ifs at hbd with hy
            · split_ifs <;> omega
            · have := ih ys zs hab hbd
              split_ifs <;> omega
  cong := by
    intro a
    induction a with
    | nil =>
      intro b d hab
      cases b with
      | nil => rfl
      | cons y ys => simp [lexCmp] at hab
    | cons x xs ih =>
      intro b d hab
      cases b with
      | nil => simp [lexCmp] at hab
      | cons y ys =>
        simp only [lexCmp, thenCmp] at hab
        split_ifs at hab with hx
        · omega
        · have hx0 : c x y = 0 := by omega
          cases d with
          | nil => simp [lexCmp]
          | cons z zs =>
            simp only [lexCmp, thenCmp]
            rw [h.cong x y z hx0, ih ys zs hab]


namespace semver

theorem char_eq_of_toNat_eq {x y : Char} (h : x.toNat = y.toNat) : x = y := by
  rw [← Char.ofNat_toNat x, ← Char.ofNat_toNat y, h]

theorem strCmp_eq_lexCmp : ∀ a b : Str,
    strCmp a b = lexCmp compareNat (a.map Char.toNat) (b.map Char.toNat) := by
  intro a
  induction a with
  | nil =>
    intro b
    cases b with
    | nil => rfl
    | cons y ys => simp [strCmp, strLess, lexCmp]
  | cons x xs ih =>
    intro b
    cases b with
    | nil => simp [strCmp, strLess, lexCmp]
    | cons y ys =>
      simp only [List.map_cons, lexCmp, thenCmp]
      rw [← ih ys]
      by_cases hxy : x.toNat = y.toNat
      · have hc : x = y := char_eq_of_toNat_eq hxy
        subst hc
        have h0 : compareNat x.toNat x.toNat = 0 := (compareNat_eq_zero _ _).mpr rfl
        simp [strCmp, strLess, h0]
      · have hne : x ≠ y := fun h => hxy (by rw [h])
        have hne2 : y ≠ x := fun h => hne h.symm
        have h0 : compareNat x.toNat y.toNat ≠ 0 := fun h => hxy ((compareNat_eq_zero _ _).mp h)
        rw [if_pos h0]
        unfold strCmp strLess compareNat
        simp only [List.cons.injEq, hne, false_and, if_false, hxy, hne2, decide_False,
          Bool.false_and, Bool.or_false, decide_eq_true_eq]

theorem strCmp_isCmp : IsCmp strCmp := by
  have h := (lexCmp_isCmp compareNat_isCmp).comap (fun s : Str => s.map Char.toNat)
  have heq : strCmp = fun a b => lexCmp compareNat (a.map Char.toNat) (b.map Char.toNat) := by
    funext a b
    exact strCmp_eq_lexCmp a b
  rw [heq]
  exact h

theorem PRVersion.prCompare_eq (v o : PRVersion) :
    v.Compare o = if v.IsNum = true then (if o.IsNum = true then compareNat v.VersionNum o.VersionNum else -1)
      else (if o.IsNum = true then 1 else strCmp v.VersionStr o.VersionStr) := by
  unfold PRVersion.Compare strCmp
  cases v.IsNum <;> cases o.IsNum <;> simp

theorem PRVersion.prCompare_isCmp : IsCmp PRVersion.Compare where
  range v o := by
    rw [PRVersion.prCompare_eq]
    have h1 := compareNat_isCmp.range v.VersionNum o.VersionNum
    have h2 := strCmp_isCmp.range v.VersionStr o.VersionStr
    split_ifs <;> simp [h1, h2]
  anti v o := by
    rw [PRVersion.prCompare_eq, PRVersion.prCompare_eq]
    have h1 := compareNat_isCmp.anti v.VersionNum o.VersionNum
    have h2 := strCmp_isCmp.anti v.VersionStr o.VersionStr
    split_ifs <;> simp [h1, h2]
  trans v o d := by
    rw [PRVersion.prCompare_eq, PRVersion.prCompare_eq, PRVersion.prCompare_eq]
    have h1 := compareNat_isCmp.trans v.VersionNum o.VersionNum d.VersionNum
    have h2 := strCmp_isCmp.trans v.VersionStr o.VersionStr d.VersionStr
    intro hab hbd
    split_ifs at hab hbd ⊢ <;> omega
  cong v o d := by
    rw [PRVersion.prCompare_eq, PRVersion.prCompare_eq, PRVersion.prCompare_eq]
    have h1 := compareNat_isCmp.cong v.VersionNum o.VersionNum d.VersionNum
    have h2 := strCmp_isCmp.cong v.VersionStr o.VersionStr d.VersionStr
    intro hab
    split_ifs at hab ⊢ <;> omega

theorem comparePre_eq_lexCmp : ∀ a b : List PRVersion,
    comparePre a b = lexCmp PRVersion.Compare a b := by
  intro a
  induction a with
  | nil => intro b; cases b <;> rfl
  | cons x xs ih =>
    intro b
    cases b with
    | nil => rfl
    | cons y ys =>
      simp only [comparePre, lexCmp, thenCmp, ih ys]
      have := PRVersion.prCompare_isCmp.range x y
      split_ifs <;> omega

theorem preCmp_eq (a b : List PRVersion) :
    preCmp a b = match a, b with
      | [], [] => 0
      | [], _ :: _ => 1
      | _ :: _, [] => -1
      | x :: xs, y :: ys => lexCmp PRVersion.Compare (x :: xs) (y :: ys) := by
  cases a <;> cases b <;> simp [preCmp, comparePre_eq_lexCmp]

theorem preCmp_isCmp : IsCmp preCmp where
  range a b := by
    rw [preCmp_eq]
    have := (lexCmp_isCmp PRVersion.prCompare_isCmp).range a b
    cases a <;> cases b <;> simp_all
  anti a b := by
    rw [preCmp_eq, preCmp_eq]
    have := (lexCmp_isCmp PRVersion.prCompare_isCmp).anti a b
    cases a <;> cases b <;> simp_all
  trans a b d := by
    rw [preCmp_eq, preCmp_eq, preCmp_eq]
    have := (lexCmp_isCmp PRVersion.prCompare_isCmp).trans a b d
    cases a <;> cases b <;> cases d <;> simp_all
  cong a b d := by
    rw [preCmp_eq, preCmp_eq, preCmp_eq]
    have := (lexCmp_isCmp PRVersion.prCompare_isCmp).cong a b d
    cases a <;> cases b <;> cases d <;> simp_all

theorem thenCmp_compareNat_self (a : Nat) (y : Int) : thenCmp (compareNat a a) y = y := by
  simp [thenCmp, (compareNat_eq_zero a a).mpr rfl]

theorem thenCmp_compareNat_ne (a b : Nat) (y : Int) (h : a ≠ b) :
    thenCmp (compareNat a b) y = if a > b then 1 else -1 := by
  have h0 : compareNat a b ≠ 0 := fun h0 => h ((compareNat_eq_zero a b).mp h0)
  rw [thenCmp, if_pos h0, compareNat, if_neg h]

theorem Version.Compare_eq (v o : Version) :
    v.Compare o = thenCmp (compareNat v.Major o.Major) (thenCmp (compareNat v.Minor o.Minor)
      (thenCmp (compareNat v.Patch o.Patch) (preCmp v.Pre o.Pre))) := by
  unfold Version.Compare
  by_cases h1 : v.Major = o.Major
  · rw [if_neg (not_not.mpr h1), h1, thenCmp_compareNat_self]
    by_cases h2 : v.Minor = o.Minor
    · rw [if_neg (not_not.mpr h2), h2, thenCmp_compareNat_self]
      by_cases h3 : v.Patch = o.Patch
      · rw [if_neg (not_not.mpr h3), h3, thenCmp_compareNat_self]
        rfl
      · rw [if_pos h3, thenCmp_compareNat_ne _ _ _ h3]
    · rw [if_pos h2, thenCmp_compareNat_ne _ _ _ h2]
  · rw [if_pos h1, thenCmp_compareNat_ne _ _ _ h1]

/-- The method `Version.Compare` is a three-way comparison. -/
theorem Version.Compare_isCmp : IsCmp Version.Compare := by
  have h := (compareNat_isCmp.comap Version.Major).then
    ((compareNat_isCmp.comap Version.Minor).then
      ((compareNat_isCmp.comap Version.Patch).then (preCmp_isCmp.comap Version.Pre)))
  have heq : Version.Compare = fun v o =>
      thenCmp (compareNat v.Major o.Major) (thenCmp (compareNat v.Minor o.Minor)
        (thenCmp (compareNat v.Patch o.Patch) (preCmp v.Pre o.Pre))) := by
    funext v o
    exact Version.Compare_eq v o
  rw [heq]
  exact h

/-- No version is less than a version that is not less than it: `LT` is asymmetric. -/
theorem Version.LT_asymm (a b : Version) (h : a.LT b = true) : b.LT a = false := by
  simp only [Version.LT, decide_eq_true_eq, decide_eq_false_iff_not] at h ⊢
  have := Version.Compare_isCmp.anti a b
  omega

/-- Being not less is transitive. -/
theorem Version.not_LT_trans (a b d : Version) (h1 : b.LT a = false) (h2 : d.LT b = false) :
    d.LT a = false := by
  simp only [Version.LT, decide_eq_false_iff_not] at h1 h2 ⊢
  have r1 := Version.Compare_isCmp.range b a
  have r2 := Version.Compare_isCmp.range d b
  have r3 := Version.Compare_isCmp.range d a
  have a1 := Version.Compare_isCmp.anti a b
  have a2 := Version.Compare_isCmp.anti b d
  have a3 := Version.Compare_isCmp.anti a d
  have t := Version.Compare_isCmp.trans a b d (by omega) (by omega)
  omega

end semver

/-! ## Sorting and filtering -/

theorem sort.insert_perm {α : Type} (less : α → α → Bool) (x : α) :
    ∀ ys : List α, (sort.insert less x ys).Perm (x :: ys) := by
  intro ys
  induction ys with
  | nil => exact List.Perm.refl _
  | cons y ys ih =>
    unfold sort.insert
    split_ifs
    · exact (List.Perm.cons y ih).trans (List.Perm.swap x y ys)
    · exact List.Perm.refl _

theorem sort.insert_pairwise {α : Type} (less : α → α → Bool)
    (hasym : ∀ a b, less a b = true → less b a = false)
    (htrans : ∀ a b d, less a b = false → less b d = false → less a d = false) (x : α) :
    ∀ ys : List α, ys.Pairwise (fun a b => less a b = false) →
      (sort.insert less x ys).Pairwise (fun a b => less a b = false) := by
  intro ys
  induction ys with
  | nil => intro _; simp [sort.insert]
  | cons y ys ih =>
    intro h
    rw [List.pairwise_cons] at h
    unfold sort.insert
    by_cases hxy : less x y = true
    · rw [if_pos hxy, List.pairwise_cons]
      refine ⟨?_, ih h.2⟩
      intro z hz
      have hz2 := (sort.insert_perm less x ys).subset hz
      simp only [List.mem_cons] at hz2
      rcases hz2 with rfl | hz2
      · exact hasym _ _ hxy
      · exact h.1 z hz2
    · have hxy2 : less x y = false := by simpa using hxy
      rw [if_neg hxy, List.pairwise_cons]
      refine ⟨?_, List.pairwise_cons.mpr h⟩
      intro z hz
      simp only [List.mem_cons] at hz
      rcases hz with rfl | hz
      · exact hxy2
      · exact htrans _ _ _ hxy2 (h.1 z hz)

theorem sort.foldl_insert {α : Type} (less : α → α → Bool)
    (hasym : ∀ a b, less a b = true → less b a = false)
    (htrans : ∀ a b d, less a b = false → less b d = false → less a d = false) :
    ∀ (xs done : List α), done.Pairwise (fun a b => less a b = false) →
      ((xs.foldl (fun done x => sort.insert less x done) done).Pairwise
          (fun a b => less a b = false) ∧
        (xs.foldl (fun done x => sort.insert less x done) done).Perm (xs.reverse ++ done)) := by
  intro xs
  induction xs with
  | nil => intro done h; exact ⟨h, by simp⟩
  | cons x xs ih =>
    intro done h
    have h1 := ih (sort.insert less x done) (sort.insert_pairwise less hasym htrans x done h)
    refine ⟨h1.1, h1.2.trans ?_⟩
    simp only [List.reverse_cons, List.append_assoc, List.singleton_append]
    exact List.Perm.append_left _ (sort.insert_perm less x done)

/-- The result of `sort.Slice` is a permutation of the slice in which no element is less
than an element before it, when `less` is asymmetric and its negation is transitive. -/
theorem sort.Slice_sorted {α : Type} (less : α → α → Bool)
    (hasym : ∀ a b, less a b = true → less b a = false)
    (htrans : ∀ a b d, less a b = false → less b d = false → less a d = false) (xs : List α) :
    (sort.Slice xs less).Pairwise (fun a b => less b a = false) ∧ (sort.Slice xs less).Perm xs := by
  have h := sort.foldl_insert less hasym htrans xs [] List.Pairwise.nil
  unfold sort.Slice
  constructor
  · rw [List.pairwise_reverse]
    exact h.1
  · have h2 := h.2
    simp only [List.append_nil] at h2
    exact (List.reverse_perm _).trans (h2.trans (List.reverse_perm _))

namespace Check

theorem SemverFromPath_receiver (c c1 : Check) (path : Str) :
    c1.SemverFromPath path = c.SemverFromPath path := rfl

/-- A `SemverFile` returned without error is what `SemverFromPath` returns for its own
`Path`. -/
theorem SemverFromPath_idem (c : Check) (path : Str) (sf : SemverFile)
    (h : c.SemverFromPath path = (sf, none)) : c.SemverFromPath sf.Path = (sf, none) := by
  by_cases hp : path = []
  · subst hp
    have h0 : c.SemverFromPath [] = (SemverFile.zero, none) := by simp [SemverFromPath]
    rw [h0] at h
    simp only [Prod.mk.injEq, and_true] at h
    subst h
    exact h0
  · have hpath : sf.Path = path := by
      unfold SemverFromPath at h
      rw [if_neg hp] at h
      simp only at h
      split at h
      · simp at h
      · split_ifs at h
        · simp at h
        · split at h
          · simp at h
          · simp only [Prod.mk.injEq, and_true] at h
            rw [← h]
    rw [hpath]
    exact h

/-- The version of a `SemverFile` with a non-empty `Path` is well formed. -/
theorem SemverFromPath_WF (c : Check) (path : Str) (h : (c.SemverFromPath path).1.Path ≠ []) :
    (c.SemverFromPath path).1.Version.WF := by
  unfold SemverFromPath at h ⊢
  by_cases hp : path = []
  · simp [hp, SemverFile.zero] at h
  · simp only [if_neg hp] at h ⊢
    split at h
    · simp [SemverFile.zero] at h
    · split_ifs at h ⊢ with hl
      · simp [SemverFile.zero] at h
      · split at h
        · simp [SemverFile.zero] at h
        · next v hv =>
          simp only [hv]
          exact semver.Parse_WF hv

/-- Every file that `ResultsToSemverFilesFiltered` keeps is the result of
`SemverFromPath` on a candidate path, without error, and its version satisfies the
range. -/
theorem ResultsToSemverFilesFiltered_mem (c : Check) (rangeSem : semver.Range) :
    ∀ (results : List SearchResult) (semverFiles : List SemverFile),
      c.ResultsToSemverFilesFiltered results rangeSem = some semverFiles →
      ∀ sf ∈ semverFiles, (∃ file ∈ results, c.SemverFromPath file.Path = (sf, none)) ∧
        rangeSem.call sf.Version = some true := by
  intro results
  induction results with
  | nil =>
    intro sfs h
    simp only [ResultsToSemverFilesFiltered, Option.some.injEq] at h
    subst h
    simp
  | cons file rest ih =>
    intro sfs h sf hsf
    unfold ResultsToSemverFilesFiltered at h
    split at h
    · obtain ⟨hx, hr⟩ := ih sfs h sf hsf
      obtain ⟨f, hf, hfe⟩ := hx
      exact ⟨⟨f, List.mem_cons_of_mem _ hf, hfe⟩, hr⟩
    · next semverFile hsem =>
      split at h
      · simp at h
      · obtain ⟨hx, hr⟩ := ih sfs h sf hsf
        obtain ⟨f, hf, hfe⟩ := hx
        exact ⟨⟨f, List.mem_cons_of_mem _ hf, hfe⟩, hr⟩
      · next hcall =>
        split at h
        · simp at h
        · next more hmore =>
          simp only [Option.some.injEq] at h
          subst h
          simp only [List.mem_cons] at hsf
          rcases hsf with rfl | hsf
          · exact ⟨⟨file, by simp, hsem⟩, hcall⟩
          · obtain ⟨hx, hr⟩ := ih more hmore sf hsf
            obtain ⟨f, hf, hfe⟩ := hx
            exact ⟨⟨f, List.mem_cons_of_mem _ hf, hfe⟩, hr⟩

end Check

theorem semver.Range.AND_call_true (rf f : semver.Range) (v : semver.Version)
    (h : (semver.Range.AND rf f).call v = some true) :
    rf.call v = some true ∧ f.call v = some true := by
  simp only [semver.Range.AND, semver.Range.call] at h
  split at h
  · simp at h
  · next hrf => exact ⟨hrf, h⟩
  · simp at h

/-! ## The range of `RetrieveRange` -/


namespace Check

/-- The results of `RetrieveRange` that carry no error: the configured range alone when
there is no previous path, and the configured range combined with what the parse of
`>previous` gives (the `nil` range when that parse fails) when there is one. -/
theorem RetrieveRange_ok (c c1 : Check) (rangeSem : semver.Range)
    (h : c.RetrieveRange = some ((rangeSem, none), c1)) :
    ∃ r, semver.ParseRange (c.SanitizeVersion c.source.Version) = some (.ok r) ∧
      ((c.RetrieveSemverFilePrevious.Path = [] ∧ rangeSem = r) ∨
       (c.RetrieveSemverFilePrevious.Path ≠ [] ∧
        ∃ res, semver.ParseRange ('>' :: c.RetrieveSemverFilePrevious.Version.String) = some res ∧
          rangeSem = semver.Range.AND r (semver.Range.dropError res))) := by
  unfold RetrieveRange at h
  split at h
  · simp at h
  · simp at h
  · next r hr =>
    refine ⟨r, hr, ?_⟩
    by_cases hp : c.RetrieveSemverFilePrevious.Path = []
    · left
      simp only [hp, ne_eq, not_true_eq_false, if_false, Option.some.injEq, Prod.mk.injEq,
        and_true] at h
      exact ⟨hp, h.1.symm⟩
    · right
      simp only [ne_eq, hp, not_false_eq_true, if_true] at h
      have hgt : (">".toList ++ c.RetrieveSemverFilePrevious.Version.String)
          = '>' :: c.RetrieveSemverFilePrevious.Version.String := rfl
      rw [hgt] at h
      split at h
      · simp at h
      · next res hres =>
        simp only [Option.some.injEq, Prod.mk.injEq, and_true] at h
        exact ⟨hp, res, hres, h.1.symm⟩

/-- In the output of versioned discovery every candidate that is kept after a previous
path has a version that compares greater than the previous version. -/
theorem kept_after_previous (c : Check) (r : semver.Range) (res : Except GoError semver.Range)
    (hp : c.RetrieveSemverFilePrevious.Path ≠ [])
    (hres : semver.ParseRange ('>' :: c.RetrieveSemverFilePrevious.Version.String) = some res)
    (w : semver.Version)
    (hw : (semver.Range.AND r (semver.Range.dropError res)).call w = some true) :
    w.Compare c.RetrieveSemverFilePrevious.Version = 1 ∧ r.call w = some true ∧
      'x' ∉ c.RetrieveSemverFilePrevious.Version.String := by
  have hwf : c.RetrieveSemverFilePrevious.Version.WF := SemverFromPath_WF c c.cmdVersion hp
  obtain ⟨h1, h2⟩ := semver.Range.AND_call_true _ _ _ hw
  cases res with
  | error e => simp [semver.Range.call, semver.Range.dropError] at h2
  | ok f =>
    simp only [semver.Range.dropError] at h2
    obtain ⟨hx, hcall⟩ := semver.ParseRange_gt_call _ w hwf f hres
    rw [hcall] at h2
    simp only [Option.some.injEq, decide_eq_true_eq] at h2
    exact ⟨h2, h1, hx⟩

theorem pairwise_sorted_paths (c : Check) (sfs : List SemverFile)
    (hsf : ∀ sf ∈ sfs, c.SemverFromPath sf.Path = (sf, none)) :
    (c.SemverFilesToVersions sfs).Pairwise (fun p q =>
      ((c.SemverFromPath q).1.Version).LT ((c.SemverFromPath p).1.Version) = false) := by
  unfold SemverFilesToVersions
  rw [List.pairwise_map]
  obtain ⟨hs, hperm⟩ := sort.Slice_sorted (fun a b : SemverFile => a.Version.LT b.Version)
    (fun a b => semver.Version.LT_asymm a.Version b.Version)
    (fun a b d h1 h2 => semver.Version.not_LT_trans d.Version b.Version a.Version h2 h1) sfs
  refine List.Pairwise.imp_of_mem ?_ hs
  intro a b ha hb hab
  rw [hsf a (hperm.subset ha), hsf b (hperm.subset hb)]
  exact hab

end Check

/-! ## Versioned discovery when nothing panics -/

namespace Check

/-- With a range whose call never panics, `ResultsToSemverFilesFiltered` is a filter. -/
theorem ResultsToSemverFilesFiltered_eq (c : Check) (rangeSem : semver.Range)
    (g : semver.Version → Bool) (hg : ∀ v, rangeSem.call v = some (g v)) :
    ∀ results : List SearchResult,
      c.ResultsToSemverFilesFiltered results rangeSem
        = some ((results.filter (fun file =>
            (c.SemverFromPath file.Path).2.isNone && g (c.SemverFromPath file.Path).1.Version)).map
              (fun file => (c.SemverFromPath file.Path).1)) := by
  intro results
  induction results with
  | nil => rfl
  | cons file rest ih =>
    unfold ResultsToSemverFilesFiltered
    split
    · next e he =>
      rw [ih]
      simp [List.filter_cons, he]
    · next sf he =>
      rw [hg sf.Version, ih]
      cases hgv : g sf.Version with
      | false => simp [List.filter_cons, he, hgv]
      | true => simp [List.filter_cons, he, hgv]

/-- A file for which `SemverFromPath` returns no error carries the path it was made of. -/
theorem SemverFromPath_path_of_ok (c : Check) (path : Str)
    (h : (c.SemverFromPath path).2.isNone = true) : (c.SemverFromPath path).1.Path = path := by
  cases hsf : c.SemverFromPath path with
  | mk sf e =>
    rw [hsf] at h
    simp only [Option.isNone_iff_eq_none] at h
    subst h
    have hidem := SemverFromPath_idem c path sf hsf
    by_cases hp : sf.Path = []
    · by_cases hpath : path = []
      · simp [hp, hpath]
      · exfalso
        unfold SemverFromPath at hsf
        rw [if_neg hpath] at hsf
        simp only at hsf
        split at hsf
        · simp at hsf
        · split_ifs at hsf
          · simp at hsf
          · split at hsf
            · simp at hsf
            · simp only [Prod.mk.injEq, and_true] at hsf
              rw [← hsf] at hp
              exact hpath hp
    · have := SemverFromPath_of_path_ne c path (by rw [hsf]; exact hp)
      rw [hsf] at this
      exact this.2.2

/-- Versioned discovery: when the configured constraint parses to a range whose call
never panics, and the text of the previous version, if there is one, has no letter `x`,
`RetrieveVersions` returns without error the previous path, if any, followed by a
permutation of the paths of the candidates that are kept. -/
theorem RetrieveVersions_versioned (c : Check) (results : List SearchResult) (r : semver.Range)
    (hres : results ≠ []) (hv : c.source.Version ≠ [])
    (hr : semver.ParseRange (c.SanitizeVersion c.source.Version) = some (.ok r))
    (htotal : ∀ v, ∃ b, r.call v = some b)
    (hx : c.RetrieveSemverFilePrevious.Path ≠ [] →
      'x' ∉ c.RetrieveSemverFilePrevious.Version.String) :
    ∃ kept : List Str,
      c.RetrieveVersions results
        = some ((if c.RetrieveSemverFilePrevious.Path ≠ [] then [c.RetrieveSemverFilePrevious.Path]
            else []) ++ kept, none) ∧
      kept.Perm ((results.filter (c.keeps r)).map (fun file => file.Path)) := by
  have hl : results.length ≠ 0 := by simpa using hres
  -- the range that `RetrieveRange` returns, as a total function
  have hrange : ∃ rangeSem c1, c.RetrieveRange = some ((rangeSem, none), c1) ∧
      ∀ v, rangeSem.call v = some ((r.call v == some true) &&
        (decide (c.RetrieveSemverFilePrevious.Path = []) ||
          v.GT c.RetrieveSemverFilePrevious.Version)) := by
    unfold RetrieveRange
    rw [hr]
    by_cases hp : c.RetrieveSemverFilePrevious.Path = []
    · refine ⟨r, c, by simp [hp], ?_⟩
      intro v
      obtain ⟨b, hb⟩ := htotal v
      cases b <;> simp [hb, hp]
    · have hwf : c.RetrieveSemverFilePrevious.Version.WF := SemverFromPath_WF c c.cmdVersion hp
      have hgt : (">".toList ++ c.RetrieveSemverFilePrevious.Version.String)
          = '>' :: c.RetrieveSemverFilePrevious.Version.String := rfl
      simp only [ne_eq, hp, not_false_eq_true, if_true, hgt,
        semver.ParseRange_gt _ hwf (hx hp)]
      refine ⟨_, _, rfl, ?_⟩
      intro v
      obtain ⟨b, hb⟩ := htotal v
      cases b <;>
        simp [semver.Range.AND, semver.Range.call, semver.Range.dropError,
          semver.versionRange.rangeFunc, semver.comparator.apply, semver.Version.GT, hp] <;>
        simp [semver.Range.call] at hb <;> simp [hb]
  obtain ⟨rangeSem, c1, hrr, hcall⟩ := hrange
  obtain ⟨sfs, hsfs, hfilt⟩ : ∃ sfs, sfs = (results.filter (fun file =>
      (c1.SemverFromPath file.Path).2.isNone &&
        ((r.call (c1.SemverFromPath file.Path).1.Version == some true) &&
          (decide (c.RetrieveSemverFilePrevious.Path = []) ||
            (c1.SemverFromPath file.Path).1.Version.GT c.RetrieveSemverFilePrevious.Version)))).map
        (fun file => (c1.SemverFromPath file.Path).1) ∧
      c1.ResultsToSemverFilesFiltered results rangeSem = some sfs :=
    ⟨_, rfl, ResultsToSemverFilesFiltered_eq c1 rangeSem _ hcall results⟩
  obtain ⟨_, hperm⟩ := sort.Slice_sorted (fun a b : SemverFile => a.Version.LT b.Version)
    (fun a b => semver.Version.LT_asymm a.Version b.Version)
    (fun a b d h1 h2 => semver.Version.not_LT_trans d.Version b.Version a.Version h2 h1) sfs
  refine ⟨c1.SemverFilesToVersions sfs, ?_, ?_⟩
  · unfold RetrieveVersions
    simp only [if_neg hl, if_neg hv, hrr, hfilt]
  · unfold SemverFilesToVersions
    refine (hperm.map _).trans ?_
    rw [hsfs, List.map_map]
    have hkeep : (fun file : SearchResult =>
        (c1.SemverFromPath file.Path).2.isNone &&
          ((r.call (c1.SemverFromPath file.Path).1.Version == some true) &&
            (decide (c.RetrieveSemverFilePrevious.Path = []) ||
              (c1.SemverFromPath file.Path).1.Version.GT c.RetrieveSemverFilePrevious.Version)))
        = c.keeps r := by
      funext file
      simp only [keeps, SemverFromPath_receiver c c1, Bool.and_assoc]
    rw [hkeep]
    apply List.Perm.of_eq
    apply List.map_congr_left
    intro file hfile
    have hk := (List.mem_filter.mp hfile).2
    simp only [keeps, Bool.and_eq_true] at hk
    exact SemverFromPath_path_of_ok c file.Path hk.1.1

end Check

/-! ## The shape of the output of versioned discovery -/

namespace Check

theorem ResultsToSemverFilesFiltered_receiver (c c1 : Check) (rangeSem : semver.Range) :
    ∀ results : List SearchResult,
      c1.ResultsToSemverFilesFiltered results rangeSem
        = c.ResultsToSemverFilesFiltered results rangeSem := by
  intro results
  induction results with
  | nil => rfl
  | cons file rest ih =>
    unfold ResultsToSemverFilesFiltered
    rw [SemverFromPath_receiver c c1, ih]

/-- A candidate for which `SemverFromPath` returns an error is passed over by
`ResultsToSemverFilesFiltered`. -/
theorem ResultsToSemverFilesFiltered_skip (c : Check) (rangeSem : semver.Range)
    (bad : SearchResult) (hbad : (c.SemverFromPath bad.Path).2 ≠ none) :
    ∀ a b : List SearchResult,
      c.ResultsToSemverFilesFiltered (a ++ bad :: b) rangeSem
        = c.ResultsToSemverFilesFiltered (a ++ b) rangeSem := by
  intro a b
  induction a with
  | nil =>
    simp only [List.nil_append]
    rw [ResultsToSemverFilesFiltered]
    split
    · rfl
    · next sf hsf =>
      rw [hsf] at hbad
      exact absurd rfl hbad
  | cons x xs ih =>
    simp only [List.cons_append]
    rw [ResultsToSemverFilesFiltered, ResultsToSemverFilesFiltered, ih]

/-- The previous `SemverFile` is what `SemverFromPath` returns for its own path, without
error. -/
theorem SemverFromPath_previous (c : Check) (hp : c.RetrieveSemverFilePrevious.Path ≠ []) :
    c.SemverFromPath c.RetrieveSemverFilePrevious.Path = (c.RetrieveSemverFilePrevious, none) := by
  have h := SemverFromPath_of_path_ne c c.cmdVersion hp
  have hpath : c.RetrieveSemverFilePrevious.Path = c.cmdVersion := h.2.2
  rw [hpath]
  exact Prod.ext rfl h.1

/-- The list that versioned discovery returns for a non-empty candidate list: the
previous path, if any, followed by paths of candidates for which `SemverFromPath` returns
no error and, when there is a previous path, a version that compares greater than the
previous version. -/
theorem RetrieveVersions_shape (c : Check) (results : List SearchResult) (versions : List Str)
    (err : Option GoError) (hres : results ≠ []) (hv : c.source.Version ≠ [])
    (h : c.RetrieveVersions results = some (versions, err)) :
    ∃ kept : List Str,
      versions = (if c.RetrieveSemverFilePrevious.Path ≠ [] then
          [c.RetrieveSemverFilePrevious.Path] else []) ++ kept ∧
      ∀ q ∈ kept, (c.SemverFromPath q).2 = none ∧ (∃ file ∈ results, file.Path = q) ∧
        (c.RetrieveSemverFilePrevious.Path ≠ [] →
          ((c.SemverFromPath q).1.Version).Compare c.RetrieveSemverFilePrevious.Version = 1) := by
  have hl : results.length ≠ 0 := by simpa using hres
  unfold RetrieveVersions at h
  simp only [if_neg hl, if_neg hv] at h
  split at h
  · simp at h
  · simp only [Option.some.injEq, Prod.mk.injEq] at h
    exact ⟨[], by rw [← h.1]; simp, by simp⟩
  · next rangeSem c1 hrange =>
    split at h
    · simp at h
    · next sfs hsfs =>
      simp only [Option.some.injEq, Prod.mk.injEq] at h
      refine ⟨c1.SemverFilesToVersions sfs, h.1.symm, ?_⟩
      intro q hq
      have hmem := ResultsToSemverFilesFiltered_mem c1 rangeSem results sfs hsfs
      simp only [SemverFilesToVersions, List.mem_map] at hq
      obtain ⟨sf, hsf, rfl⟩ := hq
      have hsf2 : sf ∈ sfs :=
        (sort.Slice_sorted (fun a b : SemverFile => a.Version.LT b.Version)
          (fun a b => semver.Version.LT_asymm a.Version b.Version)
          (fun a b d h1 h2 => semver.Version.not_LT_trans d.Version b.Version a.Version h2 h1)
          sfs).2.subset hsf
      obtain ⟨⟨file, hfile, hfe⟩, hcall⟩ := hmem sf hsf2
      have hfe2 : c.SemverFromPath file.Path = (sf, none) := hfe
      have hidem := SemverFromPath_idem c file.Path sf hfe2
      have hpath : sf.Path = file.Path := by
        have := SemverFromPath_path_of_ok c file.Path (by rw [hfe2]; rfl)
        rw [hfe2] at this
        exact this
      refine ⟨by rw [hidem], ⟨file, hfile, hpath.symm⟩, ?_⟩
      intro hp
      obtain ⟨r, hr, hcase⟩ := RetrieveRange_ok c c1 rangeSem hrange
      rcases hcase with ⟨hp0, _⟩ | ⟨_, res, hres2, hrs⟩
      · exact absurd hp0 hp
      · rw [hrs] at hcall
        rw [hidem]
        exact (kept_after_previous c r res hp hres2 sf.Version hcall).1

/-- A list that versioned discovery returns is ascending by the versions of its paths. -/
theorem RetrieveVersions_pairwise (c : Check) (results : List SearchResult)
    (versions : List Str) (err : Option GoError) (hv : c.source.Version ≠ [])
    (h : c.RetrieveVersions results = some (versions, err)) :
    versions.Pairwise (fun p q =>
      ((c.SemverFromPath q).1.Version).LT ((c.SemverFromPath p).1.Version) = false) := by
  unfold RetrieveVersions at h
  by_cases hl : results.length = 0
  · simp only [hl, if_true, Option.some.injEq, Prod.mk.injEq] at h
    rw [← h.1]
    exact List.Pairwise.nil
  · simp only [if_neg hl, if_neg hv] at h
    split at h
    · simp at h
    · simp only [Option.some.injEq, Prod.mk.injEq] at h
      rw [← h.1]
      split_ifs
      · exact List.pairwise_singleton _ _
      · exact List.Pairwise.nil
    · next rangeSem c1 hrange =>
      split at h
      · simp at h
      · next sfs hsfs =>
        simp only [Option.some.injEq, Prod.mk.injEq] at h
        rw [← h.1]
        have hmem := ResultsToSemverFilesFiltered_mem c1 rangeSem results sfs hsfs
        have hidem : ∀ sf ∈ sfs, c.SemverFromPath sf.Path = (sf, none) := by
          intro sf hsf
          obtain ⟨⟨file, _, hfile⟩, _⟩ := hmem sf hsf
          exact SemverFromPath_idem c file.Path sf hfile
        have hsorted := pairwise_sorted_paths c sfs hidem
        obtain ⟨r, hr, hcase⟩ := RetrieveRange_ok c c1 rangeSem hrange
        rcases hcase with ⟨hp, _⟩ | ⟨hp, res, hres, hrs⟩
        · simp only [hp, ne_eq, not_true_eq_false, if_false, List.nil_append]
          exact hsorted
        · simp only [ne_eq, hp, not_false_eq_true, if_true]
          rw [List.pairwise_append]
          refine ⟨List.pairwise_singleton _ _, hsorted, ?_⟩
          intro p hpm q hq
          simp only [List.mem_singleton] at hpm
          subst hpm
          rw [SemverFromPath_previous c hp]
          simp only [SemverFilesToVersions, List.mem_map] at hq
          obtain ⟨sf, hsf, rfl⟩ := hq
          have hsf2 : sf ∈ sfs :=
            (sort.Slice_sorted (fun a b : SemverFile => a.Version.LT b.Version)
              (fun a b => semver.Version.LT_asymm a.Version b.Version)
              (fun a b d h1 h2 => semver.Version.not_LT_trans d.Version b.Version a.Version h2 h1)
              sfs).2.subset hsf
          rw [hidem sf hsf2]
          have hcall := (hmem sf hsf2).2
          rw [hrs] at hcall
          have hgt := (kept_after_previous c r res hp hres sf.Version hcall).1
          simp only [semver.Version.LT, decide_eq_false_iff_not]
          omega

end Check

/-! ## Build meta data and the order of the output -/

namespace semver

theorem Version.Compare_build_left (v o : Version) (b : List Str) :
    Version.Compare { v with Build := b } o = v.Compare o := rfl

theorem Version.Compare_build_right (v o : Version) (b : List Str) :
    v.Compare { o with Build := b } = v.Compare o := rfl

theorem Version.Compare_self (v : Version) : v.Compare v = 0 := by
  have := Version.Compare_isCmp.anti v v
  omega

/-- Versions that differ in the build meta data only compare equal. -/
theorem Version.Compare_build_only (v o : Version) (h1 : v.Major = o.Major)
    (h2 : v.Minor = o.Minor) (h3 : v.Patch = o.Patch) (h4 : v.Pre = o.Pre) :
    v.Compare o = 0 := by
  have ho : o = { v with Build := o.Build } := by
    cases v
    cases o
    simp_all
  rw [ho, Version.Compare_build_right, Version.Compare_self]

/-- A version with a pre-release is less than the version with the same numbers and
without pre-release. -/
theorem Version.Compare_pre_release (v o : Version) (h1 : v.Major = o.Major)
    (h2 : v.Minor = o.Minor) (h3 : v.Patch = o.Patch) (hv : v.Pre ≠ []) (ho : o.Pre = []) :
    v.Compare o = -1 := by
  have hlen : v.Pre.length ≠ 0 := by simpa using hv
  have hpos : v.Pre.length > 0 := by omega
  unfold Version.Compare
  simp [h1, h2, h3, ho, hlen, hpos]

theorem Range.BuildBlind_nil : Range.BuildBlind none := fun _ _ => rfl

theorem Range.BuildBlind_rangeFunc (vr : versionRange) : Range.BuildBlind vr.rangeFunc := by
  intro v b
  cases hc : vr.c <;>
    simp [versionRange.rangeFunc, Range.call, comparator.apply, hc, Version.Compare_build_left]

theorem Range.BuildBlind_AND (rf f : Range) (h1 : rf.BuildBlind) (h2 : f.BuildBlind) :
    (Range.AND rf f).BuildBlind := by
  intro v b
  simp only [Range.AND, Range.call]
  have e1 := h1 v b
  have e2 := h2 v b
  simp only [Range.call] at e1 e2
  rw [e1, e2]

theorem Range.BuildBlind_OR (rf f : Range) (h1 : rf.BuildBlind) (h2 : f.BuildBlind) :
    (Range.OR rf f).BuildBlind := by
  intro v b
  simp only [Range.OR, Range.call]
  have e1 := h1 v b
  have e2 := h2 v b
  simp only [Range.call] at e1 e2
  rw [e1, e2]

theorem parseAndGroup_BuildBlind : ∀ (parts : List Str) (andFn r : Range),
    andFn.BuildBlind → parseAndGroup parts andFn = .ok r → r.BuildBlind := by
  intro parts
  induction parts with
  | nil =>
    intro andFn r h hr
    simp only [parseAndGroup, Except.ok.injEq] at hr
    rw [← hr]
    exact h
  | cons ap rest ih =>
    intro andFn r h hr
    unfold parseAndGroup at hr
    split at hr
    · simp at hr
    · split at hr
      · simp at hr
      · next vr hvr =>
        refine ih _ r ?_ hr
        cases andFn with
        | none => exact Range.BuildBlind_rangeFunc vr
        | some f => exact Range.BuildBlind_AND _ _ h (Range.BuildBlind_rangeFunc vr)

theorem parseOrGroups_BuildBlind : ∀ (groups : List (List Str)) (orFn r : Range),
    orFn.BuildBlind → parseOrGroups groups orFn = .ok r → r.BuildBlind := by
  intro groups
  induction groups with
  | nil =>
    intro orFn r h hr
    simp only [parseOrGroups, Except.ok.injEq] at hr
    rw [← hr]
    exact h
  | cons p rest ih =>
    intro orFn r h hr
    unfold parseOrGroups at hr
    split at hr
    · simp at hr
    · next andFn hand =>
      have hb := parseAndGroup_BuildBlind p none andFn Range.BuildBlind_nil hand
      refine ih _ r ?_ hr
      cases orFn with
      | none => exact hb
      | some f => exact Range.BuildBlind_OR _ _ h hb

/-- A range that `ParseRange` returns gives the same answer for versions that differ in
the build meta data only. -/
theorem ParseRange_BuildBlind (s : Str) (r : Range) (h : ParseRange s = some (.ok r)) :
    r.BuildBlind := by
  unfold ParseRange at h
  split at h
  · simp at h
  · split at h
    · simp at h
    · simp at h
    · next groups _ =>
      simp only [Option.some.injEq] at h
      exact parseOrGroups_BuildBlind groups none r Range.BuildBlind_nil h

theorem Range.BuildBlind_dropError (res : Except GoError Range)
    (h : ∀ r, res = .ok r → r.BuildBlind) : (Range.dropError res).BuildBlind := by
  cases res with
  | error e => exact Range.BuildBlind_nil
  | ok r => exact h r rfl

end semver

/-- The range that `RetrieveRange` returns gives the same answer for versions that differ
in the build meta data only. -/
theorem Check.RetrieveRange_BuildBlind (c c1 : Check) (rangeSem : semver.Range)
    (h : c.RetrieveRange = some ((rangeSem, none), c1)) : rangeSem.BuildBlind := by
  obtain ⟨r, hr, hcase⟩ := Check.RetrieveRange_ok c c1 rangeSem h
  have hb := semver.ParseRange_BuildBlind _ r hr
  rcases hcase with ⟨_, hrs⟩ | ⟨_, res, hres, hrs⟩
  · rw [hrs]
    exact hb
  · rw [hrs]
    refine semver.Range.BuildBlind_AND _ _ hb (semver.Range.BuildBlind_dropError res ?_)
    intro r2 hr2
    rw [hr2] at hres
    exact semver.ParseRange_BuildBlind _ r2 hres

/-- In a list without a descent, an element that is strictly less than another one
stands before it. -/
theorem sort.before_of_pairwise {α : Type} (less : α → α → Bool) (l a b : List α) (p q : α)
    (hpw : l.Pairwise (fun x y => less y x = false)) (hl : l = a ++ q :: b) (hp : p ∈ l)
    (hne : p ≠ q) (hlt : less p q = true) : p ∈ a ∧ p ∉ b := by
  subst hl
  have hnb : p ∉ b := by
    intro hb
    rw [List.pairwise_append] at hpw
    have := (List.pairwise_cons.mp hpw.2.1).1 p hb
    rw [hlt] at this
    exact absurd this (by simp)
  refine ⟨?_, hnb⟩
  simp only [List.mem_append, List.mem_cons] at hp
  rcases hp with hp | hp | hp
  · exact hp
  · exact absurd hp hne
  · exact absurd hp hnb


/-- The range that `RetrieveRange` returns when the configured constraint parses to `r`
and the text of the previous version, if there is one, has no letter `x`: the call of `r`,
followed, when there is a previous path and `r` says yes, by the comparison with the
previous version. -/
theorem Check.RetrieveRange_spec (c : Check) (r : semver.Range)
    (hr : semver.ParseRange (c.SanitizeVersion c.source.Version) = some (.ok r))
    (hx : c.RetrieveSemverFilePrevious.Path ≠ [] →
      'x' ∉ c.RetrieveSemverFilePrevious.Version.String) :
    ∃ rangeSem c1, c.RetrieveRange = some ((rangeSem, none), c1) ∧
      ∀ v, rangeSem.call v =
        (r.call v).map (fun b => b &&
          (decide (c.RetrieveSemverFilePrevious.Path = []) ||
            v.GT c.RetrieveSemverFilePrevious.Version)) := by
  unfold Check.RetrieveRange
  rw [hr]
  by_cases hp : c.RetrieveSemverFilePrevious.Path = []
  · refine ⟨r, c, by simp [hp], ?_⟩
    intro v
    cases hb : r.call v with
    | none => rfl
    | some b => simp [hp]
  · have hwf : c.RetrieveSemverFilePrevious.Version.WF :=
      Check.SemverFromPath_WF c c.cmdVersion hp
    have hgt : (">".toList ++ c.RetrieveSemverFilePrevious.Version.String)
        = '>' :: c.RetrieveSemverFilePrevious.Version.String := rfl
    simp only [ne_eq, hp, not_false_eq_true, if_true, hgt,
      semver.ParseRange_gt _ hwf (hx hp)]
    refine ⟨_, _, rfl, ?_⟩
    intro v
    cases hb : r.call v with
    | none =>
      simp [semver.Range.AND, semver.Range.call, hb]
      simp [semver.Range.call] at hb
      simp [hb]
    | some b =>
      cases b <;>
        simp [semver.Range.AND, semver.Range.call, semver.Range.dropError,
          semver.versionRange.rangeFunc, semver.comparator.apply, semver.Version.GT, hp] <;>
        simp [semver.Range.call] at hb <;> simp [hb]

/-! ## What `RetrieveRange` returns and writes -/

/-- An error of `RetrieveRange` is the failure of the parse of the configured constraint. -/
theorem Check.RetrieveRange_error (c c1 : Check) (rangeSem : semver.Range) (e1 : GoError)
    (h : c.RetrieveRange = some ((rangeSem, some e1), c1)) :
    ∃ e, semver.ParseRange (c.SanitizeVersion c.source.Version) = some (.error e) := by
  unfold Check.RetrieveRange at h
  split at h
  · simp at h
  · next e hpr => exact ⟨e, hpr⟩
  · by_cases hp : c.RetrieveSemverFilePrevious.Path = []
    · simp [hp] at h
    · simp only [ne_eq, hp, not_false_eq_true, if_true] at h
      split at h
      · simp at h
      · simp at h

/-- The receiver after a call of `RetrieveRange` that returns no error: the version token
is the same, the configured constraint has the text `&& >previous` appended when there is a
previous path, and nothing is changed when there is none. -/
theorem Check.RetrieveRange_written (c c1 : Check) (rangeSem : semver.Range)
    (h : c.RetrieveRange = some ((rangeSem, none), c1)) :
    c1.cmdVersion = c.cmdVersion ∧
    (c.RetrieveSemverFilePrevious.Path ≠ [] →
      c1.source.Version = c.source.Version ++ " && >".toList
        ++ c.RetrieveSemverFilePrevious.Version.String) ∧
    (c.RetrieveSemverFilePrevious.Path = [] → c1 = c) := by
  unfold Check.RetrieveRange at h
  split at h
  · simp at h
  · simp at h
  · by_cases hp : c.RetrieveSemverFilePrevious.Path = []
    · simp only [hp, ne_eq, not_true_eq_false, if_false, Option.some.injEq, Prod.mk.injEq,
        and_true] at h
      rw [← h.2]
      exact ⟨rfl, fun h0 => absurd hp h0, fun _ => rfl⟩
    · simp only [ne_eq, hp, not_false_eq_true, if_true] at h
      split at h
      · simp at h
      · simp only [Option.some.injEq, Prod.mk.injEq, and_true] at h
        rw [← h.2]
        exact ⟨rfl, fun _ => rfl, fun h0 => absurd h0 hp⟩

/-- With an error `SemverFromPath` returns the zero `SemverFile`. -/
theorem Check.SemverFromPath_error_zero (c : Check) (path : Str)
    (h : (c.SemverFromPath path).2 ≠ none) : (c.SemverFromPath path).1 = SemverFile.zero := by
  by_cases hz : (c.SemverFromPath path).1.Path = []
  · unfold Check.SemverFromPath at hz ⊢
    by_cases hp : path = []
    · simp [hp]
    · simp only [if_neg hp] at hz ⊢
      split
      · rfl
      · next m hm =>
        by_cases hlen : m.length < 3
        · simp [hlen]
        · simp only [hm, hlen, if_false] at hz ⊢
          split
          · rfl
          · next v hv =>
            simp only [hv] at hz
            exact absurd hz hp
  · exact absurd (Check.SemverFromPath_of_path_ne c path hz).1 h


/-! ### The leftmost match -/

/-- The match that `FindStringSubmatch` returns starts at the leftmost place at which the
pattern matches: no match starts before it. -/
theorem Regex.FindStringSubmatch_leftmost (re : Regex) (n : Nat) :
    ∀ (s : Str) (m : List Str), re.FindStringSubmatch n s = some m →
      ∃ before rest, s = before ++ rest ∧ re.matchAt n rest = some m ∧
        ∀ b1 b2, before = b1 ++ b2 → b2 ≠ [] → re.matchAt n (b2 ++ rest) = none := by
  intro s
  induction s with
  | nil =>
    intro m h
    refine ⟨[], [], rfl, by simpa [Regex.FindStringSubmatch] using h, ?_⟩
    intro b1 b2 hb hne
    have : b2 = [] := by
      have hlen := congrArg List.length hb
      simp only [List.length_nil, List.length_append] at hlen
      exact List.length_eq_zero.mp (by omega)
    exact absurd this hne
  | cons c t ih =>
    intro m h
    rw [Regex.FindStringSubmatch] at h
    cases hm : re.matchAt n (c :: t) with
    | some m0 =>
      rw [hm] at h
      simp only [Option.some.injEq] at h
      subst h
      refine ⟨[], c :: t, rfl, hm, ?_⟩
      intro b1 b2 hb hne
      have : b2 = [] := by
        have hlen := congrArg List.length hb
        simp only [List.length_nil, List.length_append] at hlen
        exact List.length_eq_zero.mp (by omega)
      exact absurd this hne
    | none =>
      rw [hm] at h
      simp only at h
      obtain ⟨before, rest, hs, hmatch, hno⟩ := ih m h
      refine ⟨c :: before, rest, by rw [hs]; rfl, hmatch, ?_⟩
      intro b1 b2 hb hne
      cases b1 with
      | nil =>
        simp only [List.nil_append] at hb
        rw [← hb, List.cons_append, ← hs]
        exact hm
      | cons x xs =>
        simp only [List.cons_append, List.cons.injEq] at hb
        exact hno xs b2 hb.2 hne

/-- The value receiver matters: on the `Check` that `RetrieveRange` writes for the
constraint `>=1.0.0` and the previous path `a-1.0.0.zip`, discovery fails, because the
recorded text `>=1.0.0 && >1.0.0` is no range expression. -/
theorem Check.RetrieveVersions_of_written_receiver :
    ((Check.mk "a-1.0.0.zip".toList ⟨">=1.0.0".toList⟩).RetrieveRange).map
        (fun r => r.2.source.Version) = some ">=1.0.0 && >1.0.0".toList ∧
    (Check.mk "a-1.0.0.zip".toList ⟨">=1.0.0 && >1.0.0".toList⟩).RetrieveVersions
        [⟨"a-1.5.0.zip".toList⟩]
      = some (["a-1.0.0.zip".toList],
          some ⟨"Error when trying to create semver range: Could not get version from string: %q",
            ["&&".toList]⟩) ∧
    (Check.mk "a-1.0.0.zip".toList ⟨">=1.0.0".toList⟩).RetrieveVersions
        [⟨"a-1.5.0.zip".toList⟩]
      = some (["a-1.0.0.zip".toList, "a-1.5.0.zip".toList], none) := by
  decide


/-! ### The basename, the leftmost match and the case of the marker -/


/-- Splitting at a separator: the parts of the text before it, then the parts of the text
after it. -/
theorem strings.Split_append_sep (a b : Str) (sep : Char) :
    strings.Split (a ++ sep :: b) sep = strings.Split a sep ++ strings.Split b sep := by
  induction a with
  | nil => simp [strings.Split]
  | cons c cs ih =>
    by_cases hc : c = sep
    · simp [strings.Split, hc, ih]
    · have hne := strings.Split_ne_nil cs sep
      cases hs : strings.Split cs sep with
      | nil => exact absurd hs hne
      | cons h t =>
        simp [strings.Split, hc, ih, hs]

/-- The last part of a path split at `/` is the text after the last `/`. -/
theorem strings.Split_getLast (d base : Str) (sep : Char) (h : sep ∉ base) :
    (strings.Split (d ++ sep :: base) sep).getLast? = some base := by
  rw [strings.Split_append_sep, strings.Split_of_not_mem base sep h]
  simp

theorem filepath.Ext.loop_none (r acc : Str) (h : '.' ∉ r) : filepath.Ext.loop r acc = [] := by
  induction r generalizing acc with
  | nil => rfl
  | cons c cs ih =>
    have hc : c ≠ '.' := fun hc => h (by simp [hc])
    have hcs : '.' ∉ cs := fun hcs => h (List.mem_cons_of_mem _ hcs)
    unfold filepath.Ext.loop
    split_ifs
    · rfl
    · exact ih _ hcs

/-- A name without a dot has no extension. -/
theorem filepath.Ext_none (s : Str) (h : '.' ∉ s) : filepath.Ext s = [] :=
  filepath.Ext.loop_none _ _ (by simpa using h)

theorem filepath.Ext.loop_dot (r x acc : Str) (hdot : '.' ∉ r) (hslash : '/' ∉ r) :
    filepath.Ext.loop (r ++ '.' :: x) acc = '.' :: (r.reverse ++ acc) := by
  induction r generalizing acc with
  | nil => simp [filepath.Ext.loop]
  | cons c cs ih =>
    have hc : c ≠ '.' := fun hc => hdot (by simp [hc])
    have hc2 : c ≠ '/' := fun hc => hslash (by simp [hc])
    have hcs : '.' ∉ cs := fun hcs => hdot (List.mem_cons_of_mem _ hcs)
    have hcs2 : '/' ∉ cs := fun hcs => hslash (List.mem_cons_of_mem _ hcs)
    rw [List.cons_append, filepath.Ext.loop, if_neg hc2, if_neg hc, ih _ hcs hcs2]
    simp

/-- The extension of a name is the text from its last dot on, when no `/` follows that
dot. -/
theorem filepath.Ext_append (stem e : Str) (hdot : '.' ∉ e) (hslash : '/' ∉ e) :
    filepath.Ext (stem ++ '.' :: e) = '.' :: e := by
  unfold filepath.Ext
  rw [List.reverse_append, List.reverse_cons, List.append_assoc, List.singleton_append,
    filepath.Ext.loop_dot _ _ _ (by simpa using hdot) (by simpa using hslash)]
  simp

/-- A match has the whole text and one text for each group. -/
theorem Regex.matchAt_length (re : Regex) (n : Nat) (s : Str) (m : List Str)
    (h : re.matchAt n s = some m) : m.length = n + 1 := by
  unfold Regex.matchAt at h
  cases hh : (re.run ⟨s, []⟩).head? with
  | none => simp [hh] at h
  | some st =>
    simp only [hh, Option.map_some', Option.some.injEq] at h
    rw [← h]
    simp

/-- The converse of `Regex.FindStringSubmatch_leftmost`: when the pattern matches at `rest`
and at no place of the text `before`, the match at `rest` is the one that
`FindStringSubmatch` returns for `before ++ rest`. -/
theorem Regex.FindStringSubmatch_of_leftmost (re : Regex) (n : Nat) (rest : Str) (m : List Str)
    (hm : re.matchAt n rest = some m) :
    ∀ before : Str, (∀ b2 ∈ before.tails, b2 ≠ [] → re.matchAt n (b2 ++ rest) = none) →
      re.FindStringSubmatch n (before ++ rest) = some m := by
  intro before
  induction before with
  | nil =>
    intro _
    cases rest with
    | nil => simpa [Regex.FindStringSubmatch] using hm
    | cons c t =>
      rw [List.nil_append, Regex.FindStringSubmatch, hm]
  | cons b bs ih =>
    intro h
    have h1 := h (b :: bs) (by simp) (by simp)
    rw [List.cons_append] at h1 ⊢
    rw [Regex.FindStringSubmatch, h1]
    exact ih (fun b2 hb2 hne => h b2 (by simp [hb2]) hne)

/-- The version that `SemverFromPath` reads is the one of the leftmost match of the pattern
in the basename: `dir` is the path up to its last `/`, `base` the last segment, `ext` its
extension, and the rest of the basename is `before ++ rest` with the pattern matching at
`rest` and at no place of `before`. -/
theorem Check.SemverFromPath_leftmost (c : Check) (dir base ext before rest : Str)
    (m : List Str)
    (hdir : dir = [] ∨ ∃ d, dir = d ++ ['/']) (hbase : '/' ∉ base)
    (hne : dir ++ base ≠ [])
    (hstem : base = before ++ rest ++ ext)
    (hext : (ext = [] ∧ '.' ∉ base) ∨ ∃ e, ext = '.' :: e ∧ '.' ∉ e)
    (hm : SEMVER_REGEX.matchAt 2 rest = some m)
    (hleft : ∀ b2 ∈ before.tails, b2 ≠ [] → SEMVER_REGEX.matchAt 2 (b2 ++ rest) = none) :
    (∀ v, semver.Make (c.SanitizeVersion (m.getD 2 [])) = .ok v →
      c.SemverFromPath (dir ++ base) = (⟨dir ++ base, v⟩, none)) ∧
    (∀ err, semver.Make (c.SanitizeVersion (m.getD 2 [])) = .error err →
      c.SemverFromPath (dir ++ base) = (SemverFile.zero, some err)) := by
  have hlast : (strings.Split (dir ++ base) '/').getLast?.getD [] = base := by
    rcases hdir with hd | ⟨d, hd⟩
    · rw [hd, List.nil_append, strings.Split_of_not_mem _ _ hbase]
      rfl
    · rw [hd, List.append_assoc, List.singleton_append, strings.Split_getLast _ _ _ hbase]
      rfl
  have hfile : (if filepath.Ext base ≠ [] then strings.TrimSuffix base (filepath.Ext base)
      else base) = before ++ rest := by
    rcases hext with ⟨he, hdot⟩ | ⟨e, he, hdot⟩
    · rw [filepath.Ext_none _ hdot, if_neg (by simp), hstem, he, List.append_nil]
    · have hslash : '/' ∉ e := by
        intro hmem
        apply hbase
        rw [hstem, he]
        simp [hmem]
      rw [hstem, he, filepath.Ext_append _ _ hdot hslash, if_pos (by simp),
        strings.TrimSuffix_append]
  have hfind := Regex.FindStringSubmatch_of_leftmost SEMVER_REGEX 2 rest m hm before hleft
  have hlen := Regex.matchAt_length SEMVER_REGEX 2 rest m hm
  have hnot : ¬ m.length < 3 := by omega
  unfold Check.SemverFromPath
  simp only [if_neg hne, hlast, hfile, hfind, if_neg hnot]
  constructor
  · intro v hv
    rw [hv]
  · intro err herr
    rw [herr]

/-- The iteration of a step that passes the captures of the start state through does so
too. -/
theorem Regex.starLoop_push (step : MState → List MState) (extra : List (Nat × Str))
    (hstep : ∀ st : MState, step ⟨st.rest, st.caps ++ extra⟩
      = (step st).map (fun x => ⟨x.rest, x.caps ++ extra⟩)) :
    ∀ (fuel : Nat) (st : MState), Regex.starLoop step fuel ⟨st.rest, st.caps ++ extra⟩
      = (Regex.starLoop step fuel st).map (fun x => ⟨x.rest, x.caps ++ extra⟩) := by
  intro fuel
  induction fuel with
  | zero =>
    intro st
    simp [Regex.starLoop]
  | succ n ih =>
    intro st
    simp only [Regex.starLoop, hstep, List.flatMap_map, List.map_append, List.map_flatMap,
      List.map_cons, List.map_nil, ih]

/-- Captures that were closed before a match starts are passed through: they stay at the
end of the list of captures of every way of matching, and do not change these ways. -/
theorem Regex.run_push (r : Regex) (extra : List (Nat × Str)) :
    ∀ st : MState, r.run ⟨st.rest, st.caps ++ extra⟩
      = (r.run st).map (fun x => ⟨x.rest, x.caps ++ extra⟩) := by
  induction r with
  | cls p =>
    intro st
    rcases st with ⟨rest, caps⟩
    cases rest with
    | nil => simp [Regex.run]
    | cons c t =>
      by_cases hp : p c = true
      · simp [Regex.run, hp]
      · simp [Regex.run, hp]
  | seq a b iha ihb =>
    intro st
    simp only [Regex.run, iha, List.flatMap_map, List.map_flatMap, ihb]
  | alt a b iha ihb =>
    intro st
    simp only [Regex.run, iha, ihb, List.map_append]
  | opt a iha =>
    intro st
    simp only [Regex.run, iha, List.map_append, List.map_cons, List.map_nil]
  | star a iha =>
    intro st
    simp only [Regex.run]
    exact Regex.starLoop_push (fun t => a.run t) extra iha st.rest.length st
  | plus a iha =>
    intro st
    simp only [Regex.run, iha, List.flatMap_map, List.map_flatMap]
    congr 1
    funext t
    exact Regex.starLoop_push (fun u => a.run u) extra iha t.rest.length t
  | cap i a iha =>
    intro st
    simp only [Regex.run, iha, List.map_map]
    congr 1

theorem lookup_append_other (l : List (Nat × Str)) (x : Str) :
    (l ++ [(1, x)]).lookup 2 = l.lookup 2 := by
  induction l with
  | nil => rfl
  | cons p ps ih =>
    rcases p with ⟨k, y⟩
    by_cases hk : (2 : Nat) = k
    · subst hk
      simp [List.lookup]
    · have : ((2 : Nat) == k) = false := by simpa using hk
      simp [List.lookup, this, ih]

/-- The ways in which `SEMVER_REGEX` matches a text that starts with the marker `v`, in
either case: the marker is the first group and the rest of the pattern runs on the text
after it, or the first group is skipped and the version follows the marker. -/
theorem SEMVER_REGEX_run_marker (c : Char) (t : Str) (hc : c = 'v' ∨ c = 'V') :
    SEMVER_REGEX.run ⟨c :: t, []⟩
      = ((Regex.seq (.opt reV) (.cap 2 reVersion)).run ⟨t, []⟩).map
          (fun x => ⟨x.rest, x.caps ++ [(1, [c])]⟩)
        ++ (Regex.cap 2 reVersion).run ⟨t, []⟩ := by
  have hd : isAsciiDigit c = false := by
    rcases hc with h | h <;> subst h <;> decide
  have hreV : reV.run ⟨c :: t, ([] : List (Nat × Str))⟩ = [⟨t, []⟩] := by
    rcases hc with h | h <;> subst h <;> simp [reV, Regex.run]
  have hminus : (reLit '-').run ⟨c :: t, ([] : List (Nat × Str))⟩ = [] := by
    rcases hc with h | h <;> subst h <;> simp [reLit, Regex.run]
  have hunder : (reLit '_').run ⟨c :: t, ([] : List (Nat × Str))⟩ = [] := by
    rcases hc with h | h <;> subst h <;> simp [reLit, Regex.run]
  have hver : reVersion.run ⟨c :: t, ([] : List (Nat × Str))⟩ = [] :=
    reVersion_run_nil _ (noDigitHead_cons c t hd)
  have hpush := Regex.run_push (Regex.seq (.opt reV) (.cap 2 reVersion)) [(1, [c])] ⟨t, []⟩
  simp only [List.nil_append] at hpush
  unfold SEMVER_REGEX
  rw [Regex.run_seq, Regex.run_opt, Regex.run_cap, Regex.run_alt, Regex.run_alt, hreV, hminus,
    hunder]
  simp only [List.append_nil, List.map_cons, List.map_nil, List.singleton_append,
    List.flatMap_cons, List.flatMap_nil, List.length_cons]
  have htake : List.take (t.length + 1 - t.length) (c :: t) = [c] := by
    have : t.length + 1 - t.length = 1 := by omega
    rw [this]
    rfl
  rw [htake, hpush]
  congr 1
  rw [Regex.run_seq, Regex.run_opt, hreV]
  simp only [List.singleton_append, List.flatMap_cons, List.flatMap_nil, List.append_nil]
  rw [Regex.run_cap 2 reVersion ⟨c :: t, []⟩, hver]
  simp

/-- The ways in which `SEMVER_REGEX` matches a text that starts with `-` or `_` and the
marker `v`, in either case: the separator is the first group, the marker is passed, and
the version follows. -/
theorem SEMVER_REGEX_run_sep_marker (s c : Char) (t : Str) (hs : s = '-' ∨ s = '_')
    (hc : c = 'v' ∨ c = 'V') :
    SEMVER_REGEX.run ⟨s :: c :: t, []⟩ = (Regex.cap 2 reVersion).run ⟨t, [(1, [s])]⟩ := by
  have hd : isAsciiDigit c = false := by
    rcases hc with h | h <;> subst h <;> decide
  have hds : isAsciiDigit s = false := by
    rcases hs with h | h <;> subst h <;> decide
  have hreV : ∀ caps : List (Nat × Str), reV.run ⟨c :: t, caps⟩ = [⟨t, caps⟩] := by
    intro caps
    rcases hc with h | h <;> subst h <;> simp [reV, Regex.run]
  have hreVs : reV.run ⟨s :: c :: t, ([] : List (Nat × Str))⟩ = [] := by
    rcases hs with h | h <;> subst h <;> simp [reV, Regex.run]
  have halt : (Regex.alt reV (.alt (reLit '-') (reLit '_'))).run
      ⟨s :: c :: t, ([] : List (Nat × Str))⟩ = [⟨c :: t, []⟩] := by
    rcases hs with h | h <;> subst h <;> simp [reV, reLit, Regex.run]
  have hver : ∀ caps : List (Nat × Str), reVersion.run ⟨c :: t, caps⟩ = [] :=
    fun caps => reVersion_run_nil _ (noDigitHead_cons c t hd)
  have hvers : reVersion.run ⟨s :: c :: t, ([] : List (Nat × Str))⟩ = [] :=
    reVersion_run_nil _ (noDigitHead_cons s (c :: t) hds)
  have htake : List.take ((c :: t).length + 1 - (c :: t).length) (s :: c :: t) = [s] := by
    have : (c :: t).length + 1 - (c :: t).length = 1 := by omega
    rw [this]
    rfl
  unfold SEMVER_REGEX
  rw [Regex.run_seq, Regex.run_opt, Regex.run_cap, halt]
  simp only [List.map_cons, List.map_nil, List.singleton_append, List.flatMap_cons,
    List.flatMap_nil, List.append_nil, List.length_cons (a := s), htake]
  rw [Regex.run_seq, Regex.run_opt, hreV, Regex.run_seq, Regex.run_opt, hreVs]
  simp only [List.singleton_append, List.nil_append, List.flatMap_cons, List.flatMap_nil,
    List.append_nil]
  rw [Regex.run_cap 2 reVersion ⟨c :: t, [(1, [s])]⟩, hver, Regex.run_cap 2 reVersion ⟨s :: c :: t, []⟩,
    hvers]
  simp

/-- The flag `(?i)` at the marker: the version text that the pattern finds after the
marker `V`, alone or behind `-` or `_`, is the one it finds after `v`. -/
theorem SEMVER_REGEX_marker_case (p t : Str) (hp : p = [] ∨ p = ['-'] ∨ p = ['_']) :
    (SEMVER_REGEX.matchAt 2 (p ++ 'V' :: t)).map (fun m => m.getD 2 [])
      = (SEMVER_REGEX.matchAt 2 (p ++ 'v' :: t)).map (fun m => m.getD 2 []) := by
  unfold Regex.matchAt
  rcases hp with hp | hp | hp
  · subst hp
    rw [List.nil_append, List.nil_append, SEMVER_REGEX_run_marker 'V' t (Or.inr rfl),
      SEMVER_REGEX_run_marker 'v' t (Or.inl rfl)]
    cases h1 : (Regex.seq (.opt reV) (.cap 2 reVersion)).run ⟨t, []⟩ with
    | nil =>
      simp only [List.map_nil, List.nil_append, Option.map_map]
      cases ((Regex.cap 2 reVersion).run ⟨t, []⟩).head? with
      | none => rfl
      | some st => simp [List.range_succ]
    | cons y ys =>
      simp [List.range_succ, MState.group, lookup_append_other]
  · subst hp
    rw [List.singleton_append, List.singleton_append,
      SEMVER_REGEX_run_sep_marker '-' 'V' t (Or.inl rfl) (Or.inr rfl),
      SEMVER_REGEX_run_sep_marker '-' 'v' t (Or.inl rfl) (Or.inl rfl)]
    cases ((Regex.cap 2 reVersion).run ⟨t, [(1, ['-'])]⟩).head? with
    | none => rfl
    | some st => simp [List.range_succ]
  · subst hp
    rw [List.singleton_append, List.singleton_append,
      SEMVER_REGEX_run_sep_marker '_' 'V' t (Or.inr rfl) (Or.inr rfl),
      SEMVER_REGEX_run_sep_marker '_' 'v' t (Or.inr rfl) (Or.inl rfl)]
    cases ((Regex.cap 2 reVersion).run ⟨t, [(1, ['_'])]⟩).head? with
    | none => rfl
    | some st => simp [List.range_succ]


/-- The case of the marker does not change what `SemverFromPath` reads: two paths that
differ only in the case of the marker `v` at which the leftmost match of the basename
starts (alone or behind `-` or `_`) give the same version and the same error. -/
theorem Check.SemverFromPath_marker_case (c : Check) (dir before p t ext : Str)
    (hdir : dir = [] ∨ ∃ d, dir = d ++ ['/'])
    (hslash : '/' ∉ before ++ p ++ t ++ ext)
    (hp : p = [] ∨ p = ['-'] ∨ p = ['_'])
    (hext : (ext = [] ∧ '.' ∉ before ++ p ++ t) ∨ ∃ e, ext = '.' :: e ∧ '.' ∉ e)
    (hm : SEMVER_REGEX.matchAt 2 (p ++ 'v' :: t) ≠ none)
    (hleft : ∀ mark ∈ ['v', 'V'], ∀ b2 ∈ before.tails, b2 ≠ [] →
      SEMVER_REGEX.matchAt 2 (b2 ++ (p ++ mark :: t)) = none) :
    (c.SemverFromPath (dir ++ (before ++ (p ++ 'V' :: t) ++ ext))).1.Version
      = (c.SemverFromPath (dir ++ (before ++ (p ++ 'v' :: t) ++ ext))).1.Version ∧
    (c.SemverFromPath (dir ++ (before ++ (p ++ 'V' :: t) ++ ext))).2
      = (c.SemverFromPath (dir ++ (before ++ (p ++ 'v' :: t) ++ ext))).2 := by
  have hcase := SEMVER_REGEX_marker_case p t hp
  cases hv : SEMVER_REGEX.matchAt 2 (p ++ 'v' :: t) with
  | none => exact absurd hv hm
  | some mv =>
    cases hV : SEMVER_REGEX.matchAt 2 (p ++ 'V' :: t) with
    | none => simp [hv, hV] at hcase
    | some mV =>
      rw [hv, hV] at hcase
      simp only [Option.map_some', Option.some.injEq] at hcase
      simp only [List.mem_append, not_or] at hslash hext
      have key : ∀ (mark : Char) (m : List Str), mark ≠ '/' → mark ≠ '.' → mark ∈ ['v', 'V'] →
          SEMVER_REGEX.matchAt 2 (p ++ mark :: t) = some m →
          (∀ v, semver.Make (c.SanitizeVersion (m.getD 2 [])) = .ok v →
            c.SemverFromPath (dir ++ (before ++ (p ++ mark :: t) ++ ext))
              = (⟨dir ++ (before ++ (p ++ mark :: t) ++ ext), v⟩, none)) ∧
          (∀ err, semver.Make (c.SanitizeVersion (m.getD 2 [])) = .error err →
            c.SemverFromPath (dir ++ (before ++ (p ++ mark :: t) ++ ext))
              = (SemverFile.zero, some err)) := by
        intro mark m h1 h2 hmem hmatch
        refine Check.SemverFromPath_leftmost c dir (before ++ (p ++ mark :: t) ++ ext) ext before
          (p ++ mark :: t) m hdir ?_ ?_ rfl ?_ hmatch (hleft mark hmem)
        · simp only [List.mem_append, List.mem_cons, not_or]
          exact ⟨⟨hslash.1.1.1, hslash.1.1.2, fun h => h1 h.symm, hslash.1.2⟩, hslash.2⟩
        · simp
        · rcases hext with ⟨he, hdot⟩ | ⟨e, he, hdot⟩
          · left
            refine ⟨he, ?_⟩
            rw [he]
            simp only [List.mem_append, List.mem_cons, not_or, List.append_nil]
            exact ⟨hdot.1.1, hdot.1.2, fun h => h2 h.symm, hdot.2⟩
          · exact Or.inr ⟨e, he, hdot⟩
      have kV := key 'V' mV (by decide) (by decide) (by decide) hV
      have kv := key 'v' mv (by decide) (by decide) (by decide) hv
      rw [hcase] at kV
      cases hmake : semver.Make (c.SanitizeVersion (mv.getD 2 [])) with
      | ok v => rw [kV.1 v hmake, kv.1 v hmake]; exact ⟨rfl, rfl⟩
      | error err => rw [kV.2 err hmake, kv.2 err hmake]; exact ⟨rfl, rfl⟩


/-! ### The receiver of `RetrieveVersions` -/

/-- A call of `RetrieveRange` that returns an error has not written to its receiver. -/
theorem Check.RetrieveRange_error_receiver (c c1 : Check) (rangeSem : semver.Range)
    (e1 : GoError) (h : c.RetrieveRange = some ((rangeSem, some e1), c1)) : c1 = c := by
  unfold Check.RetrieveRange at h
  split at h
  · simp at h
  · simp only [Option.some.injEq, Prod.mk.injEq] at h
    exact h.2.symm
  · by_cases hp : c.RetrieveSemverFilePrevious.Path = []
    · simp [hp] at h
    · simp only [ne_eq, hp, not_false_eq_true, if_true] at h
      split at h
      · simp at h
      · simp at h

/-- The body of `RetrieveVersions` returns what the method returns. -/
theorem Check.RetrieveVersions_body_fst (c : Check) (results : List SearchResult) :
    (Check.RetrieveVersions.body c results).map Prod.fst = c.RetrieveVersions results := by
  unfold Check.RetrieveVersions.body Check.RetrieveVersions
  split_ifs
  · rfl
  · rfl
  · simp only [Check.RetrieveRange.receiver, Receiver.after]
    cases hr : c.RetrieveRange with
    | none => rfl
    | some r =>
      rcases r with ⟨⟨rangeSem, err⟩, c1⟩
      cases err with
      | some e => rfl
      | none =>
        simp only
        cases c1.ResultsToSemverFilesFiltered results rangeSem with
        | none => rfl
        | some semverFiles => rfl

/-- The receiver variable of `RetrieveVersions` at the return of its body. -/
theorem Check.RetrieveVersions_body_written (c : Check) (results : List SearchResult)
    (out : List Str × Option GoError) (written : Check)
    (h : Check.RetrieveVersions.body c results = some (out, written)) :
    written.cmdVersion = c.cmdVersion ∧
    (results ≠ [] → c.source.Version ≠ [] → out.2 = none →
      c.RetrieveSemverFilePrevious.Path ≠ [] →
      written.source.Version = c.source.Version ++ " && >".toList
        ++ c.RetrieveSemverFilePrevious.Version.String) ∧
    ((results = [] ∨ c.source.Version = [] ∨ out.2 ≠ none ∨
        c.RetrieveSemverFilePrevious.Path = []) → written = c) := by
  unfold Check.RetrieveVersions.body at h
  by_cases hl : results.length = 0
  · have hres : results = [] := List.length_eq_zero.mp hl
    simp only [hl, if_true, Option.some.injEq, Prod.mk.injEq] at h
    rw [← h.2]
    exact ⟨rfl, fun h0 => absurd hres h0, fun _ => rfl⟩
  · have hres : results ≠ [] := fun h0 => hl (by simp [h0])
    by_cases hv : c.source.Version = []
    · simp only [hl, hv, if_true, if_false, Option.some.injEq, Prod.mk.injEq] at h
      rw [← h.2]
      exact ⟨rfl, fun _ h0 => absurd hv h0, fun _ => rfl⟩
    · simp only [if_neg hl, if_neg hv, Check.RetrieveRange.receiver, Receiver.after] at h
      cases hr : c.RetrieveRange with
      | none => simp [hr] at h
      | some r =>
        rcases r with ⟨⟨rangeSem, err⟩, c1⟩
        rw [hr] at h
        cases err with
        | some e =>
          simp only [Option.some.injEq, Prod.mk.injEq] at h
          have hc1 := Check.RetrieveRange_error_receiver c c1 rangeSem e hr
          rw [← h.2, hc1]
          refine ⟨rfl, ?_, fun _ => rfl⟩
          intro _ _ hout
          rw [← h.1] at hout
          simp at hout
        | none =>
          simp only at h
          obtain ⟨h1, h2, h3⟩ := Check.RetrieveRange_written c c1 rangeSem hr
          cases hf : c1.ResultsToSemverFilesFiltered results rangeSem with
          | none => simp [hf] at h
          | some semverFiles =>
            rw [hf] at h
            simp only [Option.some.injEq, Prod.mk.injEq] at h
            rw [← h.2]
            refine ⟨h1, fun _ _ _ hp => h2 hp, ?_⟩
            rintro (h0 | h0 | h0 | h0)
            · exact absurd h0 hres
            · exact absurd h0 hv
            · rw [← h.1] at h0
              exact absurd rfl h0
            · exact h3 h0
/-! ## The claims -/

/-- C2: `SanitizeVersion` is a total function which, for every string `raw` split on the
dot (the number of components being the number of dots plus one), returns `raw` followed
by `.0.0` when there is exactly one component, `raw` followed by `.0` when there are
exactly two, and `raw` itself when there are three or more; `1`, `1.2`, `1.2.3` and
`1.2.3-rc1` are sent to `1.0.0`, `1.2.0`, `1.2.3` and `1.2.3-rc1`. -/
theorem Check.SanitizeVersion_spec (c : Check) :
    (∀ raw : Str, (strings.Split raw '.').length = raw.count '.' + 1) ∧
    (∀ raw : Str, (strings.Split raw '.').length = 1 →
      c.SanitizeVersion raw = raw ++ ".0.0".toList) ∧
    (∀ raw : Str, (strings.Split raw '.').length = 2 →
      c.SanitizeVersion raw = raw ++ ".0".toList) ∧
    (∀ raw : Str, 3 ≤ (strings.Split raw '.').length → c.SanitizeVersion raw = raw) ∧
    c.SanitizeVersion "1".toList = "1.0.0".toList ∧
    c.SanitizeVersion "1.2".toList = "1.2.0".toList ∧
    c.SanitizeVersion "1.2.3".toList = "1.2.3".toList ∧
    c.SanitizeVersion "1.2.3-rc1".toList = "1.2.3-rc1".toList := by
  refine ⟨fun raw => strings.Split_length raw _, ?_, ?_, ?_, ?_, ?_, ?_, ?_⟩
  · intro raw h
    simp [Check.SanitizeVersion, h]
  · intro raw h
    simp [Check.SanitizeVersion, h]
  · intro raw h
    have h1 : (strings.Split raw '.').length ≠ 1 := by omega
    have h2 : (strings.Split raw '.').length ≠ 2 := by omega
    simp [Check.SanitizeVersion, h1, h2]
  · rfl
  · rfl
  · rfl
  · rfl

/-- Witness of C2: a version of two components gets one zero component. -/
theorem Check.SanitizeVersion_spec_witness :
    (strings.Split "2.1".toList '.').length = 2 ∧
    (Check.mk [] ⟨[]⟩).SanitizeVersion "2.1".toList = "2.1.0".toList :=
  ⟨by decide, (Check.SanitizeVersion_spec (Check.mk [] ⟨[]⟩)).2.2.1 "2.1".toList (by decide)⟩

/-- C6: `SemverFromPath` of the empty path returns no error and the empty `SemverFile`;
and for every path, the returned `SemverFile` has a non-empty `Path` only when no error is
returned and the path is non-empty, and then the returned `Path` is the input path. -/
theorem Check.SemverFromPath_path (c : Check) :
    c.SemverFromPath [] = (SemverFile.zero, none) ∧ SemverFile.zero.Path = [] ∧
    ∀ path : Str, (c.SemverFromPath path).1.Path ≠ [] →
      (c.SemverFromPath path).2 = none ∧ path ≠ [] ∧ (c.SemverFromPath path).1.Path = path := by
  exact ⟨by simp [Check.SemverFromPath], rfl, fun path h => Check.SemverFromPath_of_path_ne c path h⟩

/-- Witness of C6: a path with a version comes back as the `Path` of the result. -/
theorem Check.SemverFromPath_path_witness :
    ((Check.mk [] ⟨[]⟩).SemverFromPath "a-1.0.0.zip".toList).1.Path ≠ [] ∧
    ((Check.mk [] ⟨[]⟩).SemverFromPath "a-1.0.0.zip".toList).2 = none ∧
    "a-1.0.0.zip".toList ≠ [] ∧
    ((Check.mk [] ⟨[]⟩).SemverFromPath "a-1.0.0.zip".toList).1.Path = "a-1.0.0.zip".toList :=
  ⟨by decide,
    (Check.SemverFromPath_path (Check.mk [] ⟨[]⟩)).2.2 "a-1.0.0.zip".toList (by decide)⟩

/-- C9: in unversioned mode (the configured constraint is the empty string),
`RetrieveVersions` returns, without error and for every candidate list and every previous
version, exactly the candidate paths in the order given. -/
theorem Check.RetrieveVersions_unversioned (c : Check) (results : List SearchResult)
    (h : c.source.Version = []) :
    c.RetrieveVersions results = some (results.map (fun file => file.Path), none) := by
  unfold Check.RetrieveVersions
  by_cases hr : results.length = 0
  · have : results = [] := List.length_eq_zero.mp hr
    simp [this]
  · simp [hr, h]

/-- Witness of C9: candidates that carry no version, given out of order, with a previous
version. -/
theorem Check.RetrieveVersions_unversioned_witness :
    (Check.mk "a-9.0.0.zip".toList ⟨[]⟩).source.Version = [] ∧
    (Check.mk "a-9.0.0.zip".toList ⟨[]⟩).RetrieveVersions
        [⟨"b-2.0.0.zip".toList⟩, ⟨"nightly.bin".toList⟩, ⟨"b-1.0.0.zip".toList⟩]
      = some (["b-2.0.0.zip".toList, "nightly.bin".toList, "b-1.0.0.zip".toList], none) :=
  ⟨rfl, Check.RetrieveVersions_unversioned _ _ rfl⟩

/-- C10: for the empty candidate list `RetrieveVersions` returns no error, whatever the
configured constraint and the previous version, and its output is empty or the previous
path alone (it is empty). -/
theorem Check.RetrieveVersions_no_candidates (c : Check) :
    ∃ versions : List Str, c.RetrieveVersions [] = some (versions, none) ∧
      (versions = [] ∨ versions = [c.RetrieveSemverFilePrevious.Path]) :=
  ⟨[], by simp [Check.RetrieveVersions], Or.inl rfl⟩

/-- C5: for every non-empty path that contains no decimal digit, `SemverFromPath` fails
with the error `Cannot find any semver in file.` and returns the zero `SemverFile`, whose
`Path` is empty. -/
theorem Check.SemverFromPath_no_digit (c : Check) (path : Str) (hne : path ≠ [])
    (hd : ∀ ch ∈ path, isAsciiDigit ch = false) :
    c.SemverFromPath path
      = (SemverFile.zero, some (errors.New "Cannot find any semver in file.")) ∧
    (c.SemverFromPath path).1.Path = [] := by
  have h : c.SemverFromPath path
      = (SemverFile.zero, some (errors.New "Cannot find any semver in file.")) := by
    unfold Check.SemverFromPath
    simp only [if_neg hne]
    rw [FindStringSubmatch_none _ (fun ch hch => hd ch (Check.searched_subset path ch hch))]
  exact ⟨h, by rw [h]; rfl⟩

/-- Witness of C5: the path `nightly-latest.bin`. -/
theorem Check.SemverFromPath_no_digit_witness :
    "nightly-latest.bin".toList ≠ [] ∧
    (∀ ch ∈ "nightly-latest.bin".toList, isAsciiDigit ch = false) ∧
    (Check.mk [] ⟨[]⟩).SemverFromPath "nightly-latest.bin".toList
      = (SemverFile.zero, some (errors.New "Cannot find any semver in file.")) ∧
    ((Check.mk [] ⟨[]⟩).SemverFromPath "nightly-latest.bin".toList).1.Path = [] :=
  ⟨by decide, by decide,
    Check.SemverFromPath_no_digit _ _ (by decide) (by decide)⟩

/-- C1 at a previous version whose text holds the letter `x`: the example of the
specification evaluates as expected, and a first discovery with the configured constraint
`>=1.0.0` and no previous version emits the candidate `app-1.1.0-linux.zip` (version
`1.1.0-linux`); but when that path comes back as the previous token, the range
`>1.1.0-linux` does not parse, the error is dropped, the `nil` range is combined with the
configured one, and `RetrieveVersions` panics at the candidate, which satisfies the
configured range, instead of returning the previous path alone. -/
theorem Check.RetrieveVersions_previous_x_panics :
    (Check.mk "a-1.0.0.zip".toList ⟨">=1.0.0 <2.0.0".toList⟩).RetrieveVersions
        [⟨"a-1.0.0.zip".toList⟩, ⟨"a-1.5.0.zip".toList⟩, ⟨"a-2.0.0.zip".toList⟩]
      = some (["a-1.0.0.zip".toList, "a-1.5.0.zip".toList], none) ∧
    (Check.mk [] ⟨">=1.0.0".toList⟩).RetrieveVersions [⟨"app-1.1.0-linux.zip".toList⟩]
      = some (["app-1.1.0-linux.zip".toList], none) ∧
    (Check.mk "app-1.1.0-linux.zip".toList ⟨">=1.0.0".toList⟩).RetrieveSemverFilePrevious
      = ⟨"app-1.1.0-linux.zip".toList, ⟨1, 1, 0, [⟨"linux".toList, 0, false⟩], []⟩⟩ ∧
    (semver.ParseRange ">=1.0.0".toList).map Except.toBool = some true ∧
    (semver.ParseRange ">1.1.0-linux".toList).map Except.toBool = some false ∧
    (Check.mk "app-1.1.0-linux.zip".toList ⟨">=1.0.0".toList⟩).RetrieveVersions
        [⟨"app-1.1.0-linux.zip".toList⟩] = none := by
  decide

/-- C3 at the input `build_2.zip`: the pattern needs two digits (its first and its last
numeric component are mandatory), so for the single digit `2` no match is found and
`SemverFromPath` fails, where the claim expects version `2.0.0`; a single component of two
digits, as in `build_20.zip`, is found and completed to `20.0.0`. -/
theorem Check.SemverFromPath_single_digit :
    (Check.mk [] ⟨[]⟩).SemverFromPath "build_2.zip".toList
      = (SemverFile.zero, some (errors.New "Cannot find any semver in file.")) ∧
    (Check.mk [] ⟨[]⟩).SemverFromPath "build_20.zip".toList
      = (⟨"build_20.zip".toList, ⟨20, 0, 0, [], []⟩⟩, none) := by
  decide

/-- C7 fails for the empty candidate list: in versioned mode with the previous path
`a-1.0.0.zip`, `RetrieveVersions` returns the empty list, so it returns no list whose
first element is the previous path. -/
theorem Check.RetrieveVersions_head_counterexample :
    (Check.mk "a-1.0.0.zip".toList ⟨"1".toList⟩).source.Version ≠ [] ∧
    (Check.mk "a-1.0.0.zip".toList ⟨"1".toList⟩).RetrieveSemverFilePrevious.Path
      = "a-1.0.0.zip".toList ∧
    (Check.mk "a-1.0.0.zip".toList ⟨"1".toList⟩).RetrieveVersions [] = some ([], none) ∧
    ¬ ∃ rest err, (Check.mk "a-1.0.0.zip".toList ⟨"1".toList⟩).RetrieveVersions []
      = some ((Check.mk "a-1.0.0.zip".toList ⟨"1".toList⟩).RetrieveSemverFilePrevious.Path :: rest,
          err) := by
  have h : (Check.mk "a-1.0.0.zip".toList ⟨"1".toList⟩).RetrieveVersions [] = some ([], none) := by
    decide
  refine ⟨by decide, by decide, h, ?_⟩
  rintro ⟨rest, err, h2⟩
  rw [h] at h2
  simp at h2

/-- C7 amended: in versioned mode, for every non-empty candidate list, whenever the
previous version has a non-empty path (which then is the previous token) and
`RetrieveVersions` returns a list, with or without an error, the first element of the list
is that path, whether or not the previous version satisfies the configured range; and a
list is returned when the configured constraint parses to a range whose call never panics
and the text of the previous version has no letter `x`. -/
theorem Check.RetrieveVersions_head (c : Check) (results : List SearchResult)
    (hres : results ≠ []) (hv : c.source.Version ≠ [])
    (hp : c.RetrieveSemverFilePrevious.Path ≠ []) :
    c.RetrieveSemverFilePrevious.Path = c.cmdVersion ∧
    (∀ (versions : List Str) (err : Option GoError),
      c.RetrieveVersions results = some (versions, err) →
      versions.head? = some c.RetrieveSemverFilePrevious.Path) ∧
    (∀ r : semver.Range,
      semver.ParseRange (c.SanitizeVersion c.source.Version) = some (.ok r) →
      (∀ v, ∃ b, r.call v = some b) → 'x' ∉ c.RetrieveSemverFilePrevious.Version.String →
      ∃ kept, c.RetrieveVersions results
        = some (c.RetrieveSemverFilePrevious.Path :: kept, none)) := by
  refine ⟨(Check.SemverFromPath_of_path_ne c c.cmdVersion hp).2.2, ?_, ?_⟩
  · intro versions err h
    unfold Check.RetrieveVersions at h
    have hl : results.length ≠ 0 := by
      simpa using hres
    simp only [if_neg hl, if_neg hv, if_pos hp] at h
    split at h
    · simp at h
    · simp only [Option.some.injEq, Prod.mk.injEq] at h
      rw [← h.1]
      rfl
    · split at h
      · simp at h
      · simp only [Option.some.injEq, Prod.mk.injEq] at h
        rw [← h.1]
        rfl
  · intro r hr htotal hx
    obtain ⟨kept, hk, _⟩ := Check.RetrieveVersions_versioned c results r hres hv hr htotal
      (fun _ => hx)
    rw [if_pos hp] at hk
    exact ⟨kept, hk⟩

/-- Witness of C7 amended: the previous version `0.5.0` does not satisfy the configured
range and is the first element of the output all the same. -/
theorem Check.RetrieveVersions_head_witness :
    (["a-0.5.0.zip".toList, "a-1.0.0.zip".toList, "a-1.5.0.zip".toList] : List Str).head?
      = some (Check.mk "a-0.5.0.zip".toList ⟨">=1.0.0 <2.0.0".toList⟩).RetrieveSemverFilePrevious.Path :=
  (Check.RetrieveVersions_head (Check.mk "a-0.5.0.zip".toList ⟨">=1.0.0 <2.0.0".toList⟩)
    [⟨"a-1.5.0.zip".toList⟩, ⟨"a-2.0.0.zip".toList⟩, ⟨"a-1.0.0.zip".toList⟩]
    (by decide) (by decide) (by decide)).2.1
    ["a-0.5.0.zip".toList, "a-1.0.0.zip".toList, "a-1.5.0.zip".toList] none (by decide)

/-- C4: for all numbers `X`, `Y`, `Z` below `2^64`, written in decimal without leading
zeros, `SemverFromPath` of `artifact-vX.Y.Z.tar.gz` returns no error and the `SemverFile`
whose `Path` is the whole input path and whose `Version` is `X.Y.Z` without pre-release
and without build meta data. -/
theorem Check.SemverFromPath_full_version (c : Check) (x y z : Nat) (hx : x < 2 ^ 64) (hy : y < 2 ^ 64) (hz : z < 2 ^ 64) :
    c.SemverFromPath ("artifact-v".toList ++ strconv.FormatUint x ++ ".".toList
        ++ strconv.FormatUint y ++ ".".toList ++ strconv.FormatUint z ++ ".tar.gz".toList)
      = ({ Path := "artifact-v".toList ++ strconv.FormatUint x ++ ".".toList
            ++ strconv.FormatUint y ++ ".".toList ++ strconv.FormatUint z ++ ".tar.gz".toList,
           Version := { Major := x, Minor := y, Patch := z, Pre := [], Build := [] } }, none) := by
  have hshape : "artifact-v".toList ++ strconv.FormatUint x ++ ".".toList
        ++ strconv.FormatUint y ++ ".".toList ++ strconv.FormatUint z ++ ".tar.gz".toList
      = ('a' :: 'r' :: 't' :: 'i' :: 'f' :: 'a' :: 'c' :: 't' :: '-' :: 'v' ::
          (strconv.FormatUint x ++ '.' :: (strconv.FormatUint y ++ '.' ::
            (strconv.FormatUint z ++ ".tar".toList)))) ++ ".gz".toList := by
    have h1 : ("artifact-v".toList : Str) = ['a', 'r', 't', 'i', 'f', 'a', 'c', 't', '-', 'v'] := by
      decide
    have h2 : (".tar.gz".toList : Str) = ".tar".toList ++ ".gz".toList := by decide
    have h3 : (".".toList : Str) = ['.'] := by decide
    rw [h1, h2, h3]
    simp
  have hslash : '/' ∉ "artifact-v".toList ++ strconv.FormatUint x ++ ".".toList
        ++ strconv.FormatUint y ++ ".".toList ++ strconv.FormatUint z ++ ".tar.gz".toList := by
    have hd : ∀ n, '/' ∉ strconv.FormatUint n := fun n hmem =>
      (isAsciiDigit_not_sep _ (strconv.FormatUint_all_digits _ _ hmem)).2.2.2.2.2.2 rfl
    simp only [List.mem_append, not_or]
    exact ⟨⟨⟨⟨⟨⟨by decide, hd x⟩, by decide⟩, hd y⟩, by decide⟩, hd z⟩, by decide⟩
  obtain ⟨st, hfirst, hgroup⟩ := SEMVER_REGEX_first_marked x y z ".tar".toList (by
    intro ch t heq
    have : ch = '.' := by
      have h4 : (".tar".toList : Str) = ['.', 't', 'a', 'r'] := by decide
      rw [h4] at heq
      simp only [List.cons.injEq] at heq
      exact heq.1.symm
    subst this
    decide)
  have hfind : ∃ whole, SEMVER_REGEX.FindStringSubmatch 2
      ('a' :: 'r' :: 't' :: 'i' :: 'f' :: 'a' :: 'c' :: 't' :: '-' :: 'v' ::
          (strconv.FormatUint x ++ '.' :: (strconv.FormatUint y ++ '.' ::
            (strconv.FormatUint z ++ ".tar".toList))))
      = some [whole, st.group 1, st.group 2] := by
    rw [FindStringSubmatch_skip 'a' _ (by decide) (by decide) (by decide) (by decide) (by decide),
      FindStringSubmatch_skip 'r' _ (by decide) (by decide) (by decide) (by decide) (by decide),
      FindStringSubmatch_skip 't' _ (by decide) (by decide) (by decide) (by decide) (by decide),
      FindStringSubmatch_skip 'i' _ (by decide) (by decide) (by decide) (by decide) (by decide),
      FindStringSubmatch_skip 'f' _ (by decide) (by decide) (by decide) (by decide) (by decide),
      FindStringSubmatch_skip 'a' _ (by decide) (by decide) (by decide) (by decide) (by decide),
      FindStringSubmatch_skip 'c' _ (by decide) (by decide) (by decide) (by decide) (by decide),
      FindStringSubmatch_skip 't' _ (by decide) (by decide) (by decide) (by decide) (by decide)]
    exact ⟨_, FindStringSubmatch_of_first _ _ st hfirst⟩
  obtain ⟨whole, hfind⟩ := hfind
  have hne : "artifact-v".toList ++ strconv.FormatUint x ++ ".".toList
        ++ strconv.FormatUint y ++ ".".toList ++ strconv.FormatUint z ++ ".tar.gz".toList ≠ [] := by
    rw [hshape]
    simp
  unfold Check.SemverFromPath
  rw [if_neg hne]
  simp only [strings.Split_of_not_mem _ _ hslash, List.getLast?_singleton, Option.getD_some]
  rw [hshape, filepath.Ext_gz, if_pos (by decide), strings.TrimSuffix_append, hfind]
  simp only [List.length_cons, List.length_nil, List.getD_cons_succ, List.getD_cons_zero, hgroup,
    Check.SanitizeVersion_three, semver.Make_three x y z hx hy hz]
  simp

/-- Witness of C4: `artifact-v1.2.3.tar.gz` yields version `1.2.3`. -/
theorem Check.SemverFromPath_full_version_witness :
    1 < 2 ^ 64 ∧ 2 < 2 ^ 64 ∧ 3 < 2 ^ 64 ∧
    (Check.mk [] ⟨[]⟩).SemverFromPath "artifact-v1.2.3.tar.gz".toList
      = ({ Path := "artifact-v1.2.3.tar.gz".toList,
           Version := { Major := 1, Minor := 2, Patch := 3, Pre := [], Build := [] } }, none) :=
  ⟨by norm_num, by norm_num, by norm_num,
    Check.SemverFromPath_full_version (Check.mk [] ⟨[]⟩) 1 2 3
      (by norm_num) (by norm_num) (by norm_num)⟩

/-- C8: in versioned mode, for every candidate list and every constraint, a list that
`RetrieveVersions` returns is ascending by the precedence of the versions that
`SemverFromPath` extracts from its paths: for all positions `i < j` the version at `j` is
not less than the version at `i`, the previous path, when present, being at position 0;
and a list is returned, without error, when the candidate list is not empty, the
constraint parses to a range whose call never panics and the text of the previous version,
if there is one, has no letter `x`. -/
theorem Check.RetrieveVersions_ascending (c : Check) (results : List SearchResult)
    (hv : c.source.Version ≠ []) :
    (∀ (versions : List Str) (err : Option GoError),
      c.RetrieveVersions results = some (versions, err) →
      versions.Pairwise (fun p q =>
        ((c.SemverFromPath q).1.Version).LT ((c.SemverFromPath p).1.Version) = false)) ∧
    (∀ r : semver.Range, results ≠ [] →
      semver.ParseRange (c.SanitizeVersion c.source.Version) = some (.ok r) →
      (∀ v, ∃ b, r.call v = some b) →
      (c.RetrieveSemverFilePrevious.Path ≠ [] →
        'x' ∉ c.RetrieveSemverFilePrevious.Version.String) →
      ∃ versions, c.RetrieveVersions results = some (versions, none)) := by
  constructor
  · intro versions err h
    unfold Check.RetrieveVersions at h
    by_cases hl : results.length = 0
    · simp only [hl, if_true, Option.some.injEq, Prod.mk.injEq] at h
      rw [← h.1]
      exact List.Pairwise.nil
    · simp only [if_neg hl, if_neg hv] at h
      split at h
      · simp at h
      · simp only [Option.some.injEq, Prod.mk.injEq] at h
        rw [← h.1]
        split_ifs
        · exact List.pairwise_singleton _ _
        · exact List.Pairwise.nil
      · next rangeSem c1 hrange =>
        split at h
        · simp at h
        · next sfs hsfs =>
          simp only [Option.some.injEq, Prod.mk.injEq] at h
          rw [← h.1]
          have hmem := Check.ResultsToSemverFilesFiltered_mem c1 rangeSem results sfs hsfs
          have hidem : ∀ sf ∈ sfs, c.SemverFromPath sf.Path = (sf, none) := by
            intro sf hsf
            obtain ⟨⟨file, _, hfile⟩, _⟩ := hmem sf hsf
            exact Check.SemverFromPath_idem c file.Path sf hfile
          have hsorted := Check.pairwise_sorted_paths c sfs hidem
          obtain ⟨r, hr, hcase⟩ := Check.RetrieveRange_ok c c1 rangeSem hrange
          rcases hcase with ⟨hp, _⟩ | ⟨hp, res, hres, hrs⟩
          · simp only [hp, ne_eq, not_true_eq_false, if_false, List.nil_append]
            exact hsorted
          · simp only [ne_eq, hp, not_false_eq_true, if_true]
            rw [List.pairwise_append]
            refine ⟨List.pairwise_singleton _ _, hsorted, ?_⟩
            intro p hpm q hq
            simp only [List.mem_singleton] at hpm
            subst hpm
            have hprev : (c.SemverFromPath c.RetrieveSemverFilePrevious.Path).1
                = c.RetrieveSemverFilePrevious := by
              have := (Check.SemverFromPath_of_path_ne c c.cmdVersion hp).2.2
              show (c.SemverFromPath (c.SemverFromPath c.cmdVersion).1.Path).1
                = (c.SemverFromPath c.cmdVersion).1
              rw [this]
            rw [hprev]
            simp only [Check.SemverFilesToVersions, List.mem_map] at hq
            obtain ⟨sf, hsf, rfl⟩ := hq
            have hsf2 : sf ∈ sfs :=
              (sort.Slice_sorted (fun a b : SemverFile => a.Version.LT b.Version)
                (fun a b => semver.Version.LT_asymm a.Version b.Version)
                (fun a b d h1 h2 => semver.Version.not_LT_trans d.Version b.Version a.Version h2 h1)
                sfs).2.subset hsf
            rw [hidem sf hsf2]
            have hcall := (hmem sf hsf2).2
            rw [hrs] at hcall
            have hgt := (Check.kept_after_previous c r res hp hres sf.Version hcall).1
            simp only [semver.Version.LT, decide_eq_false_iff_not]
            omega
  · intro r hres hr htotal hx
    obtain ⟨kept, hk, _⟩ := Check.RetrieveVersions_versioned c results r hres hv hr htotal hx
    exact ⟨_, hk⟩

/-- Witness of C8: three candidates given in descending order after the previous version
`1.0.0`. -/
theorem Check.RetrieveVersions_ascending_witness :
    (["a-1.0.0.zip".toList, "a-1.5.0.zip".toList, "a-2.0.0.zip".toList] : List Str).Pairwise
      (fun p q =>
        (((Check.mk "a-1.0.0.zip".toList ⟨">=1.0.0 <3.0.0".toList⟩).SemverFromPath q).1.Version).LT
          (((Check.mk "a-1.0.0.zip".toList ⟨">=1.0.0 <3.0.0".toList⟩).SemverFromPath p).1.Version)
          = false) :=
  (Check.RetrieveVersions_ascending (Check.mk "a-1.0.0.zip".toList ⟨">=1.0.0 <3.0.0".toList⟩)
    [⟨"a-2.0.0.zip".toList⟩, ⟨"a-1.5.0.zip".toList⟩, ⟨"a-1.0.0.zip".toList⟩]
    (by decide)).1
    ["a-1.0.0.zip".toList, "a-1.5.0.zip".toList, "a-2.0.0.zip".toList] none (by decide)

/-- C11: `RetrieveVersions` returns an error if and only if the candidate list is not
empty, the configured constraint is not empty, and the sanitized constraint fails to parse
as a range; a candidate whose extraction fails never shows in the output of versioned
discovery, and taking such a candidate out of the candidate list (when other candidates
remain) does not change what `RetrieveVersions` returns, so it never makes the call
fail. -/
theorem Check.RetrieveVersions_error_iff (c : Check) (results : List SearchResult) :
    ((∃ versions err, c.RetrieveVersions results = some (versions, some err)) ↔
      (results ≠ [] ∧ c.source.Version ≠ [] ∧
        ∃ e, semver.ParseRange (c.SanitizeVersion c.source.Version) = some (.error e))) ∧
    (∀ (versions : List Str) (err : Option GoError) (file : SearchResult),
      c.source.Version ≠ [] → c.RetrieveVersions results = some (versions, err) →
      file ∈ results → (c.SemverFromPath file.Path).2 ≠ none → file.Path ∉ versions) ∧
    (∀ (a b : List SearchResult) (bad : SearchResult),
      results = a ++ bad :: b → (c.SemverFromPath bad.Path).2 ≠ none →
      c.source.Version ≠ [] → a ++ b ≠ [] →
      c.RetrieveVersions results = c.RetrieveVersions (a ++ b)) := by
  refine ⟨⟨?_, ?_⟩, ?_, ?_⟩
  · rintro ⟨versions, err, h⟩
    unfold Check.RetrieveVersions at h
    by_cases hl : results.length = 0
    · simp [hl] at h
    · by_cases hv : c.source.Version = []
      · simp [hl, hv] at h
      · have hres : results ≠ [] := by
          intro h0
          simp [h0] at hl
        refine ⟨hres, hv, ?_⟩
        simp only [if_neg hl, if_neg hv] at h
        split at h
        · simp at h
        · next e1 c1 hrange => exact Check.RetrieveRange_error c c1 _ e1 hrange
        · split at h
          · simp at h
          · simp at h
  · rintro ⟨hres, hv, e, he⟩
    have hl : results.length ≠ 0 := by simpa using hres
    unfold Check.RetrieveVersions
    simp only [if_neg hl, if_neg hv]
    unfold Check.RetrieveRange
    rw [he]
    exact ⟨_, _, rfl⟩
  · intro versions err file hv h hfile hbad hmem
    by_cases hres : results = []
    · rw [hres] at hfile
      simp at hfile
    · obtain ⟨kept, hk, hkept⟩ := Check.RetrieveVersions_shape c results versions err hres hv h
      rw [hk] at hmem
      simp only [List.mem_append] at hmem
      rcases hmem with hmem | hmem
      · split_ifs at hmem with hp
        · simp only [List.mem_singleton] at hmem
          rw [hmem, Check.SemverFromPath_previous c hp] at hbad
          exact hbad rfl
        · simp at hmem
      · exact hbad (hkept _ hmem).1
  · intro a b bad hresults hbad hv hab
    subst hresults
    have hl1 : (a ++ bad :: b).length ≠ 0 := by simp
    have hl2 : (a ++ b).length ≠ 0 := by simpa using hab
    unfold Check.RetrieveVersions
    simp only [if_neg hl1, if_neg hl2, if_neg hv]
    split
    · rfl
    · rfl
    · next rangeSem c1 _ =>
      rw [Check.ResultsToSemverFilesFiltered_skip c1 rangeSem bad hbad a b]

/-- Witness of C11: the constraint `>>1.0.0` does not parse, so discovery returns an error;
and with the constraint `>=1.0.0` the candidate `nightly-latest.bin`, which has no version,
is left out of the output `a-1.2.0.zip`. -/
theorem Check.RetrieveVersions_error_iff_witness :
    (∃ versions err, (Check.mk [] ⟨">>1.0.0".toList⟩).RetrieveVersions
        [⟨"a-1.2.0.zip".toList⟩] = some (versions, some err)) ∧
    "nightly-latest.bin".toList ∉ ["a-1.2.0.zip".toList] :=
  ⟨(Check.RetrieveVersions_error_iff (Check.mk [] ⟨">>1.0.0".toList⟩)
      [⟨"a-1.2.0.zip".toList⟩]).1.2 ⟨by decide, by decide, _, rfl⟩,
   (Check.RetrieveVersions_error_iff (Check.mk [] ⟨">=1.0.0".toList⟩)
      [⟨"nightly-latest.bin".toList⟩, ⟨"a-1.2.0.zip".toList⟩]).2.1
      ["a-1.2.0.zip".toList] none ⟨"nightly-latest.bin".toList⟩
      (by decide) (by decide) (by decide) (by decide)⟩

/-- C12 at a previous version whose text holds the letter `x`: with the constraint
`>=1.0.0` and the previous path `a-1.0.0.zip` the predicate of `RetrieveRange` accepts
`2.0.0` and rejects `1.0.0`, as claimed; with the previous path `app-1.1.0-linux.zip`
(version `1.1.0-linux`) the version `2.0.0` satisfies the configured range and is strictly
greater than the previous version, yet `RetrieveRange` returns, without an error, a
predicate whose call on `2.0.0` does not return a truth value: the range `>1.1.0-linux`
failed to parse, the error was dropped, and the nil range was combined with the
configured one. -/
theorem Check.RetrieveRange_previous_x_panics :
    ((Check.mk "a-1.0.0.zip".toList ⟨">=1.0.0".toList⟩).RetrieveRange).map
        (fun r => (r.1.1.call ⟨2, 0, 0, [], []⟩, r.1.1.call ⟨1, 0, 0, [], []⟩, r.1.2))
      = some (some true, some false, none) ∧
    (Check.mk "app-1.1.0-linux.zip".toList ⟨">=1.0.0".toList⟩).RetrieveSemverFilePrevious
      = ⟨"app-1.1.0-linux.zip".toList, ⟨1, 1, 0, [⟨"linux".toList, 0, false⟩], []⟩⟩ ∧
    (semver.ParseRange ((Check.mk "app-1.1.0-linux.zip".toList ⟨">=1.0.0".toList⟩).SanitizeVersion
        ">=1.0.0".toList)).map (fun r => r.map (fun rf => rf.call ⟨2, 0, 0, [], []⟩))
      = some (.ok (some true)) ∧
    semver.Version.GT ⟨2, 0, 0, [], []⟩ ⟨1, 1, 0, [⟨"linux".toList, 0, false⟩], []⟩ = true ∧
    ((Check.mk "app-1.1.0-linux.zip".toList ⟨">=1.0.0".toList⟩).RetrieveRange).map
        (fun r => (r.1.1.call ⟨2, 0, 0, [], []⟩, r.1.2))
      = some (none, none) := by
  decide

/-- C13: discovery is idempotent. `RetrieveVersions` is declared with a value receiver and
`RetrieveRange` with a pointer receiver: the body of `RetrieveVersions` works on a copy of
the `Check` of the caller, and `c.RetrieveRange()` writes into that copy. A call returns
what `RetrieveVersions` returns; after a call that returns, the `Check` of the caller is
the one before the call, and a second call on it with the same candidate list returns the
same output and leaves it unchanged again. The copy at the return of the body differs from
the `Check` of the caller exactly when the range was built with a previous version: then
its `source.Version` is the constraint followed by ` && >` and the previous version. On
the example (constraint `>=1.0.0`, previous path `a-1.0.0.zip`) the copy holds
`>=1.0.0 && >1.0.0`, the caller keeps `>=1.0.0`, and a call on the written copy would fail
with a range error: the write does not reach the second call. -/
theorem Check.RetrieveVersions_idempotent (c : Check) (results : List SearchResult) :
    (c.callRetrieveVersions results).map Prod.fst = c.RetrieveVersions results ∧
    (∀ (first : List Str × Option GoError) (c1 : Check),
      c.callRetrieveVersions results = some (first, c1) →
      c1 = c ∧ c1.callRetrieveVersions results = some (first, c1)) ∧
    (∀ (out : List Str × Option GoError) (written : Check),
      Check.RetrieveVersions.body c results = some (out, written) →
      written.cmdVersion = c.cmdVersion ∧
      (results ≠ [] → c.source.Version ≠ [] → out.2 = none →
        c.RetrieveSemverFilePrevious.Path ≠ [] →
        written.source.Version = c.source.Version ++ " && >".toList
          ++ c.RetrieveSemverFilePrevious.Version.String) ∧
      ((results = [] ∨ c.source.Version = [] ∨ out.2 ≠ none ∨
          c.RetrieveSemverFilePrevious.Path = []) → written = c)) ∧
    Check.RetrieveVersions.body (Check.mk "a-1.0.0.zip".toList ⟨">=1.0.0".toList⟩)
        [⟨"a-1.5.0.zip".toList⟩]
      = some ((["a-1.0.0.zip".toList, "a-1.5.0.zip".toList], none),
          Check.mk "a-1.0.0.zip".toList ⟨">=1.0.0 && >1.0.0".toList⟩) ∧
    (Check.mk "a-1.0.0.zip".toList ⟨">=1.0.0".toList⟩).callRetrieveVersions
        [⟨"a-1.5.0.zip".toList⟩]
      = some ((["a-1.0.0.zip".toList, "a-1.5.0.zip".toList], none),
          Check.mk "a-1.0.0.zip".toList ⟨">=1.0.0".toList⟩) ∧
    (Check.mk "a-1.0.0.zip".toList ⟨">=1.0.0 && >1.0.0".toList⟩).callRetrieveVersions
        [⟨"a-1.5.0.zip".toList⟩]
      = some ((["a-1.0.0.zip".toList],
          some ⟨"Error when trying to create semver range: Could not get version from string: %q",
            ["&&".toList]⟩),
          Check.mk "a-1.0.0.zip".toList ⟨">=1.0.0 && >1.0.0".toList⟩) := by
  refine ⟨?_, ?_, ?_, by decide, by decide, by decide⟩
  · rw [← Check.RetrieveVersions_body_fst]
    unfold Check.callRetrieveVersions
    cases Check.RetrieveVersions.body c results with
    | none => rfl
    | some r => rfl
  · intro first c1 h
    have hc1 : c1 = c := by
      unfold Check.callRetrieveVersions at h
      cases hb : Check.RetrieveVersions.body c results with
      | none => simp [hb] at h
      | some r =>
        simp only [hb, Option.map_some', Option.some.injEq, Prod.mk.injEq,
          Check.RetrieveVersions.receiver, Receiver.after] at h
        exact h.2.symm
    refine ⟨hc1, ?_⟩
    rw [hc1] at h ⊢
    exact h
  · intro out written h
    exact Check.RetrieveVersions_body_written c results out written h

/-- Witness of C13: with the constraint `>=1.0.0`, the previous path `a-1.0.0.zip` and the
candidates `1.5.0`, `0.5.0`, the first call returns the previous path and `a-1.5.0.zip`
and leaves the `Check` as it was, so the second call is the same call; the copy written
by the body holds `>=1.0.0 && >1.0.0`. -/
theorem Check.RetrieveVersions_idempotent_witness :
    (Check.mk "a-1.0.0.zip".toList ⟨">=1.0.0".toList⟩
      = Check.mk "a-1.0.0.zip".toList ⟨">=1.0.0".toList⟩ ∧
     (Check.mk "a-1.0.0.zip".toList ⟨">=1.0.0".toList⟩).callRetrieveVersions
        [⟨"a-1.5.0.zip".toList⟩, ⟨"a-0.5.0.zip".toList⟩]
      = some ((["a-1.0.0.zip".toList, "a-1.5.0.zip".toList], none),
          Check.mk "a-1.0.0.zip".toList ⟨">=1.0.0".toList⟩)) ∧
    (Check.mk "a-1.0.0.zip".toList ⟨">=1.0.0 && >1.0.0".toList⟩).source.Version
      = ">=1.0.0 && >1.0.0".toList :=
  ⟨(Check.RetrieveVersions_idempotent (Check.mk "a-1.0.0.zip".toList ⟨">=1.0.0".toList⟩)
      [⟨"a-1.5.0.zip".toList⟩, ⟨"a-0.5.0.zip".toList⟩]).2.1
      (["a-1.0.0.zip".toList, "a-1.5.0.zip".toList], none)
      (Check.mk "a-1.0.0.zip".toList ⟨">=1.0.0".toList⟩) (by decide),
   (((Check.RetrieveVersions_idempotent (Check.mk "a-1.0.0.zip".toList ⟨">=1.0.0".toList⟩)
      [⟨"a-1.5.0.zip".toList⟩, ⟨"a-0.5.0.zip".toList⟩]).2.2.1
      (["a-1.0.0.zip".toList, "a-1.5.0.zip".toList], none)
      (Check.mk "a-1.0.0.zip".toList ⟨">=1.0.0 && >1.0.0".toList⟩) (by decide)).2.1
      (by decide) (by decide) (by decide) (by decide)).trans (by decide)⟩

/-- C14: after `defaultingParams` the number of threads is strictly positive: it is 3 when
it was zero or negative before and is unchanged when it was positive; the target, the
source folder, the archive flag and the source configuration are not modified. -/
theorem Out.defaultingParams_spec (c : Out) :
    0 < c.defaultingParams.params.Threads ∧
    (c.params.Threads ≤ 0 → c.defaultingParams.params.Threads = 3) ∧
    (0 < c.params.Threads → c.defaultingParams.params.Threads = c.params.Threads) ∧
    c.defaultingParams.params.Target = c.params.Target ∧
    c.defaultingParams.params.Source = c.params.Source ∧
    c.defaultingParams.params.ExplodeArchive = c.params.ExplodeArchive ∧
    c.defaultingParams.source = c.source := by
  unfold Out.defaultingParams
  by_cases h : c.params.Threads ≤ 0
  · rw [if_pos h]
    exact ⟨by show (0 : Int) < 3; decide, fun _ => rfl, fun h2 => absurd h (by omega), rfl, rfl, rfl,
      rfl⟩
  · rw [if_neg h]
    exact ⟨by omega, fun h2 => absurd h2 h, fun _ => rfl, rfl, rfl, rfl, rfl⟩

/-- Witness of C14: zero threads and minus two threads become 3, eight threads stay
eight. -/
theorem Out.defaultingParams_spec_witness :
    (Out.mk ⟨[]⟩ ⟨"repo/path".toList, "build".toList, 0, false⟩).defaultingParams.params.Threads
      = 3 ∧
    (Out.mk ⟨[]⟩ ⟨"repo/path".toList, "build".toList, -2, false⟩).defaultingParams.params.Threads
      = 3 ∧
    (Out.mk ⟨[]⟩ ⟨"repo/path".toList, "build".toList, 8, true⟩).defaultingParams.params.Threads
      = 8 :=
  ⟨(Out.defaultingParams_spec
      (Out.mk ⟨[]⟩ ⟨"repo/path".toList, "build".toList, 0, false⟩)).2.1 (by decide),
   (Out.defaultingParams_spec
      (Out.mk ⟨[]⟩ ⟨"repo/path".toList, "build".toList, -2, false⟩)).2.1 (by decide),
   (Out.defaultingParams_spec
      (Out.mk ⟨[]⟩ ⟨"repo/path".toList, "build".toList, 8, true⟩)).2.2.1 (by decide)⟩

/-- C15 at the path `releases/a-1.2.3`, whose last segment ends with a full version and
has no file extension: `filepath.Ext` takes `.3` for the extension, it is stripped before
the search, and `SemverFromPath` yields `1.2.0`, not `1.2.3`, whereas the same name with
an extension, `releases/a-1.2.3.zip`, yields `1.2.3`. -/
theorem Check.SemverFromPath_without_extension :
    (Check.mk [] ⟨[]⟩).SemverFromPath "releases/a-1.2.3".toList
      = (⟨"releases/a-1.2.3".toList, ⟨1, 2, 0, [], []⟩⟩, none) ∧
    (Check.mk [] ⟨[]⟩).SemverFromPath "releases/a-1.2.3.zip".toList
      = (⟨"releases/a-1.2.3.zip".toList, ⟨1, 2, 3, [], []⟩⟩, none) ∧
    filepath.Ext "a-1.2.3".toList = ".3".toList ∧
    filepath.Ext "a-1.2.3.zip".toList = ".zip".toList := by
  decide

/-- C16 fails for the empty candidate list: in versioned mode with the previous path
`a-1.0.0.zip`, `RetrieveVersions` returns the empty list, in which the previous path does
not occur once but never. -/
theorem Check.RetrieveVersions_previous_once_counterexample :
    (Check.mk "a-1.0.0.zip".toList ⟨"1".toList⟩).source.Version ≠ [] ∧
    (Check.mk "a-1.0.0.zip".toList ⟨"1".toList⟩).RetrieveSemverFilePrevious.Path
      = "a-1.0.0.zip".toList ∧
    (Check.mk "a-1.0.0.zip".toList ⟨"1".toList⟩).RetrieveVersions [] = some ([], none) ∧
    ¬ ∃ versions err, (Check.mk "a-1.0.0.zip".toList ⟨"1".toList⟩).RetrieveVersions []
        = some (versions, err) ∧
      versions.count
        (Check.mk "a-1.0.0.zip".toList ⟨"1".toList⟩).RetrieveSemverFilePrevious.Path = 1 := by
  have h : (Check.mk "a-1.0.0.zip".toList ⟨"1".toList⟩).RetrieveVersions [] = some ([], none) := by
    decide
  refine ⟨by decide, by decide, h, ?_⟩
  rintro ⟨versions, err, h2, hc⟩
  rw [h] at h2
  simp only [Option.some.injEq, Prod.mk.injEq] at h2
  rw [← h2.1] at hc
  simp at hc

/-- C16 amended: in versioned mode with a previous version and a candidate list that is not
empty, whenever `RetrieveVersions` returns, its output is the previous path followed by
paths whose extracted version is strictly greater than the previous version; a candidate
whose version is not strictly greater (the previous path itself, or any candidate with the
previous version) is not among them, and the previous path occurs exactly once in the
output. The call does return, with the previous path at the head, when the configured
range parses to a range that answers for every version and the text of the previous
version has no letter `x`. -/
theorem Check.RetrieveVersions_after_previous (c : Check) (results : List SearchResult)
    (hres : results ≠ []) (hv : c.source.Version ≠ [])
    (hp : c.RetrieveSemverFilePrevious.Path ≠ []) :
    (∀ (versions : List Str) (err : Option GoError),
      c.RetrieveVersions results = some (versions, err) →
      ∃ kept, versions = c.RetrieveSemverFilePrevious.Path :: kept ∧
        (∀ q ∈ kept,
          ((c.SemverFromPath q).1.Version).GT c.RetrieveSemverFilePrevious.Version = true) ∧
        (∀ file ∈ results,
          ((c.SemverFromPath file.Path).1.Version).GT c.RetrieveSemverFilePrevious.Version = false →
          file.Path ∉ kept) ∧
        c.RetrieveSemverFilePrevious.Path ∉ kept ∧
        versions.count c.RetrieveSemverFilePrevious.Path = 1) ∧
    (∀ r : semver.Range,
      semver.ParseRange (c.SanitizeVersion c.source.Version) = some (.ok r) →
      (∀ v, ∃ b, r.call v = some b) → 'x' ∉ c.RetrieveSemverFilePrevious.Version.String →
      ∃ kept, c.RetrieveVersions results
        = some (c.RetrieveSemverFilePrevious.Path :: kept, none)) := by
  constructor
  · intro versions err h
    obtain ⟨kept, hk, hkept⟩ := Check.RetrieveVersions_shape c results versions err hres hv h
    rw [if_pos hp, List.singleton_append] at hk
    have hgt : ∀ q ∈ kept,
        ((c.SemverFromPath q).1.Version).GT c.RetrieveSemverFilePrevious.Version = true := by
      intro q hq
      simp only [semver.Version.GT, decide_eq_true_eq]
      exact (hkept q hq).2.2 hp
    have hnot : c.RetrieveSemverFilePrevious.Path ∉ kept := by
      intro hmem
      have h1 := hgt _ hmem
      rw [Check.SemverFromPath_previous c hp] at h1
      simp only [semver.Version.GT, decide_eq_true_eq, semver.Version.Compare_self] at h1
      exact absurd h1 (by decide)
    refine ⟨kept, hk, hgt, ?_, hnot, ?_⟩
    · intro file _ hfalse hmem
      rw [hgt _ hmem] at hfalse
      exact absurd hfalse (by simp)
    · rw [hk, List.count_cons_self, List.count_eq_zero_of_not_mem hnot]
  · intro r hr htotal hx
    obtain ⟨kept, hk, _⟩ := Check.RetrieveVersions_versioned c results r hres hv hr htotal
      (fun _ => hx)
    rw [if_pos hp, List.singleton_append] at hk
    exact ⟨kept, hk⟩

/-- Witness of C16 amended: with the constraint `>=1.0.0 <2.0.0`, the previous path
`a-1.0.0.zip` and the candidates `1.0.0`, `1.5.0`, `2.0.0`, the output is the previous
path followed by `a-1.5.0.zip`. -/
theorem Check.RetrieveVersions_after_previous_witness :
    ∃ kept, ["a-1.0.0.zip".toList, "a-1.5.0.zip".toList]
        = (Check.mk "a-1.0.0.zip".toList ⟨">=1.0.0 <2.0.0".toList⟩).RetrieveSemverFilePrevious.Path
          :: kept ∧
      (∀ q ∈ kept,
        (((Check.mk "a-1.0.0.zip".toList ⟨">=1.0.0 <2.0.0".toList⟩).SemverFromPath q).1.Version).GT
          (Check.mk "a-1.0.0.zip".toList ⟨">=1.0.0 <2.0.0".toList⟩).RetrieveSemverFilePrevious.Version
          = true) ∧
      (∀ file ∈ [(⟨"a-1.0.0.zip".toList⟩ : SearchResult), ⟨"a-1.5.0.zip".toList⟩,
          ⟨"a-2.0.0.zip".toList⟩],
        (((Check.mk "a-1.0.0.zip".toList ⟨">=1.0.0 <2.0.0".toList⟩).SemverFromPath
            file.Path).1.Version).GT
          (Check.mk "a-1.0.0.zip".toList ⟨">=1.0.0 <2.0.0".toList⟩).RetrieveSemverFilePrevious.Version
          = false →
        file.Path ∉ kept) ∧
      (Check.mk "a-1.0.0.zip".toList ⟨">=1.0.0 <2.0.0".toList⟩).RetrieveSemverFilePrevious.Path
        ∉ kept ∧
      (["a-1.0.0.zip".toList, "a-1.5.0.zip".toList] : List Str).count
        (Check.mk "a-1.0.0.zip".toList ⟨">=1.0.0 <2.0.0".toList⟩).RetrieveSemverFilePrevious.Path
        = 1 :=
  (Check.RetrieveVersions_after_previous
    (Check.mk "a-1.0.0.zip".toList ⟨">=1.0.0 <2.0.0".toList⟩)
    [⟨"a-1.0.0.zip".toList⟩, ⟨"a-1.5.0.zip".toList⟩, ⟨"a-2.0.0.zip".toList⟩]
    (by decide) (by decide) (by decide)).1
    ["a-1.0.0.zip".toList, "a-1.5.0.zip".toList] none (by decide)

/-- C17: the version is taken from the leftmost match of the pattern in the basename,
matched case-insensitively, and later matches are ignored. For every path, split into the
text `dir` up to its last `/`, the last segment `base` and the extension `ext` of that
segment: when the rest of the basename is `before ++ rest`, the pattern matches at `rest`
and at no place of `before`, then `SemverFromPath` returns the version made of the second
group of that match, with the whole path, or the error of `semver.Make` for it; nothing
else of the path matters. Two paths that differ only in the case of the marker `v` at
which the leftmost match starts give the same version and the same error. The match
that `FindStringSubmatch` returns is the leftmost one. On the examples:
`x86_64-app-1.2.3.zip` yields `86.0.0` although `-1.2.3` matches further right,
`app-V1.2.3.zip` yields the same version as `app-v1.2.3.zip`, and the upper-case
pre-release tag of `a-1.0.0-RC1.zip` is accepted. -/
theorem Check.SemverFromPath_first_match (c : Check) :
    (∀ (dir base ext before rest : Str) (m : List Str),
      (dir = [] ∨ ∃ d, dir = d ++ ['/']) → '/' ∉ base → dir ++ base ≠ [] →
      base = before ++ rest ++ ext →
      ((ext = [] ∧ '.' ∉ base) ∨ ∃ e, ext = '.' :: e ∧ '.' ∉ e) →
      SEMVER_REGEX.matchAt 2 rest = some m →
      (∀ b2 ∈ before.tails, b2 ≠ [] → SEMVER_REGEX.matchAt 2 (b2 ++ rest) = none) →
      (∀ v, semver.Make (c.SanitizeVersion (m.getD 2 [])) = .ok v →
        c.SemverFromPath (dir ++ base) = (⟨dir ++ base, v⟩, none)) ∧
      (∀ err, semver.Make (c.SanitizeVersion (m.getD 2 [])) = .error err →
        c.SemverFromPath (dir ++ base) = (SemverFile.zero, some err))) ∧
    (∀ (dir before p t ext : Str),
      (dir = [] ∨ ∃ d, dir = d ++ ['/']) → '/' ∉ before ++ p ++ t ++ ext →
      (p = [] ∨ p = ['-'] ∨ p = ['_']) →
      ((ext = [] ∧ '.' ∉ before ++ p ++ t) ∨ ∃ e, ext = '.' :: e ∧ '.' ∉ e) →
      SEMVER_REGEX.matchAt 2 (p ++ 'v' :: t) ≠ none →
      (∀ mark ∈ ['v', 'V'], ∀ b2 ∈ before.tails, b2 ≠ [] →
        SEMVER_REGEX.matchAt 2 (b2 ++ (p ++ mark :: t)) = none) →
      (c.SemverFromPath (dir ++ (before ++ (p ++ 'V' :: t) ++ ext))).1.Version
        = (c.SemverFromPath (dir ++ (before ++ (p ++ 'v' :: t) ++ ext))).1.Version ∧
      (c.SemverFromPath (dir ++ (before ++ (p ++ 'V' :: t) ++ ext))).2
        = (c.SemverFromPath (dir ++ (before ++ (p ++ 'v' :: t) ++ ext))).2) ∧
    (∀ (s : Str) (m : List Str), SEMVER_REGEX.FindStringSubmatch 2 s = some m →
      ∃ before rest, s = before ++ rest ∧ SEMVER_REGEX.matchAt 2 rest = some m ∧
        ∀ b1 b2, before = b1 ++ b2 → b2 ≠ [] → SEMVER_REGEX.matchAt 2 (b2 ++ rest) = none) ∧
    c.SemverFromPath "x86_64-app-1.2.3.zip".toList
      = (⟨"x86_64-app-1.2.3.zip".toList, ⟨86, 0, 0, [], []⟩⟩, none) ∧
    SEMVER_REGEX.FindStringSubmatch 2 "x86_64-app-1.2.3".toList
      = some ["86".toList, [], "86".toList] ∧
    SEMVER_REGEX.matchAt 2 "-1.2.3".toList = some ["-1.2.3".toList, "-".toList, "1.2.3".toList] ∧
    c.SemverFromPath "app-V1.2.3.zip".toList
      = (⟨"app-V1.2.3.zip".toList, ⟨1, 2, 3, [], []⟩⟩, none) ∧
    c.SemverFromPath "app-v1.2.3.zip".toList
      = (⟨"app-v1.2.3.zip".toList, ⟨1, 2, 3, [], []⟩⟩, none) ∧
    (c.SemverFromPath "app-V1.2.3.zip".toList).1.Version
      = (c.SemverFromPath "app-v1.2.3.zip".toList).1.Version ∧
    c.SemverFromPath "a-1.0.0-RC1.zip".toList
      = (⟨"a-1.0.0-RC1.zip".toList, ⟨1, 0, 0, [⟨"RC1".toList, 0, false⟩], []⟩⟩, none) := by
  refine ⟨?_, ?_, Regex.FindStringSubmatch_leftmost SEMVER_REGEX 2, ?_, by decide, by decide,
    ?_, ?_, ?_, ?_⟩
  · intro dir base ext before rest m hdir hbase hne hstem hext hm hleft
    exact Check.SemverFromPath_leftmost c dir base ext before rest m hdir hbase hne hstem hext
      hm hleft
  · intro dir before p t ext hdir hslash hp hext hm hleft
    exact Check.SemverFromPath_marker_case c dir before p t ext hdir hslash hp hext hm hleft
  · have h : (Check.mk [] ⟨[]⟩).SemverFromPath "x86_64-app-1.2.3.zip".toList
        = (⟨"x86_64-app-1.2.3.zip".toList, ⟨86, 0, 0, [], []⟩⟩, none) := by decide
    exact h
  · have h : (Check.mk [] ⟨[]⟩).SemverFromPath "app-V1.2.3.zip".toList
        = (⟨"app-V1.2.3.zip".toList, ⟨1, 2, 3, [], []⟩⟩, none) := by decide
    exact h
  · have h : (Check.mk [] ⟨[]⟩).SemverFromPath "app-v1.2.3.zip".toList
        = (⟨"app-v1.2.3.zip".toList, ⟨1, 2, 3, [], []⟩⟩, none) := by decide
    exact h
  · have h : ((Check.mk [] ⟨[]⟩).SemverFromPath "app-V1.2.3.zip".toList).1.Version
        = ((Check.mk [] ⟨[]⟩).SemverFromPath "app-v1.2.3.zip".toList).1.Version := by decide
    exact h
  · have h : (Check.mk [] ⟨[]⟩).SemverFromPath "a-1.0.0-RC1.zip".toList
        = (⟨"a-1.0.0-RC1.zip".toList, ⟨1, 0, 0, [⟨"RC1".toList, 0, false⟩], []⟩⟩, none) := by
      decide
    exact h

/-- Witness of C17: in the path `v1.0.0/x86_64-app-2.0.0.zip` the directory and the later
match `-2.0.0` are ignored and the leftmost match `86` of the basename gives `86.0.0`; the
paths `releases/app-V1.2.3.zip` and `releases/app-v1.2.3.zip` give the same version; and
in `x86_64-app-1.2.3` the pattern matches at no place to the left of `86`. -/
theorem Check.SemverFromPath_first_match_witness :
    (Check.mk [] ⟨[]⟩).SemverFromPath "v1.0.0/x86_64-app-2.0.0.zip".toList
      = (⟨"v1.0.0/x86_64-app-2.0.0.zip".toList, ⟨86, 0, 0, [], []⟩⟩, none) ∧
    ((Check.mk [] ⟨[]⟩).SemverFromPath "releases/app-V1.2.3.zip".toList).1.Version
      = ((Check.mk [] ⟨[]⟩).SemverFromPath "releases/app-v1.2.3.zip".toList).1.Version ∧
    ∃ before rest, "x86_64-app-1.2.3".toList = before ++ rest ∧
      SEMVER_REGEX.matchAt 2 rest = some ["86".toList, [], "86".toList] ∧
      ∀ b1 b2, before = b1 ++ b2 → b2 ≠ [] → SEMVER_REGEX.matchAt 2 (b2 ++ rest) = none :=
  ⟨((Check.SemverFromPath_first_match (Check.mk [] ⟨[]⟩)).1 "v1.0.0/".toList
      "x86_64-app-2.0.0.zip".toList ".zip".toList "x".toList "86_64-app-2.0.0".toList
      ["86".toList, [], "86".toList] (Or.inr ⟨"v1.0.0".toList, by decide⟩) (by decide)
      (by decide) (by decide) (Or.inr ⟨"zip".toList, by decide, by decide⟩) (by decide)
      (by decide)).1 _ (by decide),
   ((Check.SemverFromPath_first_match (Check.mk [] ⟨[]⟩)).2.1 "releases/".toList "app".toList
      "-".toList "1.2.3".toList ".zip".toList (Or.inr ⟨"releases".toList, by decide⟩)
      (by decide) (by decide) (Or.inr ⟨"zip".toList, by decide, by decide⟩) (by decide)
      (by decide)).1,
   (Check.SemverFromPath_first_match (Check.mk [] ⟨[]⟩)).2.2.1 "x86_64-app-1.2.3".toList
    ["86".toList, [], "86".toList] (by decide)⟩

/-- C18: in the output of versioned discovery, a path whose version carries a pre-release
tag stands before every occurrence of a path with the same major, minor and patch numbers
and no pre-release tag (the constraint `>=0.0.0` and the candidates `a-1.0.0.zip`,
`a-1.0.0-rc1.zip` give `a-1.0.0-rc1.zip`, `a-1.0.0.zip`); two versions that differ only
in build meta data compare as equal, neither is strictly before the other, and every range
that parses, as well as the range that `RetrieveRange` returns, gives the same answer for
both. -/
theorem Check.RetrieveVersions_pre_release_first (c : Check) (results : List SearchResult)
    (hv : c.source.Version ≠ []) :
    (∀ (versions : List Str) (err : Option GoError) (p q : Str),
      c.RetrieveVersions results = some (versions, err) → p ∈ versions →
      (c.SemverFromPath p).1.Version.Major = (c.SemverFromPath q).1.Version.Major →
      (c.SemverFromPath p).1.Version.Minor = (c.SemverFromPath q).1.Version.Minor →
      (c.SemverFromPath p).1.Version.Patch = (c.SemverFromPath q).1.Version.Patch →
      (c.SemverFromPath p).1.Version.Pre ≠ [] → (c.SemverFromPath q).1.Version.Pre = [] →
      ∀ a b, versions = a ++ q :: b → p ∈ a ∧ p ∉ b) ∧
    (Check.mk [] ⟨">=0.0.0".toList⟩).RetrieveVersions
        [⟨"a-1.0.0.zip".toList⟩, ⟨"a-1.0.0-rc1.zip".toList⟩]
      = some (["a-1.0.0-rc1.zip".toList, "a-1.0.0.zip".toList], none) ∧
    (∀ v o : semver.Version, v.Major = o.Major → v.Minor = o.Minor → v.Patch = o.Patch →
      v.Pre = o.Pre →
      v.Compare o = 0 ∧ v.LT o = false ∧ o.LT v = false ∧
      (∀ (s : Str) (r : semver.Range), semver.ParseRange s = some (.ok r) →
        r.call v = r.call o) ∧
      (∀ (rangeSem : semver.Range) (c1 : Check),
        c.RetrieveRange = some ((rangeSem, none), c1) → rangeSem.call v = rangeSem.call o)) := by
  refine ⟨?_, by decide, ?_⟩
  · intro versions err p q h hpmem h1 h2 h3 hpre hq a b hab
    have hpw := Check.RetrieveVersions_pairwise c results versions err hv h
    have hlt := semver.Version.Compare_pre_release _ _ h1 h2 h3 hpre hq
    have hne : p ≠ q := by
      intro hpq
      rw [hpq] at hpre
      exact hpre hq
    exact sort.before_of_pairwise
      (fun x y : Str => ((c.SemverFromPath x).1.Version).LT ((c.SemverFromPath y).1.Version))
      versions a b p q hpw hab hpmem hne (by simp [semver.Version.LT, hlt])
  · intro v o h1 h2 h3 h4
    have hc := semver.Version.Compare_build_only v o h1 h2 h3 h4
    have hc2 := semver.Version.Compare_build_only o v h1.symm h2.symm h3.symm h4.symm
    have ho : o = { v with Build := o.Build } := by
      cases v
      cases o
      simp_all
    refine ⟨hc, by simp [semver.Version.LT, hc], by simp [semver.Version.LT, hc2], ?_, ?_⟩
    · intro s r hr
      rw [ho]
      exact (semver.ParseRange_BuildBlind s r hr v o.Build).symm
    · intro rangeSem c1 hr
      rw [ho]
      exact (Check.RetrieveRange_BuildBlind c c1 rangeSem hr v o.Build).symm

/-- Witness of C18: in the output for the candidates `a-1.0.0.zip`, `a-1.0.0-rc1.zip`
under `>=0.0.0`, the path `a-1.0.0-rc1.zip` stands before `a-1.0.0.zip` and not after
it. -/
theorem Check.RetrieveVersions_pre_release_first_witness :
    "a-1.0.0-rc1.zip".toList ∈ ["a-1.0.0-rc1.zip".toList] ∧
    "a-1.0.0-rc1.zip".toList ∉ ([] : List Str) :=
  (Check.RetrieveVersions_pre_release_first (Check.mk [] ⟨">=0.0.0".toList⟩)
    [⟨"a-1.0.0.zip".toList⟩, ⟨"a-1.0.0-rc1.zip".toList⟩] (by decide)).1
    ["a-1.0.0-rc1.zip".toList, "a-1.0.0.zip".toList] none
    "a-1.0.0-rc1.zip".toList "a-1.0.0.zip".toList
    (by decide) (by decide) (by decide) (by decide) (by decide) (by decide) (by decide)
    ["a-1.0.0-rc1.zip".toList] [] (by decide)

/-- C19: a previous version token from which no version can be extracted is treated as no
previous version: the previous path is empty, and for every candidate list and constraint
`RetrieveVersions` returns what it returns with an empty previous token. -/
theorem Check.RetrieveVersions_previous_without_version (c : Check)
    (results : List SearchResult) (h : (c.SemverFromPath c.cmdVersion).2 ≠ none) :
    c.RetrieveSemverFilePrevious.Path = [] ∧
    c.RetrieveVersions results = (Check.mk [] c.source).RetrieveVersions results := by
  have hprev : c.RetrieveSemverFilePrevious = SemverFile.zero :=
    Check.SemverFromPath_error_zero c c.cmdVersion h
  have hprev0 : (Check.mk [] c.source).RetrieveSemverFilePrevious = SemverFile.zero := rfl
  refine ⟨by rw [hprev]; rfl, ?_⟩
  unfold Check.RetrieveVersions Check.RetrieveRange
  simp only [hprev, hprev0]
  have hz : SemverFile.zero.Path = [] := rfl
  simp only [hz, ne_eq, not_true_eq_false, if_false]
  split_ifs
  · rfl
  · rfl
  · have hs : (Check.mk [] c.source).SanitizeVersion (Check.mk [] c.source).source.Version
        = c.SanitizeVersion c.source.Version := rfl
    rw [hs]
    cases hpr : semver.ParseRange (c.SanitizeVersion c.source.Version) with
    | none => rfl
    | some res =>
      cases res with
      | error e => rfl
      | ok r =>
        simp only
        rw [Check.ResultsToSemverFilesFiltered_receiver c (Check.mk [] c.source) r results]
        rfl

/-- Witness of C19: the previous token `nightly-latest.bin` with the constraint
`>=1.0.0`. -/
theorem Check.RetrieveVersions_previous_without_version_witness :
    (Check.mk "nightly-latest.bin".toList
        ⟨">=1.0.0".toList⟩).RetrieveSemverFilePrevious.Path = [] ∧
    (Check.mk "nightly-latest.bin".toList ⟨">=1.0.0".toList⟩).RetrieveVersions
        [⟨"a-1.5.0.zip".toList⟩, ⟨"a-0.5.0.zip".toList⟩]
      = (Check.mk [] ⟨">=1.0.0".toList⟩).RetrieveVersions
          [⟨"a-1.5.0.zip".toList⟩, ⟨"a-0.5.0.zip".toList⟩] :=
  Check.RetrieveVersions_previous_without_version
    (Check.mk "nightly-latest.bin".toList ⟨">=1.0.0".toList⟩)
    [⟨"a-1.5.0.zip".toList⟩, ⟨"a-0.5.0.zip".toList⟩] (by decide)

/-- C20: `SanitizeVersion` appends its zero components at the very end of the string:
`1.2-rc1` becomes `1.2-rc1.0`, the text the pattern finds in `app-1.2-rc1` is `1.2-rc1`,
`semver.Make` rejects `1.2-rc1.0`, so `SemverFromPath` of `app-1.2-rc1.zip` returns an
error, not version `1.2.0-rc1`, and discovery drops the candidate. -/
theorem Check.SanitizeVersion_appends_last (c : Check) :
    (∀ raw : Str, ∃ zeros : Str, c.SanitizeVersion raw = raw ++ zeros ∧
      (zeros = [] ∨ zeros = ".0".toList ∨ zeros = ".0.0".toList)) ∧
    c.SanitizeVersion "1.2-rc1".toList = "1.2-rc1.0".toList ∧
    SEMVER_REGEX.FindStringSubmatch 2 "app-1.2-rc1".toList
      = some ["-1.2-rc1".toList, "-".toList, "1.2-rc1".toList] ∧
    semver.Make "1.2-rc1.0".toList
      = .error ⟨"Invalid character(s) found in minor number %q", ["2-rc1".toList]⟩ ∧
    c.SemverFromPath "app-1.2-rc1.zip".toList
      = (SemverFile.zero,
          some ⟨"Invalid character(s) found in minor number %q", ["2-rc1".toList]⟩) ∧
    (Check.mk [] ⟨">=0.0.0".toList⟩).RetrieveVersions
        [⟨"app-1.2-rc1.zip".toList⟩, ⟨"app-1.3.0.zip".toList⟩]
      = some (["app-1.3.0.zip".toList], none) := by
  refine ⟨?_, rfl, by decide, by decide, ?_, by decide⟩
  · intro raw
    unfold Check.SanitizeVersion
    simp only
    split_ifs
    · exact ⟨_, rfl, Or.inr (Or.inr rfl)⟩
    · exact ⟨_, rfl, Or.inr (Or.inl rfl)⟩
    · exact ⟨[], by simp, Or.inl rfl⟩
  · have h : (Check.mk [] ⟨[]⟩).SemverFromPath "app-1.2-rc1.zip".toList
        = (SemverFile.zero,
            some ⟨"Invalid character(s) found in minor number %q", ["2-rc1".toList]⟩) := by
      decide
    exact h
